import Mathlib

/-!
# The chunk encoder of the om file format (`om_encoder.c`)

A shallow embedding of `OmEncoder_init`, the size queries,
`OmEncoder_compressChunk`, the look-up table functions `OmEncoder_lutBufferSize`
and `OmEncoder_compressLut`, and the variable accessors of `om_file_reader.c`,
together with the properties proved about them.

* `size_t` values are natural numbers; every `size_t` operation of the source is
  reduced modulo `2 ^ 64` (`sizeMod`), exactly as unsigned C arithmetic wraps.
* C arrays passed by pointer (`dimensions`, `chunks`, `arrayOffset`, ...) are
  lists read with `List.getD _ i 0`.
* Undefined or aborting behaviour (division by zero, a failing `assert`) is a
  value of `OmFault` in the `Except` monad.
* The `while (true)` loop of `OmEncoder_compressChunk` takes a fuel argument;
  running out of fuel is the separate fault `OmFault.outOfFuel`.
* Loop counters (`int i`, `int64_t i`) over the axes are natural numbers: the
  number of axes `dimension_count` is far below `2 ^ 31`.  The `int` counter of
  `OmEncoder_lutBufferSize` runs over the groups of the look-up table; there the
  overflow of the counter is the fault `OmFault.counterOverflow`.
* Memory is addressed in elements: `array` in units of `bytes_per_element`,
  `chunkBuffer` in units of `bytes_per_element_compressed`.  Memory behind a
  pointer is a function on offsets; the sizes of the objects behind the pointers
  are not part of the embedding.  The callbacks live in `om_common.c`,
  `delta2d.c` and the vendored codecs; they are a parameter (`OmCallbacks`,
  `P4ndenc64`) of the embedding.
-/

namespace OmFile

/-! ## Machine arithmetic -/

/-- One more than the largest `size_t` value (`2 ^ 64`). -/
def sizeMod : Nat := 18446744073709551616

/-- Faults that end a run without a result. -/
inductive OmFault where
  | divisionByZero
  | assertLengthArrayCount
  | assertLengthArrayDimensions
  | assertReadInBounds
  | assertWriteInBounds
  | outOfFuel
  | counterOverflow
  deriving DecidableEq

/-- Wrapping `size_t` addition. -/
def addw (a b : Nat) : Nat := (a + b) % sizeMod

/-- Wrapping `size_t` subtraction (`a - b` on operands below `2 ^ 64`). -/
def subw (a b : Nat) : Nat := (a + (sizeMod - b % sizeMod)) % sizeMod

/-- Wrapping `size_t` multiplication. -/
def mulw (a b : Nat) : Nat := (a * b) % sizeMod

/-- Unsigned division; a zero divisor is a fault. -/
def divw (a b : Nat) : Except OmFault Nat :=
  if b = 0 then .error .divisionByZero else .ok (a / b)

/-- Unsigned remainder; a zero divisor is a fault. -/
def modw (a b : Nat) : Except OmFault Nat :=
  if b = 0 then .error .divisionByZero else .ok (a % b)

/-- The macro `divide_rounded_up(dividend, divisor)` of `om_common.h`:
`(_dividend + _divisor - 1) / _divisor` on `size_t` operands. -/
def divide_rounded_up (dividend divisor : Nat) : Except OmFault Nat :=
  divw (subw (addw dividend divisor) 1) divisor

/-- The macro `min(a, b)` of `om_common.h`: `_a < _b ? _a : _b`. -/
def omMin (a b : Nat) : Nat := if a < b then a else b

/-! ## Enumerations of `om_common.h` -/

/-- The type `OmError_t`. -/
inductive OmError_t where
  | ERROR_OK
  | ERROR_INVALID_COMPRESSION_TYPE
  | ERROR_INVALID_DATA_TYPE
  | ERROR_INVALID_LUT_CHUNK_LENGTH
  | ERROR_OUT_OF_BOUND_READ
  deriving DecidableEq

def DATA_TYPE_INT8 : Nat := 0
def DATA_TYPE_UINT8 : Nat := 1
def DATA_TYPE_INT16 : Nat := 2
def DATA_TYPE_UINT16 : Nat := 3
def DATA_TYPE_INT32 : Nat := 4
def DATA_TYPE_UINT32 : Nat := 5
def DATA_TYPE_INT64 : Nat := 6
def DATA_TYPE_UINT64 : Nat := 7
def DATA_TYPE_FLOAT : Nat := 8
def DATA_TYPE_DOUBLE : Nat := 9

def COMPRESSION_PFOR_16BIT_DELTA2D : Nat := 0
def COMPRESSION_FPX_XOR2D : Nat := 1
def COMPRESSION_PFOR_16BIT_DELTA2D_LOGARITHMIC : Nat := 3

/-- The functions a `compress_copy_callback` pointer can be set to. -/
inductive om_compress_copy_callback_t where
  | om_common_copy8
  | om_common_copy16
  | om_common_copy32
  | om_common_copy64
  | om_common_copy_float_to_int16
  | om_common_copy_float_to_int16_log10
  deriving DecidableEq

/-- The functions a `compress_filter_callback` pointer can be set to. -/
inductive om_compress_filter_callback_t where
  | delta2d_encode
  | delta2d_encode_xor
  | delta2d_encode_xor_double
  deriving DecidableEq

/-- The functions a `compress_callback` pointer can be set to. -/
inductive om_compress_callback_t where
  | p4nzenc128v16
  | om_common_compress_fpxenc32
  | om_common_compress_fpxenc64
  deriving DecidableEq

/-! ## The encoder -/

/-- The struct `OmEncoder_t`.  `F` stands for the C type `float`. -/
structure OmEncoder_t (F : Type) where
  scale_factor : F
  add_offset : F
  dimensions : List Nat
  chunks : List Nat
  dimension_count : Nat
  lut_chunk_element_count : Nat
  bytes_per_element : Nat
  bytes_per_element_compressed : Nat
  compress_copy_callback : om_compress_copy_callback_t
  compress_filter_callback : om_compress_filter_callback_t
  compress_callback : om_compress_callback_t

open OmError_t om_compress_copy_callback_t om_compress_filter_callback_t
  om_compress_callback_t

/-- The first `switch` of `OmEncoder_init` (on `data_type`): element sizes and
copy function, or `none` for the `default` label. -/
def initDataType {F : Type} (e : OmEncoder_t F) (data_type : Nat) :
    Option (OmEncoder_t F) :=
  if data_type = DATA_TYPE_INT8 ∨ data_type = DATA_TYPE_UINT8 then
    some { e with bytes_per_element := 1, bytes_per_element_compressed := 1,
                  compress_copy_callback := om_common_copy8 }
  else if data_type = DATA_TYPE_INT16 ∨ data_type = DATA_TYPE_UINT16 then
    some { e with bytes_per_element := 2, bytes_per_element_compressed := 2,
                  compress_copy_callback := om_common_copy16 }
  else if data_type = DATA_TYPE_INT32 ∨ data_type = DATA_TYPE_UINT32
      ∨ data_type = DATA_TYPE_FLOAT then
    some { e with bytes_per_element := 4, bytes_per_element_compressed := 4,
                  compress_copy_callback := om_common_copy32 }
  else if data_type = DATA_TYPE_INT64 ∨ data_type = DATA_TYPE_UINT64
      ∨ data_type = DATA_TYPE_DOUBLE then
    some { e with bytes_per_element := 8, bytes_per_element_compressed := 8,
                  compress_copy_callback := om_common_copy32 }
  else none

/-- The second `switch` of `OmEncoder_init` (on `compression`). -/
def initCompression {F : Type} (e : OmEncoder_t F) (compression data_type : Nat) :
    OmError_t × OmEncoder_t F :=
  if compression = COMPRESSION_PFOR_16BIT_DELTA2D then
    if data_type ≠ DATA_TYPE_FLOAT then (ERROR_INVALID_DATA_TYPE, e)
    else
      (ERROR_OK,
        { e with bytes_per_element := 4, bytes_per_element_compressed := 2,
                 compress_copy_callback := om_common_copy_float_to_int16,
                 compress_filter_callback := delta2d_encode,
                 compress_callback := p4nzenc128v16 })
  else if compression = COMPRESSION_FPX_XOR2D then
    if data_type = DATA_TYPE_FLOAT then
      (ERROR_OK,
        { e with compress_callback := om_common_compress_fpxenc32,
                 compress_filter_callback := delta2d_encode_xor })
    else if data_type = DATA_TYPE_DOUBLE then
      (ERROR_OK,
        { e with compress_callback := om_common_compress_fpxenc64,
                 compress_filter_callback := delta2d_encode_xor_double })
    else (ERROR_INVALID_DATA_TYPE, e)
  else if compression = COMPRESSION_PFOR_16BIT_DELTA2D_LOGARITHMIC then
    if data_type ≠ DATA_TYPE_FLOAT then (ERROR_INVALID_DATA_TYPE, e)
    else
      (ERROR_OK,
        { e with bytes_per_element := 4, bytes_per_element_compressed := 2,
                 compress_callback := p4nzenc128v16,
                 compress_filter_callback := delta2d_encode,
                 compress_copy_callback := om_common_copy_float_to_int16_log10 })
  else (ERROR_INVALID_COMPRESSION_TYPE, e)

/-- The function `OmEncoder_init`.  The first argument is the struct the
`encoder` pointer refers to before the call; the result is the returned error
code and the struct after the call. -/
def OmEncoder_init {F : Type} (encoder : OmEncoder_t F) (scale_factor add_offset : F)
    (compression data_type : Nat) (dimensions chunks : List Nat)
    (dimension_count lut_chunk_element_count : Nat) : OmError_t × OmEncoder_t F :=
  let e0 : OmEncoder_t F :=
    { encoder with scale_factor := scale_factor, add_offset := add_offset,
                   dimensions := dimensions, chunks := chunks,
                   dimension_count := dimension_count,
                   lut_chunk_element_count := lut_chunk_element_count }
  match initDataType e0 data_type with
  | none => (ERROR_INVALID_DATA_TYPE, e0)
  | some e1 => initCompression e1 compression data_type

/-! ## Size queries -/

/-- The function `OmEncoder_countChunks`. -/
def OmEncoder_countChunks {F : Type} (encoder : OmEncoder_t F) : Except OmFault Nat :=
  (List.range encoder.dimension_count).foldlM
    (fun n i => do
      let q ← divide_rounded_up (encoder.dimensions.getD i 0) (encoder.chunks.getD i 0)
      pure (mulw n q))
    1

/-- The function `OmEncoder_countChunksInArray`. -/
def OmEncoder_countChunksInArray {F : Type} (encoder : OmEncoder_t F)
    (array_count : List Nat) : Except OmFault Nat :=
  (List.range encoder.dimension_count).foldlM
    (fun numberOfChunksInArray i => do
      let q ← divide_rounded_up (array_count.getD i 0) (encoder.chunks.getD i 0)
      pure (mulw numberOfChunksInArray q))
    1

/-- The local `chunkLength` of the two buffer-size functions: the wrapping product
of the chunk shape. -/
def chunkLengthLoop {F : Type} (encoder : OmEncoder_t F) : Nat :=
  (List.range encoder.dimension_count).foldl
    (fun chunkLength i => mulw chunkLength (encoder.chunks.getD i 0)) 1

/-- The function `OmEncoder_chunkBufferSize`. -/
def OmEncoder_chunkBufferSize {F : Type} (encoder : OmEncoder_t F) : Nat :=
  mulw (chunkLengthLoop encoder) encoder.bytes_per_element_compressed

/-- The function `OmEncoder_compressedChunkBufferSize`. -/
def OmEncoder_compressedChunkBufferSize {F : Type} (encoder : OmEncoder_t F) : Nat :=
  addw (addw (chunkLengthLoop encoder) 255 / 256)
    (mulw (addw (chunkLengthLoop encoder) 32) encoder.bytes_per_element_compressed)

/-! ## Chunk compression -/

/-- The behaviour of the functions behind the three callback pointers.  A pointer
argument is the memory seen from that pointer on: `src j` is the `j`-th element
after `src`.  `copy` and `filter` give the destination memory after the call,
`compress` the returned byte count and the output memory after the call. -/
structure OmCallbacks (F α β : Type) where
  copy : om_compress_copy_callback_t → Nat → F → F → (Nat → α) → (Nat → β) → (Nat → β)
  filter : om_compress_filter_callback_t → Nat → Nat → (Nat → β) → (Nat → β)
  compress : om_compress_callback_t → (Nat → β) → Nat → (Nat → Nat) → Nat × (Nat → Nat)

/-- A callback invocation made by `OmEncoder_compressChunk`, in call order:
`copy length readCoordinate writeCoordinate`, `filter length0 length1`,
`compress length`. -/
inductive OmCall where
  | copy (length readCoordinate writeCoordinate : Nat)
  | filter (length0 length1 : Nat)
  | compress (length : Nat)
  deriving DecidableEq

/-- What a completed call of `OmEncoder_compressChunk` leaves behind: the returned
byte count, the memory behind `out` and `chunkBuffer`, the memory behind
`chunkBuffer` at the moment the filter callback was called (`packed`), and the
callback invocations it made. -/
structure ChunkResult (β : Type) where
  bytes : Nat
  out : Nat → Nat
  chunkBuffer : Nat → β
  packed : Nat → β
  calls : List OmCall

/-- The locals of `OmEncoder_compressChunk` that the first `for` loop updates. -/
structure SetupState where
  rollingMultiply : Nat
  rollingMultiplyChunkLength : Nat
  rollingMultiplyTargetCube : Nat
  readCoordinate : Nat
  linearReadCount : Nat
  linearRead : Bool
  lengthLast : Nat
  deriving DecidableEq

/-- The locals the inner `for` loop of the gather updates. -/
structure CarryState where
  readCoordinate : Nat
  rollingMultiplyTargetCube : Nat
  linearReadCount : Nat
  linearRead : Bool
  deriving DecidableEq

/-- The locals and memory carried around the `while (true)` loop. -/
structure GatherState (β : Type) where
  readCoordinate : Nat
  writeCoordinate : Nat
  linearReadCount : Nat
  chunkBuffer : Nat → β
  calls : List OmCall

/-- The loop `for (size_t i = 0; i < dimension_count; i++) arrayTotalCount *=
arrayDimensions[i]`. -/
def arrayTotalCountLoop (dimension_count : Nat) (arrayDimensions : List Nat) : Nat :=
  (List.range dimension_count).foldl
    (fun arrayTotalCount i => mulw arrayTotalCount (arrayDimensions.getD i 0)) 1

/-- The two `if` statements that maintain `linearReadCount` and `linearRead`
(the same text in both `for` loops); the result is
`(linearReadCount, linearRead)`. -/
def linearUpdate (dimension_count i arrayCount0 arrayDimension0 length0 : Nat)
    (linearReadCount : Nat) (linearRead : Bool) : Nat × Bool :=
  let s1 : Nat × Bool :=
    if i = subw dimension_count 1 ∧ ¬ (arrayCount0 = length0 ∧ arrayDimension0 = length0) then
      (length0, false)
    else (linearReadCount, linearRead)
  if s1.2 = true ∧ arrayCount0 = length0 ∧ arrayDimension0 = length0 then
    (mulw s1.1 length0, s1.2)
  else (s1.1, false)

/-- One iteration (axis `i`) of the first `for` loop of
`OmEncoder_compressChunk`. -/
def setupAxis {F : Type} (encoder : OmEncoder_t F)
    (arrayDimensions arrayOffset arrayCount : List Nat)
    (chunkIndex chunkIndexOffsetInThisArray : Nat) (i : Nat) (s : SetupState) :
    Except OmFault SetupState := do
  let nChunksInThisDimension ←
    divide_rounded_up (encoder.dimensions.getD i 0) (encoder.chunks.getD i 0)
  let c0 ← modw (← divw chunkIndex s.rollingMultiply) nChunksInThisDimension
  let c0Offset ←
    modw (← divw chunkIndexOffsetInThisArray s.rollingMultiply) nChunksInThisDimension
  let length0 :=
    subw (omMin (mulw (addw c0 1) (encoder.chunks.getD i 0)) (encoder.dimensions.getD i 0))
      (mulw c0 (encoder.chunks.getD i 0))
  let lengthLast := if i = subw encoder.dimension_count 1 then length0 else s.lengthLast
  let readCoordinate :=
    addw s.readCoordinate
      (mulw s.rollingMultiplyTargetCube
        (addw (mulw c0Offset (encoder.chunks.getD i 0)) (arrayOffset.getD i 0)))
  if ¬ length0 ≤ arrayCount.getD i 0 then throw OmFault.assertLengthArrayCount
  if ¬ length0 ≤ arrayDimensions.getD i 0 then throw OmFault.assertLengthArrayDimensions
  let lin :=
    linearUpdate encoder.dimension_count i (arrayCount.getD i 0) (arrayDimensions.getD i 0)
      length0 s.linearReadCount s.linearRead
  pure
    { rollingMultiply := mulw s.rollingMultiply nChunksInThisDimension
      rollingMultiplyChunkLength := mulw s.rollingMultiplyChunkLength length0
      rollingMultiplyTargetCube := mulw s.rollingMultiplyTargetCube (arrayDimensions.getD i 0)
      readCoordinate := readCoordinate
      linearReadCount := lin.1
      linearRead := lin.2
      lengthLast := lengthLast }

/-- The first `for` loop of `OmEncoder_compressChunk`, entered with `k` axes
(`k - 1`, ..., `0`) still to visit. -/
def setupLoop {F : Type} (encoder : OmEncoder_t F)
    (arrayDimensions arrayOffset arrayCount : List Nat)
    (chunkIndex chunkIndexOffsetInThisArray : Nat) : Nat → SetupState → Except OmFault SetupState
  | 0, s => pure s
  | i + 1, s => do
    let s1 ← setupAxis encoder arrayDimensions arrayOffset arrayCount chunkIndex
      chunkIndexOffsetInThisArray i s
    setupLoop encoder arrayDimensions arrayOffset arrayCount chunkIndex
      chunkIndexOffsetInThisArray i s1

/-- The locals of `OmEncoder_compressChunk` before the first `for` loop. -/
def setupInit : SetupState :=
  { rollingMultiply := 1
    rollingMultiplyChunkLength := 1
    rollingMultiplyTargetCube := 1
    readCoordinate := 0
    linearReadCount := 1
    linearRead := true
    lengthLast := 0 }

/-- How an iteration of the inner `for` loop of the gather ends. -/
inductive CarryExit where
  | breakOut
  | carried
  deriving DecidableEq

/-- One iteration (axis `i`) of the inner `for` loop of the gather, up to and
including `rollingMultiplyTargetCube *= arrayDimensions[i]`. -/
def carryAxis {F : Type} (encoder : OmEncoder_t F)
    (arrayDimensions arrayOffset arrayCount : List Nat) (i : Nat) (s : CarryState) :
    Except OmFault (CarryExit × CarryState) := do
  let x ← modw (← divw s.readCoordinate s.rollingMultiplyTargetCube) (arrayDimensions.getD i 0)
  let qPos ← divw (subw x (arrayOffset.getD i 0)) (encoder.chunks.getD i 0)
  let length0 :=
    subw (omMin (mulw (addw qPos 1) (encoder.chunks.getD i 0)) (arrayCount.getD i 0))
      (mulw qPos (encoder.chunks.getD i 0))
  let readCoordinate := addw s.readCoordinate s.rollingMultiplyTargetCube
  let lin :=
    linearUpdate encoder.dimension_count i (arrayCount.getD i 0) (arrayDimensions.getD i 0)
      length0 s.linearReadCount s.linearRead
  let x1 ← modw (← divw readCoordinate s.rollingMultiplyTargetCube) (arrayDimensions.getD i 0)
  let q0 ← modw (subw x1 (arrayOffset.getD i 0)) (encoder.chunks.getD i 0)
  if q0 ≠ 0 ∧ q0 ≠ length0 then
    pure (CarryExit.breakOut,
      { readCoordinate := readCoordinate
        rollingMultiplyTargetCube := s.rollingMultiplyTargetCube
        linearReadCount := lin.1
        linearRead := lin.2 })
  else
    pure (CarryExit.carried,
      { readCoordinate := subw readCoordinate (mulw length0 s.rollingMultiplyTargetCube)
        rollingMultiplyTargetCube := mulw s.rollingMultiplyTargetCube (arrayDimensions.getD i 0)
        linearReadCount := lin.1
        linearRead := lin.2 })

/-- The inner `for` loop of the gather, entered with `k` axes still to visit.  The
flag of the result is `true` when the loop reached `if (i == 0)`, that is when the
chunk is complete, and `false` when it was left by `break` (or fell through). -/
def carryLoop {F : Type} (encoder : OmEncoder_t F)
    (arrayDimensions arrayOffset arrayCount : List Nat) :
    Nat → CarryState → Except OmFault (Bool × CarryState)
  | 0, s => pure (false, s)
  | i + 1, s => do
    let r ← carryAxis encoder arrayDimensions arrayOffset arrayCount i s
    match r.1 with
    | CarryExit.breakOut => pure (false, r.2)
    | CarryExit.carried =>
      if i = 0 then pure (true, r.2)
      else carryLoop encoder arrayDimensions arrayOffset arrayCount i r.2

/-- The memory behind a pointer `base` after a callback has been handed the
pointer `base + pos` and has left `written` behind it. -/
def writeBack {β : Type} (base : Nat → β) (pos : Nat) (written : Nat → β) : Nat → β :=
  fun j => if pos ≤ j then written (j - pos) else base j

/-- The `while (true)` loop of `OmEncoder_compressChunk`, with `fuel` bounding the
number of iterations. -/
def gatherLoop {F α β : Type} (encoder : OmEncoder_t F) (impl : OmCallbacks F α β)
    (array : Nat → α) (arrayDimensions arrayOffset arrayCount : List Nat)
    (out : Nat → Nat) (arrayTotalCount lengthInChunk lengthLast : Nat) :
    Nat → GatherState β → Except OmFault (ChunkResult β)
  | 0, _ => throw OmFault.outOfFuel
  | fuel + 1, s => do
    if ¬ addw s.readCoordinate s.linearReadCount ≤ arrayTotalCount then
      throw OmFault.assertReadInBounds
    if ¬ addw s.writeCoordinate s.linearReadCount ≤ lengthInChunk then
      throw OmFault.assertWriteInBounds
    let chunkBuffer :=
      writeBack s.chunkBuffer s.writeCoordinate
        (impl.copy encoder.compress_copy_callback s.linearReadCount encoder.scale_factor
          encoder.add_offset (fun j => array (s.readCoordinate + j))
          (fun j => s.chunkBuffer (s.writeCoordinate + j)))
    let calls := s.calls ++ [OmCall.copy s.linearReadCount s.readCoordinate s.writeCoordinate]
    let readCoordinate := addw s.readCoordinate (subw s.linearReadCount 1)
    let writeCoordinate := addw (addw s.writeCoordinate (subw s.linearReadCount 1)) 1
    let r ← carryLoop encoder arrayDimensions arrayOffset arrayCount encoder.dimension_count
      { readCoordinate := readCoordinate
        rollingMultiplyTargetCube := 1
        linearReadCount := 1
        linearRead := true }
    if r.1 = true then
      let rows ← divw lengthInChunk lengthLast
      let filtered := impl.filter encoder.compress_filter_callback rows lengthLast chunkBuffer
      let res := impl.compress encoder.compress_callback filtered lengthInChunk out
      pure
        { bytes := res.1
          out := res.2
          chunkBuffer := filtered
          packed := chunkBuffer
          calls := calls ++ [OmCall.filter rows lengthLast, OmCall.compress lengthInChunk] }
    else
      gatherLoop encoder impl array arrayDimensions arrayOffset arrayCount out arrayTotalCount
        lengthInChunk lengthLast fuel
        { readCoordinate := r.2.readCoordinate
          writeCoordinate := writeCoordinate
          linearReadCount := r.2.linearReadCount
          chunkBuffer := chunkBuffer
          calls := calls }

/-- The function `OmEncoder_compressChunk`.  `fuel` bounds the number of
iterations of its `while (true)` loop. -/
def OmEncoder_compressChunk {F α β : Type} (encoder : OmEncoder_t F) (impl : OmCallbacks F α β)
    (array : Nat → α) (arrayDimensions arrayOffset arrayCount : List Nat)
    (chunkIndex chunkIndexOffsetInThisArray : Nat) (out : Nat → Nat) (chunkBuffer : Nat → β)
    (fuel : Nat) : Except OmFault (ChunkResult β) := do
  let arrayTotalCount := arrayTotalCountLoop encoder.dimension_count arrayDimensions
  let s ← setupLoop encoder arrayDimensions arrayOffset arrayCount chunkIndex
    chunkIndexOffsetInThisArray encoder.dimension_count setupInit
  gatherLoop encoder impl array arrayDimensions arrayOffset arrayCount out arrayTotalCount
    s.rollingMultiplyChunkLength s.lengthLast fuel
    { readCoordinate := s.readCoordinate
      writeCoordinate := 0
      linearReadCount := s.linearReadCount
      chunkBuffer := chunkBuffer
      calls := [] }

/-! ## Chunk compression, with what a stopped call leaves behind

`OmEncoder_compressChunk` above gives a result only for a call that returns.
The same code once more, now keeping, also for a call that stops on a fault,
what it has done up to that point: the callbacks invoked and the memory behind
`out` and `chunkBuffer`. -/

/-- How a call of `OmEncoder_compressChunk` ends and what it leaves behind: the
returned byte count or the fault that stopped it, the memory behind `out` and
`chunkBuffer` at that moment, and the callback invocations made until then. -/
structure ChunkOutcome (β : Type) where
  result : Except OmFault Nat
  out : Nat → Nat
  chunkBuffer : Nat → β
  calls : List OmCall

/-- The `while (true)` loop of `OmEncoder_compressChunk`, statement by
statement, with `fuel` bounding the number of iterations: a failing assertion or
a division by zero stops the call with the memory and the invocations of that
moment. -/
def gatherLoopOutcome {F α β : Type} (encoder : OmEncoder_t F) (impl : OmCallbacks F α β)
    (array : Nat → α) (arrayDimensions arrayOffset arrayCount : List Nat)
    (out : Nat → Nat) (arrayTotalCount lengthInChunk lengthLast : Nat) :
    Nat → GatherState β → ChunkOutcome β
  | 0, s =>
    { result := .error OmFault.outOfFuel, out := out, chunkBuffer := s.chunkBuffer,
      calls := s.calls }
  | fuel + 1, s =>
    if ¬ addw s.readCoordinate s.linearReadCount ≤ arrayTotalCount then
      { result := .error OmFault.assertReadInBounds, out := out, chunkBuffer := s.chunkBuffer,
        calls := s.calls }
    else if ¬ addw s.writeCoordinate s.linearReadCount ≤ lengthInChunk then
      { result := .error OmFault.assertWriteInBounds, out := out, chunkBuffer := s.chunkBuffer,
        calls := s.calls }
    else
      let chunkBuffer :=
        writeBack s.chunkBuffer s.writeCoordinate
          (impl.copy encoder.compress_copy_callback s.linearReadCount encoder.scale_factor
            encoder.add_offset (fun j => array (s.readCoordinate + j))
            (fun j => s.chunkBuffer (s.writeCoordinate + j)))
      let calls := s.calls ++ [OmCall.copy s.linearReadCount s.readCoordinate s.writeCoordinate]
      let readCoordinate := addw s.readCoordinate (subw s.linearReadCount 1)
      let writeCoordinate := addw (addw s.writeCoordinate (subw s.linearReadCount 1)) 1
      match carryLoop encoder arrayDimensions arrayOffset arrayCount encoder.dimension_count
          { readCoordinate := readCoordinate
            rollingMultiplyTargetCube := 1
            linearReadCount := 1
            linearRead := true } with
      | .error f => { result := .error f, out := out, chunkBuffer := chunkBuffer, calls := calls }
      | .ok r =>
        if r.1 = true then
          match divw lengthInChunk lengthLast with
          | .error f =>
            { result := .error f, out := out, chunkBuffer := chunkBuffer, calls := calls }
          | .ok rows =>
            let filtered :=
              impl.filter encoder.compress_filter_callback rows lengthLast chunkBuffer
            let res := impl.compress encoder.compress_callback filtered lengthInChunk out
            { result := .ok res.1
              out := res.2
              chunkBuffer := filtered
              calls := calls ++ [OmCall.filter rows lengthLast, OmCall.compress lengthInChunk] }
        else
          gatherLoopOutcome encoder impl array arrayDimensions arrayOffset arrayCount out
            arrayTotalCount lengthInChunk lengthLast fuel
            { readCoordinate := r.2.readCoordinate
              writeCoordinate := writeCoordinate
              linearReadCount := r.2.linearReadCount
              chunkBuffer := chunkBuffer
              calls := calls }

/-- The function `OmEncoder_compressChunk` with what it leaves behind when it
stops; a fault of the first `for` loop stops it before any callback is
invoked. -/
def compressChunkOutcome {F α β : Type} (encoder : OmEncoder_t F) (impl : OmCallbacks F α β)
    (array : Nat → α) (arrayDimensions arrayOffset arrayCount : List Nat)
    (chunkIndex chunkIndexOffsetInThisArray : Nat) (out : Nat → Nat) (chunkBuffer : Nat → β)
    (fuel : Nat) : ChunkOutcome β :=
  match setupLoop encoder arrayDimensions arrayOffset arrayCount chunkIndex
      chunkIndexOffsetInThisArray encoder.dimension_count setupInit with
  | .error f => { result := .error f, out := out, chunkBuffer := chunkBuffer, calls := [] }
  | .ok s =>
    gatherLoopOutcome encoder impl array arrayDimensions arrayOffset arrayCount out
      (arrayTotalCountLoop encoder.dimension_count arrayDimensions)
      s.rollingMultiplyChunkLength s.lengthLast fuel
      { readCoordinate := s.readCoordinate
        writeCoordinate := 0
        linearReadCount := s.linearReadCount
        chunkBuffer := chunkBuffer
        calls := [] }

/-! ## Look-up table compression -/

/-- The vendored codec `p4ndenc64(in, n, out)`: from the memory behind `in`, the
element count `n` and the memory behind `out` it gives the returned byte count
and the memory behind `out` after the call. -/
abbrev P4ndenc64 : Type := (Nat → Nat) → Nat → (Nat → Nat) → Nat × (Nat → Nat)

/-- A call of `p4ndenc64` made by the look-up table functions, in call order:
the group `&lookUpTable[rangeStart]` of `count = rangeEnd - rangeStart` entries
it was given, the offset of its destination from the start of the output memory,
and the byte count it returned. -/
structure LutCall where
  rangeStart : Nat
  count : Nat
  offset : Nat
  length : Nat
  deriving DecidableEq

/-- The locals and memory the `for` loop of `OmEncoder_lutBufferSize` updates,
and the codec calls made so far. -/
structure LutSizeState where
  maxLength : Nat
  buffer : Nat → Nat
  calls : List LutCall

/-- One iteration (group `i`) of the `for` loop of `OmEncoder_lutBufferSize`. -/
def lutBufferSizeStep {F : Type} (encoder : OmEncoder_t F) (p4ndenc64 : P4ndenc64)
    (lookUpTable : Nat → Nat) (lookUpTableCount : Nat) (s : LutSizeState) (i : Nat) :
    LutSizeState :=
  let rangeStart := mulw i encoder.lut_chunk_element_count
  let rangeEnd := omMin (addw rangeStart encoder.lut_chunk_element_count) lookUpTableCount
  let r := p4ndenc64 (fun j => lookUpTable (rangeStart + j)) (subw rangeEnd rangeStart) s.buffer
  { maxLength := if r.1 > s.maxLength then r.1 else s.maxLength
    buffer := r.2
    calls := s.calls ++ [{ rangeStart := rangeStart, count := subw rangeEnd rangeStart,
                           offset := 0, length := r.1 }] }

/-- The `for` loop of `OmEncoder_lutBufferSize`, started with `maxLength = 0` and
the zeroed local `buffer`. -/
def lutBufferSizeLoop {F : Type} (encoder : OmEncoder_t F) (p4ndenc64 : P4ndenc64)
    (lookUpTable : Nat → Nat) (lookUpTableCount nLutChunks : Nat) : LutSizeState :=
  (List.range nLutChunks).foldl
    (lutBufferSizeStep encoder p4ndenc64 lookUpTable lookUpTableCount)
    { maxLength := 0, buffer := fun _ => 0, calls := [] }

/-- The function `OmEncoder_lutBufferSize`.  Its loop counter is an `int`: when
`nLutChunks` exceeds `INT_MAX` the increment `i++` overflows, which is the fault
`OmFault.counterOverflow`.  `32 * sizeof(size_t)` is `256`. -/
def OmEncoder_lutBufferSize {F : Type} (encoder : OmEncoder_t F) (p4ndenc64 : P4ndenc64)
    (lookUpTable : Nat → Nat) (lookUpTableCount : Nat) : Except OmFault Nat := do
  let nLutChunks ← divide_rounded_up lookUpTableCount encoder.lut_chunk_element_count
  if 2147483647 < nLutChunks then throw OmFault.counterOverflow
  let s := lutBufferSizeLoop encoder p4ndenc64 lookUpTable lookUpTableCount nLutChunks
  pure (addw (mulw s.maxLength nLutChunks) 256)

/-- The memory behind `out` during the `for` loop of `OmEncoder_compressLut`, and
the codec calls made so far. -/
structure LutWriteState where
  out : Nat → Nat
  calls : List LutCall

/-- One iteration (group `i`) of the `for` loop of `OmEncoder_compressLut`. -/
def compressLutStep {F : Type} (encoder : OmEncoder_t F) (p4ndenc64 : P4ndenc64)
    (lookUpTable : Nat → Nat) (lookUpTableCount lutChunkLength : Nat) (s : LutWriteState)
    (i : Nat) : LutWriteState :=
  let rangeStart := mulw i encoder.lut_chunk_element_count
  let rangeEnd := omMin (addw rangeStart encoder.lut_chunk_element_count) lookUpTableCount
  let r :=
    p4ndenc64 (fun j => lookUpTable (rangeStart + j)) (subw rangeEnd rangeStart)
      (fun j => s.out (mulw i lutChunkLength + j))
  { out := writeBack s.out (mulw i lutChunkLength) r.2
    calls := s.calls ++ [{ rangeStart := rangeStart, count := subw rangeEnd rangeStart,
                           offset := mulw i lutChunkLength, length := r.1 }] }

/-- The `for` loop of `OmEncoder_compressLut`. -/
def compressLutLoop {F : Type} (encoder : OmEncoder_t F) (p4ndenc64 : P4ndenc64)
    (lookUpTable : Nat → Nat) (lookUpTableCount lutChunkLength nLutChunks : Nat)
    (out : Nat → Nat) : LutWriteState :=
  (List.range nLutChunks).foldl
    (compressLutStep encoder p4ndenc64 lookUpTable lookUpTableCount lutChunkLength)
    { out := out, calls := [] }

/-- What a completed call of `OmEncoder_compressLut` leaves behind: the returned
byte count, the memory behind `out`, and the codec calls it made. -/
structure LutResult where
  bytes : Nat
  out : Nat → Nat
  calls : List LutCall

/-- The function `OmEncoder_compressLut`. -/
def OmEncoder_compressLut {F : Type} (encoder : OmEncoder_t F) (p4ndenc64 : P4ndenc64)
    (lookUpTable : Nat → Nat) (lookUpTableCount : Nat) (out : Nat → Nat)
    (compressed_lut_buffer_size : Nat) : Except OmFault LutResult := do
  let nLutChunks ← divide_rounded_up lookUpTableCount encoder.lut_chunk_element_count
  let lutSize := subw compressed_lut_buffer_size 256
  let lutChunkLength ← divw lutSize nLutChunks
  let s :=
    compressLutLoop encoder p4ndenc64 lookUpTable lookUpTableCount lutChunkLength nLutChunks out
  pure { bytes := lutSize, out := s.out, calls := s.calls }

/-! ## Variable accessors (`om_file_reader.c`) -/

/-- The structure `OmDimensions_t` as `om_file_reader.c` uses it: the field
`count` and the array behind the pointer `values`. -/
structure OmDimensions_t where
  count : Nat
  values : List Nat

/-- The function `om_variable_get_dimension_count`; `om_variable_get_dimensions`
is defined outside `om_file_reader.c` and is a parameter, `var` is the argument
`variable`. -/
def om_variable_get_dimension_count {V : Type} (om_variable_get_dimensions : V → OmDimensions_t)
    (var : V) : Nat :=
  let dims := om_variable_get_dimensions var
  dims.count

/-- The function `om_variable_get_dimension_value`.  The result is `none` when
the read `dims.values[index]` falls outside the array behind `values`. -/
def om_variable_get_dimension_value {V : Type} (om_variable_get_dimensions : V → OmDimensions_t)
    (var : V) (index : Nat) : Option Nat :=
  let dims := om_variable_get_dimensions var
  if index ≥ dims.count then some 0 else dims.values[index]?

/-- The function `om_variable_get_chunk_count`; `om_variable_get_chunks` is
defined outside `om_file_reader.c` and is a parameter. -/
def om_variable_get_chunk_count {V : Type} (om_variable_get_chunks : V → OmDimensions_t)
    (var : V) : Nat :=
  let chunks := om_variable_get_chunks var
  chunks.count

/-- The function `om_variable_get_chunk_value`.  The result is `none` when the
read `chunks.values[index]` falls outside the array behind `values`. -/
def om_variable_get_chunk_value {V : Type} (om_variable_get_chunks : V → OmDimensions_t)
    (var : V) (index : Nat) : Option Nat :=
  let chunks := om_variable_get_chunks var
  if index ≥ chunks.count then some 0 else chunks.values[index]?

/-! ## Example data -/

/-- The contract of a scalar copy: `length` elements are converted one by one,
memory past them is left alone. -/
def scalarCopy {α β : Type} (conv : α → β) (length : Nat) (src : Nat → α) (dst : Nat → β) :
    Nat → β :=
  fun j => if j < length then conv (src j) else dst j

/-- Callbacks over natural numbers used to run the embedding on examples: every
copy is `scalarCopy id`, the filter leaves the buffer alone, and the entropy
coder stores the elements unchanged and returns their number. -/
def plainCallbacks : OmCallbacks Nat Nat Nat where
  copy := fun _ length _ _ src dst => scalarCopy id length src dst
  filter := fun _ _ _ buf => buf
  compress := fun _ src length out => (length, fun j => if j < length then src j else out j)

/-- An encoder for `float` data compressed with `COMPRESSION_PFOR_16BIT_DELTA2D`,
as `OmEncoder_init` leaves it. -/
def pforEncoder (dimensions chunks : List Nat) : OmEncoder_t Nat :=
  { scale_factor := 1
    add_offset := 0
    dimensions := dimensions
    chunks := chunks
    dimension_count := dimensions.length
    lut_chunk_element_count := 256
    bytes_per_element := 4
    bytes_per_element_compressed := 2
    compress_copy_callback := om_common_copy_float_to_int16
    compress_filter_callback := delta2d_encode
    compress_callback := p4nzenc128v16 }

/-- The encoder `OmEncoder_init` leaves behind when it is called for `float` data
and `COMPRESSION_PFOR_16BIT_DELTA2D` with `lut_chunk_element_count = SIZE_MAX`
(`2 ^ 64 - 1`). -/
def sizeMaxGroupEncoder : OmEncoder_t Nat :=
  (OmEncoder_init (pforEncoder [4] [2]) 1 0 COMPRESSION_PFOR_16BIT_DELTA2D DATA_TYPE_FLOAT
    [4] [2] 1 18446744073709551615).2

/-- The fault a run ended with, if any. -/
def faultOf {ε α : Type} (r : Except ε α) : Option ε :=
  match r with
  | .error e => some e
  | .ok _ => none

/-! ## The chunk grid as the specification describes it

Natural-number formulas for the quantities of the chunk coordinate decoding
(`n_chunks[i]`, `c_i`, `length_i`, `L'`) and for row-major linear indices.  The
embedding above does not use them; the theorems compare the code with them. -/

/-- `n_chunks[i] = ceil(dimensions[i] / chunks[i])`, written with natural-number
division. -/
def nChunks {F : Type} (e : OmEncoder_t F) (i : Nat) : Nat :=
  (e.dimensions.getD i 0 + e.chunks.getD i 0 - 1) / e.chunks.getD i 0

/-- The total chunk count `C`, the product of `n_chunks[i]`. -/
def chunkCount {F : Type} (e : OmEncoder_t F) : Nat :=
  ∏ i in Finset.range e.dimension_count, nChunks e i

/-- `c_i = (chunkIndex / prod_{j>i} n_chunks[j]) mod n_chunks[i]`. -/
def chunkCoord {F : Type} (e : OmEncoder_t F) (chunkIndex i : Nat) : Nat :=
  (chunkIndex / ∏ j in Finset.Ico (i + 1) e.dimension_count, nChunks e j) % nChunks e i

/-- `length_i = min((c_i + 1) * chunks[i], dimensions[i]) - c_i * chunks[i]`. -/
def chunkLen {F : Type} (e : OmEncoder_t F) (chunkIndex i : Nat) : Nat :=
  min ((chunkCoord e chunkIndex i + 1) * e.chunks.getD i 0) (e.dimensions.getD i 0)
    - chunkCoord e chunkIndex i * e.chunks.getD i 0

/-- The packed chunk volume `L'`, the product of `length_i`. -/
def packedVolume {F : Type} (e : OmEncoder_t F) (chunkIndex : Nat) : Nat :=
  ∏ i in Finset.range e.dimension_count, chunkLen e chunkIndex i

/-- The row-major position of the local coordinate `p` in the packed chunk:
`sum_i p_i * prod_{j>i} length_j`. -/
def localIndex {F : Type} (e : OmEncoder_t F) (chunkIndex : Nat) (p : Nat → Nat) : Nat :=
  ∑ i in Finset.range e.dimension_count,
    p i * ∏ j in Finset.Ico (i + 1) e.dimension_count, chunkLen e chunkIndex j

/-- The row-major linear index, in the full array, of the element at local
coordinate `p` of the chunk:
`sum_i (c_i * chunks[i] + p_i) * prod_{j>i} dimensions[j]`. -/
def sourceIndex {F : Type} (e : OmEncoder_t F) (chunkIndex : Nat) (p : Nat → Nat) : Nat :=
  ∑ i in Finset.range e.dimension_count,
    (chunkCoord e chunkIndex i * e.chunks.getD i 0 + p i)
      * ∏ j in Finset.Ico (i + 1) e.dimension_count, e.dimensions.getD j 0

/-- The row-major linear index of the coordinate `x` in an array of shape
`shape` with `d` axes: `sum_i x_i * prod_{j>i} shape[j]`. -/
def linearIndex (shape : List Nat) (d : Nat) (x : Nat → Nat) : Nat :=
  ∑ i in Finset.range d, x i * ∏ j in Finset.Ico (i + 1) d, shape.getD j 0

/-- The full-array call: the whole array of shape `dimensions` is supplied, so
`arrayDimensions = arrayCount = dimensions`, `arrayOffset = 0` and
`chunkIndexOffsetInThisArray = chunkIndex`. -/
def compressChunkFull {F α β : Type} (e : OmEncoder_t F) (impl : OmCallbacks F α β)
    (array : Nat → α) (chunkIndex : Nat) (out : Nat → Nat) (chunkBuffer : Nat → β)
    (fuel : Nat) : Except OmFault (ChunkResult β) :=
  OmEncoder_compressChunk e impl array e.dimensions (List.replicate e.dimension_count 0)
    e.dimensions chunkIndex chunkIndex out chunkBuffer fuel

/-! ## The groups of the look-up table as the specification describes them

Natural-number formulas for the group count `N`, the group ranges and the
compressed group sizes.  The embedding above does not use them; the theorems
compare the code with them. -/

/-- `N = ceil(lut_len / g)`, written with natural-number division. -/
def lutGroupCount (lut_len g : Nat) : Nat := (lut_len + g - 1) / g

/-- The codec leaves the destination memory past the bytes it emits alone. -/
def CodecWritesEmitted (p4ndenc64 : P4ndenc64) : Prop :=
  ∀ (src : Nat → Nat) (n : Nat) (dst : Nat → Nat) (j : Nat),
    (p4ndenc64 src n dst).1 ≤ j → (p4ndenc64 src n dst).2 j = dst j

/-- A stand-in for the codec used to run the embedding on examples: every entry
is stored as eight bytes, least significant first. -/
def plainP4ndenc64 : P4ndenc64 :=
  fun src n dst => (8 * n, fun j => if j < 8 * n then src (j / 8) / 256 ^ (j % 8) % 256 else dst j)

/-! ## Auxiliary functions of the proofs -/

/-- The source position, counted in blocks of `prod_{j>=k} dimensions[j]`
elements, of the element whose local row-major position over the axes below `k`
is `u`: Horner form of `sum_{i<k} (c_i * chunks[i] + p_i) * prod_{i<j<k} dimensions[j]`
with `p` the digits of `u` in the radices `length_i`. -/
def srcPre {F : Type} (e : OmEncoder_t F) (chunkIndex : Nat) : Nat → Nat → Nat
  | 0, _ => 0
  | k + 1, u =>
    srcPre e chunkIndex k (u / chunkLen e chunkIndex k) * e.dimensions.getD k 0
      + (chunkCoord e chunkIndex k * e.chunks.getD k 0 + u % chunkLen e chunkIndex k)

/-- The pair `(linearReadCount, linearRead)` after the first `for` loop of a
full-array call has visited `t` axes (`dimension_count - 1` down to
`dimension_count - t`). -/
def runAfter {F : Type} (e : OmEncoder_t F) (chunkIndex : Nat) : Nat → Nat × Bool
  | 0 => (1, true)
  | t + 1 =>
    linearUpdate e.dimension_count (e.dimension_count - 1 - t)
      (e.dimensions.getD (e.dimension_count - 1 - t) 0)
      (e.dimensions.getD (e.dimension_count - 1 - t) 0)
      (chunkLen e chunkIndex (e.dimension_count - 1 - t))
      (runAfter e chunkIndex t).1 (runAfter e chunkIndex t).2

/-- The run length `linearReadCount` a full-array call copies with. -/
def runLength {F : Type} (e : OmEncoder_t F) (chunkIndex : Nat) : Nat :=
  (runAfter e chunkIndex e.dimension_count).1

/-- The copy-callback invocations of `n` consecutive runs of `r` elements, the
first written at `w` and read at `src w`. -/
def copyTrace (r : Nat) (src : Nat → Nat) : Nat → Nat → List OmCall
  | 0, _ => []
  | n + 1, w => OmCall.copy r (src w) w :: copyTrace r src n (w + r)

/-- The chunk buffer a full-array call hands to the filter: the first `L'`
elements are the converted elements of the chunk in local row-major order, the
rest of the scratch buffer is as before. -/
def packedChunk {F α β : Type} (e : OmEncoder_t F) (conv : α → β) (array : Nat → α)
    (chunkIndex : Nat) (chunkBuffer : Nat → β) : Nat → β :=
  fun j =>
    if j < packedVolume e chunkIndex then
      conv (array (srcPre e chunkIndex e.dimension_count j))
    else chunkBuffer j

/-- The inputs of a full-array call the theorems speak about: at least one axis,
positive shapes, a chunk index on the grid, and a source array and a scratch
buffer that exist in memory (their element counts are below `2 ^ 63`, each
element taking at least two bytes of a 64-bit address space). -/
structure FullInput {F : Type} (e : OmEncoder_t F) (chunkIndex : Nat) : Prop where
  hD : 1 ≤ e.dimension_count
  hDlt : e.dimension_count < sizeMod
  hdims : ∀ i, i < e.dimension_count → 1 ≤ e.dimensions.getD i 0
  hchunks : ∀ i, i < e.dimension_count → 1 ≤ e.chunks.getD i 0
  hmem : 2 * (∏ i in Finset.range e.dimension_count, e.dimensions.getD i 0) ≤ sizeMod
  hbuf : 2 * (∏ i in Finset.range e.dimension_count, e.chunks.getD i 0) ≤ sizeMod
  hci : chunkIndex < chunkCount e

/-- The number of elements of the trailing axes `k`, `k + 1`, ... of the array. -/
def dimSuffix {F : Type} (e : OmEncoder_t F) (k : Nat) : Nat :=
  ∏ j in Finset.Ico k e.dimension_count, e.dimensions.getD j 0

/-- The number of elements of the trailing axes `k`, `k + 1`, ... of the chunk. -/
def lenSuffix {F : Type} (e : OmEncoder_t F) (chunkIndex k : Nat) : Nat :=
  ∏ j in Finset.Ico k e.dimension_count, chunkLen e chunkIndex j

/-- The part of the source position of the chunk origin that the trailing axes
`k`, `k + 1`, ... contribute. -/
def originSuffix {F : Type} (e : OmEncoder_t F) (chunkIndex k : Nat) : Nat :=
  ∑ j in Finset.Ico k e.dimension_count,
    chunkCoord e chunkIndex j * e.chunks.getD j 0 * dimSuffix e (j + 1)

/-- The locals of a full-array call when the first `for` loop has visited the
axes `k`, `k + 1`, ... -/
def setupAt {F : Type} (e : OmEncoder_t F) (chunkIndex k : Nat) : SetupState :=
  { rollingMultiply := ∏ j in Finset.Ico k e.dimension_count, nChunks e j
    rollingMultiplyChunkLength := lenSuffix e chunkIndex k
    rollingMultiplyTargetCube := dimSuffix e k
    readCoordinate := originSuffix e chunkIndex k
    linearReadCount := (runAfter e chunkIndex (e.dimension_count - k)).1
    linearRead := (runAfter e chunkIndex (e.dimension_count - k)).2
    lengthLast := if k < e.dimension_count then chunkLen e chunkIndex (e.dimension_count - 1) else 0 }

/-- The locals of the inner `for` loop of a full-array call when it has carried
out of the axes `k`, `k + 1`, ...; `u` is the row-major position, over the axes
below `k`, of the element last copied. -/
def carryAt {F : Type} (e : OmEncoder_t F) (chunkIndex k u : Nat) : CarryState :=
  { readCoordinate := srcPre e chunkIndex k u * dimSuffix e k + originSuffix e chunkIndex k
    rollingMultiplyTargetCube := dimSuffix e k
    linearReadCount := (runAfter e chunkIndex (e.dimension_count - k)).1
    linearRead := (runAfter e chunkIndex (e.dimension_count - k)).2 }

/-- The locals of the inner `for` loop of a full-array call when it leaves by
`break` at axis `i`, the position over the axes up to `i` having moved on to
`u + 1`. -/
def breakAt {F : Type} (e : OmEncoder_t F) (chunkIndex i u : Nat) : CarryState :=
  { readCoordinate :=
      srcPre e chunkIndex (i + 1) (u + 1) * dimSuffix e (i + 1) + originSuffix e chunkIndex (i + 1)
    rollingMultiplyTargetCube := dimSuffix e (i + 1)
    linearReadCount := (runAfter e chunkIndex (e.dimension_count - i)).1
    linearRead := (runAfter e chunkIndex (e.dimension_count - i)).2 }

/-- The chunk buffer of a full-array call when the packed positions from `w` on
have been filled in and the other positions are those of `chunkBuffer`. -/
def fillFrom {F α β : Type} (e : OmEncoder_t F) (conv : α → β) (array : Nat → α)
    (chunkIndex : Nat) (chunkBuffer : Nat → β) (w : Nat) : Nat → β :=
  fun j =>
    if w ≤ j ∧ j < packedVolume e chunkIndex then
      conv (array (srcPre e chunkIndex e.dimension_count j))
    else chunkBuffer j

/-- The end of a completed full-array call: the filter is applied to the packed
buffer `packed` as `L' / length_last` rows of `length_last` elements, the entropy
coder is applied to `L'` elements of the filtered buffer, and its byte count is
returned. -/
def finishChunk {F α β : Type} (e : OmEncoder_t F) (impl : OmCallbacks F α β)
    (chunkIndex : Nat) (out : Nat → Nat) (packed : Nat → β) (calls : List OmCall) :
    ChunkResult β :=
  { bytes :=
      (impl.compress e.compress_callback
        (impl.filter e.compress_filter_callback
          (packedVolume e chunkIndex / chunkLen e chunkIndex (e.dimension_count - 1))
          (chunkLen e chunkIndex (e.dimension_count - 1)) packed)
        (packedVolume e chunkIndex) out).1
    out :=
      (impl.compress e.compress_callback
        (impl.filter e.compress_filter_callback
          (packedVolume e chunkIndex / chunkLen e chunkIndex (e.dimension_count - 1))
          (chunkLen e chunkIndex (e.dimension_count - 1)) packed)
        (packedVolume e chunkIndex) out).2
    chunkBuffer :=
      impl.filter e.compress_filter_callback
        (packedVolume e chunkIndex / chunkLen e chunkIndex (e.dimension_count - 1))
        (chunkLen e chunkIndex (e.dimension_count - 1)) packed
    packed := packed
    calls :=
      calls ++
        [OmCall.filter
            (packedVolume e chunkIndex / chunkLen e chunkIndex (e.dimension_count - 1))
            (chunkLen e chunkIndex (e.dimension_count - 1)),
          OmCall.compress (packedVolume e chunkIndex)] }

/-- Horner form of the row-major index, over the first `k` axes, of the
coordinate `p` in the shape `f`: `sum_{i<k} p i * prod_{i<j<k} f j`. -/
def hornerIndex (f p : Nat → Nat) : Nat → Nat
  | 0 => 0
  | k + 1 => hornerIndex f p k * f k + p k

/-- The shape hypotheses of the theorems about arbitrary calls: at least one
axis, positive shapes, and an array and a scratch buffer that exist in memory
(their element counts are below `2 ^ 63`). -/
structure ShapeInput {F : Type} (e : OmEncoder_t F) : Prop where
  hD : 1 ≤ e.dimension_count
  hDlt : e.dimension_count < sizeMod
  hdims : ∀ i, i < e.dimension_count → 1 ≤ e.dimensions.getD i 0
  hchunks : ∀ i, i < e.dimension_count → 1 ≤ e.chunks.getD i 0
  hmem : 2 * (∏ i in Finset.range e.dimension_count, e.dimensions.getD i 0) ≤ sizeMod
  hbuf : 2 * (∏ i in Finset.range e.dimension_count, e.chunks.getD i 0) ≤ sizeMod

/-- Callbacks without data, used to follow the control flow of a call: the copy
is `scalarCopy`, the filter and the entropy coder leave memory alone. -/
def traceCallbacks (F : Type) : OmCallbacks F Unit Unit where
  copy := fun _ length _ _ src dst => scalarCopy id length src dst
  filter := fun _ _ _ buf => buf
  compress := fun _ _ length out => (length, out)

/-- One iteration of the `while (true)` loop of `OmEncoder_compressChunk`: the
result of the call when the iteration returns, or the locals and memory the next
iteration starts with. -/
def gatherStep {F α β : Type} (encoder : OmEncoder_t F) (impl : OmCallbacks F α β)
    (array : Nat → α) (arrayDimensions arrayOffset arrayCount : List Nat)
    (out : Nat → Nat) (arrayTotalCount lengthInChunk lengthLast : Nat) (s : GatherState β) :
    Except OmFault (ChunkResult β ⊕ GatherState β) := do
  if ¬ addw s.readCoordinate s.linearReadCount ≤ arrayTotalCount then
    throw OmFault.assertReadInBounds
  if ¬ addw s.writeCoordinate s.linearReadCount ≤ lengthInChunk then
    throw OmFault.assertWriteInBounds
  let chunkBuffer :=
    writeBack s.chunkBuffer s.writeCoordinate
      (impl.copy encoder.compress_copy_callback s.linearReadCount encoder.scale_factor
        encoder.add_offset (fun j => array (s.readCoordinate + j))
        (fun j => s.chunkBuffer (s.writeCoordinate + j)))
  let calls := s.calls ++ [OmCall.copy s.linearReadCount s.readCoordinate s.writeCoordinate]
  let readCoordinate := addw s.readCoordinate (subw s.linearReadCount 1)
  let writeCoordinate := addw (addw s.writeCoordinate (subw s.linearReadCount 1)) 1
  let r ← carryLoop encoder arrayDimensions arrayOffset arrayCount encoder.dimension_count
    { readCoordinate := readCoordinate
      rollingMultiplyTargetCube := 1
      linearReadCount := 1
      linearRead := true }
  if r.1 = true then
    let rows ← divw lengthInChunk lengthLast
    let filtered := impl.filter encoder.compress_filter_callback rows lengthLast chunkBuffer
    let res := impl.compress encoder.compress_callback filtered lengthInChunk out
    pure (Sum.inl
      { bytes := res.1
        out := res.2
        chunkBuffer := filtered
        packed := chunkBuffer
        calls := calls ++ [OmCall.filter rows lengthLast, OmCall.compress lengthInChunk] })
  else
    pure (Sum.inr
      { readCoordinate := r.2.readCoordinate
        writeCoordinate := writeCoordinate
        linearReadCount := r.2.linearReadCount
        chunkBuffer := chunkBuffer
        calls := calls })

/-- What an iteration of the gather loop shows of its control flow: the
callback invocations of a returned result, or the coordinates, run length and
invocations handed to the next iteration. -/
def stepTrace {β : Type} : ChunkResult β ⊕ GatherState β → List OmCall ⊕ (Nat × Nat × Nat × List OmCall)
  | Sum.inl r => Sum.inl r.calls
  | Sum.inr s => Sum.inr (s.readCoordinate, s.writeCoordinate, s.linearReadCount, s.calls)

/-- The locals and memory at the start of iteration `k` (counted from `0`) of
the gather loop entered with `s`, when the iterations before it all went round
again; `none` when the loop has ended before. -/
def gatherIter {F α β : Type} (encoder : OmEncoder_t F) (impl : OmCallbacks F α β)
    (array : Nat → α) (arrayDimensions arrayOffset arrayCount : List Nat)
    (out : Nat → Nat) (arrayTotalCount lengthInChunk lengthLast : Nat) :
    Nat → GatherState β → Option (GatherState β)
  | 0, s => some s
  | k + 1, s =>
    match gatherStep encoder impl array arrayDimensions arrayOffset arrayCount out
        arrayTotalCount lengthInChunk lengthLast s with
    | .ok (Sum.inr s2) =>
      gatherIter encoder impl array arrayDimensions arrayOffset arrayCount out arrayTotalCount
        lengthInChunk lengthLast k s2
    | _ => none

/-! ## Arithmetic helpers -/

theorem sizeMod_eq : sizeMod = 18446744073709551616 := rfl

theorem ceil_div_eq (a b : Nat) (hb : 1 ≤ b) : ⌈(a : ℚ) / (b : ℚ)⌉₊ = (a + b - 1) / b := by
  have hbq : (0 : ℚ) < (b : ℚ) := by exact_mod_cast hb
  apply le_antisymm
  · rw [Nat.ceil_le, div_le_iff₀ hbq]
    have h1 : a ≤ (a + b - 1) / b * b := by
      have := Nat.div_add_mod (a + b - 1) b
      have hm := Nat.mod_lt (a + b - 1) hb
      rw [Nat.mul_comm] at this
      generalize (a + b - 1) / b * b = t at *
      omega
    exact_mod_cast h1
  · have h2 : (a : ℚ) ≤ (⌈(a : ℚ) / (b : ℚ)⌉₊ : ℚ) * b := by
      rw [← div_le_iff₀ hbq]
      exact Nat.le_ceil _
    have h3 : a ≤ ⌈(a : ℚ) / (b : ℚ)⌉₊ * b := by exact_mod_cast h2
    have h4 : (a + b - 1) / b < ⌈(a : ℚ) / (b : ℚ)⌉₊ + 1 := by
      rw [Nat.div_lt_iff_lt_mul hb, Nat.add_mul]
      generalize ⌈(a : ℚ) / (b : ℚ)⌉₊ * b = t at *
      omega
    omega

theorem divide_rounded_up_ok (a b : Nat) (hb : 1 ≤ b) (hab : a + b ≤ sizeMod) :
    divide_rounded_up a b = .ok ((a + b - 1) / b) := by
  have hW := sizeMod_eq
  have hb0 : b ≠ 0 := by omega
  have h1 : subw (addw a b) 1 = a + b - 1 := by
    unfold subw addw
    rw [hW] at hab ⊢
    omega
  unfold divide_rounded_up divw
  rw [h1, if_neg hb0]

theorem addw_of_lt {a b : Nat} (h : a + b < sizeMod) : addw a b = a + b :=
  Nat.mod_eq_of_lt h

theorem mulw_of_lt {a b : Nat} (h : a * b < sizeMod) : mulw a b = a * b :=
  Nat.mod_eq_of_lt h

theorem subw_of_le {a b : Nat} (hba : b ≤ a) (ha : a < sizeMod) : subw a b = a - b := by
  have hW := sizeMod_eq
  unfold subw
  rw [hW] at ha ⊢
  omega

theorem mulw_mod_left (a b : Nat) : mulw (a % sizeMod) b = mulw a b := by
  unfold mulw
  rw [Nat.mul_mod, Nat.mod_mod, ← Nat.mul_mod]

/-- The counting loop shared by `OmEncoder_countChunks` and
`OmEncoder_countChunksInArray`, run over the first `d` axes. -/
theorem countLoop_eq (count chunks : List Nat) (d : Nat)
    (h : ∀ i, i < d → 1 ≤ chunks.getD i 0 ∧ count.getD i 0 + chunks.getD i 0 ≤ sizeMod) :
    (List.range d).foldlM
        (fun n i => do
          let q ← divide_rounded_up (count.getD i 0) (chunks.getD i 0)
          pure (mulw n q))
        1
      = (Except.ok ((∏ i in Finset.range d,
          (count.getD i 0 + chunks.getD i 0 - 1) / chunks.getD i 0) % sizeMod) :
          Except OmFault Nat) := by
  induction d with
  | zero => rfl
  | succ d ih =>
    have hd := h d (Nat.lt_succ_self d)
    rw [List.range_succ, List.foldlM_append, ih (fun i hi => h i (Nat.lt_succ_of_lt hi))]
    rw [Finset.prod_range_succ]
    simp only [List.foldlM_cons, List.foldlM_nil, divide_rounded_up_ok _ _ hd.1 hd.2]
    show Except.ok (mulw _ _) = _
    rw [mulw_mod_left]
    rfl

theorem chunkLengthLoop_eq {F : Type} (encoder : OmEncoder_t F) :
    chunkLengthLoop encoder
      = (∏ i in Finset.range encoder.dimension_count, encoder.chunks.getD i 0) % sizeMod := by
  unfold chunkLengthLoop
  generalize encoder.dimension_count = d
  induction d with
  | zero => rfl
  | succ d ih =>
    rw [List.range_succ, List.foldl_append, ih, Finset.prod_range_succ]
    simp only [List.foldl_cons, List.foldl_nil]
    rw [mulw_mod_left]
    rfl

/-! ## Construction -/

theorem initDataType_none {F : Type} (e : OmEncoder_t F) (data_type : Nat)
    (h : 9 < data_type) : initDataType e data_type = none := by
  unfold initDataType
  simp only [DATA_TYPE_INT8, DATA_TYPE_UINT8, DATA_TYPE_INT16, DATA_TYPE_UINT16,
    DATA_TYPE_INT32, DATA_TYPE_UINT32, DATA_TYPE_INT64, DATA_TYPE_UINT64, DATA_TYPE_FLOAT,
    DATA_TYPE_DOUBLE]
  rw [if_neg (by omega), if_neg (by omega), if_neg (by omega), if_neg (by omega)]

theorem initDataType_some {F : Type} (e : OmEncoder_t F) (data_type : Nat)
    (h : data_type ≤ 9) : ∃ e1, initDataType e data_type = some e1 := by
  interval_cases data_type <;> exact ⟨_, rfl⟩

theorem initCompression_fst {F : Type} (e : OmEncoder_t F) (compression data_type : Nat) :
    (initCompression e compression data_type).1 =
      if compression = 0 ∨ compression = 3 then
        (if data_type = 8 then ERROR_OK else ERROR_INVALID_DATA_TYPE)
      else if compression = 1 then
        (if data_type = 8 ∨ data_type = 9 then ERROR_OK else ERROR_INVALID_DATA_TYPE)
      else ERROR_INVALID_COMPRESSION_TYPE := by
  unfold initCompression
  simp only [DATA_TYPE_FLOAT, DATA_TYPE_DOUBLE, COMPRESSION_PFOR_16BIT_DELTA2D,
    COMPRESSION_FPX_XOR2D, COMPRESSION_PFOR_16BIT_DELTA2D_LOGARITHMIC]
  split_ifs <;> first | rfl | omega

theorem OmEncoder_init_fst {F : Type} (encoder : OmEncoder_t F) (scale_factor add_offset : F)
    (compression data_type : Nat) (dimensions chunks : List Nat)
    (dimension_count lut_chunk_element_count : Nat) :
    (OmEncoder_init encoder scale_factor add_offset compression data_type dimensions chunks
        dimension_count lut_chunk_element_count).1 =
      if 9 < data_type then ERROR_INVALID_DATA_TYPE
      else if compression = 0 ∨ compression = 3 then
        (if data_type = 8 then ERROR_OK else ERROR_INVALID_DATA_TYPE)
      else if compression = 1 then
        (if data_type = 8 ∨ data_type = 9 then ERROR_OK else ERROR_INVALID_DATA_TYPE)
      else ERROR_INVALID_COMPRESSION_TYPE := by
  unfold OmEncoder_init
  by_cases h : 9 < data_type
  · simp only [initDataType_none _ _ h, if_pos h]
  · obtain ⟨e1, he1⟩ := initDataType_some
      ({ encoder with scale_factor := scale_factor, add_offset := add_offset,
                      dimensions := dimensions, chunks := chunks,
                      dimension_count := dimension_count,
                      lut_chunk_element_count := lut_chunk_element_count } : OmEncoder_t F)
      data_type (by omega)
    simp only [he1, if_neg h, initCompression_fst]

/-- C2: the error code of `OmEncoder_init` depends on `(data_type, compression)`
only.  It is `ERROR_OK` exactly for float under either PFOR mode and for float or
double under `COMPRESSION_FPX_XOR2D`; it is `ERROR_INVALID_COMPRESSION_TYPE`
exactly when the data type is one of the ten known ones and the compression is
none of the three known modes; every other failure is `ERROR_INVALID_DATA_TYPE`
(in particular every integer type under each of the three modes), and the two
remaining codes are never returned. -/
theorem OmEncoder_init_error_code {F : Type} (encoder : OmEncoder_t F) (scale_factor add_offset : F)
    (compression data_type : Nat) (dimensions chunks : List Nat)
    (dimension_count lut_chunk_element_count : Nat) :
    ((OmEncoder_init encoder scale_factor add_offset compression data_type dimensions chunks
        dimension_count lut_chunk_element_count).1 = ERROR_OK ↔
      ((compression = COMPRESSION_PFOR_16BIT_DELTA2D
          ∨ compression = COMPRESSION_PFOR_16BIT_DELTA2D_LOGARITHMIC)
          ∧ data_type = DATA_TYPE_FLOAT)
        ∨ (compression = COMPRESSION_FPX_XOR2D
          ∧ (data_type = DATA_TYPE_FLOAT ∨ data_type = DATA_TYPE_DOUBLE))) ∧
    ((OmEncoder_init encoder scale_factor add_offset compression data_type dimensions chunks
        dimension_count lut_chunk_element_count).1 = ERROR_INVALID_COMPRESSION_TYPE ↔
      data_type ≤ DATA_TYPE_DOUBLE
        ∧ compression ≠ COMPRESSION_PFOR_16BIT_DELTA2D
        ∧ compression ≠ COMPRESSION_FPX_XOR2D
        ∧ compression ≠ COMPRESSION_PFOR_16BIT_DELTA2D_LOGARITHMIC) ∧
    ((OmEncoder_init encoder scale_factor add_offset compression data_type dimensions chunks
        dimension_count lut_chunk_element_count).1 = ERROR_OK
      ∨ (OmEncoder_init encoder scale_factor add_offset compression data_type dimensions chunks
        dimension_count lut_chunk_element_count).1 = ERROR_INVALID_COMPRESSION_TYPE
      ∨ (OmEncoder_init encoder scale_factor add_offset compression data_type dimensions chunks
        dimension_count lut_chunk_element_count).1 = ERROR_INVALID_DATA_TYPE) ∧
    (data_type ≤ DATA_TYPE_UINT64 →
      compression = COMPRESSION_PFOR_16BIT_DELTA2D ∨ compression = COMPRESSION_FPX_XOR2D
        ∨ compression = COMPRESSION_PFOR_16BIT_DELTA2D_LOGARITHMIC →
      (OmEncoder_init encoder scale_factor add_offset compression data_type dimensions chunks
        dimension_count lut_chunk_element_count).1 = ERROR_INVALID_DATA_TYPE) ∧
    (∀ (encoder1 : OmEncoder_t F) (scale_factor1 add_offset1 : F) (dimensions1 chunks1 : List Nat)
        (dimension_count1 lut_chunk_element_count1 : Nat),
      (OmEncoder_init encoder1 scale_factor1 add_offset1 compression data_type dimensions1 chunks1
          dimension_count1 lut_chunk_element_count1).1
        = (OmEncoder_init encoder scale_factor add_offset compression data_type dimensions chunks
          dimension_count lut_chunk_element_count).1) ∧
    (OmEncoder_init (pforEncoder [] []) 1 0 COMPRESSION_PFOR_16BIT_DELTA2D DATA_TYPE_INT32
        [5] [2] 1 256).1 = ERROR_INVALID_DATA_TYPE ∧
    (OmEncoder_init (pforEncoder [] []) 1 0 COMPRESSION_FPX_XOR2D DATA_TYPE_INT32
        [5] [2] 1 256).1 = ERROR_INVALID_DATA_TYPE ∧
    (OmEncoder_init (pforEncoder [] []) 1 0 COMPRESSION_PFOR_16BIT_DELTA2D_LOGARITHMIC
        DATA_TYPE_INT32 [5] [2] 1 256).1 = ERROR_INVALID_DATA_TYPE := by
  simp only [OmEncoder_init_fst, DATA_TYPE_UINT64, DATA_TYPE_FLOAT, DATA_TYPE_DOUBLE,
    DATA_TYPE_INT32, COMPRESSION_PFOR_16BIT_DELTA2D, COMPRESSION_FPX_XOR2D,
    COMPRESSION_PFOR_16BIT_DELTA2D_LOGARITHMIC]
  refine ⟨?_, ?_, ?_, ?_, ?_, by decide, by decide, by decide⟩
  · split_ifs <;> simp <;> omega
  · split_ifs <;> simp <;> omega
  · split_ifs <;> simp
  · intro h1 h2
    split_ifs <;> first | rfl | omega
  · intros
    trivial

theorem OmEncoder_init_ok_cases {F : Type} (encoder : OmEncoder_t F) (scale_factor add_offset : F)
    (compression data_type : Nat) (dimensions chunks : List Nat)
    (dimension_count lut_chunk_element_count : Nat)
    (hok : (OmEncoder_init encoder scale_factor add_offset compression data_type dimensions
      chunks dimension_count lut_chunk_element_count).1 = ERROR_OK) :
    (compression = 0 ∧ data_type = 8) ∨ (compression = 3 ∧ data_type = 8)
      ∨ (compression = 1 ∧ data_type = 8) ∨ (compression = 1 ∧ data_type = 9) := by
  rw [OmEncoder_init_fst] at hok
  split_ifs at hok <;> omega

/-- C8: when `OmEncoder_init` returns `ERROR_OK`, the element widths
`(bytes_per_element, bytes_per_element_compressed)` are `(4, 2)` for the two PFOR
modes, `(4, 4)` for `COMPRESSION_FPX_XOR2D` with float and `(8, 8)` with double;
so the compressed width never exceeds the uncompressed one, and the two differ
exactly for the two PFOR modes. -/
theorem OmEncoder_init_widths {F : Type} (encoder : OmEncoder_t F) (scale_factor add_offset : F)
    (compression data_type : Nat) (dimensions chunks : List Nat)
    (dimension_count lut_chunk_element_count : Nat)
    (hok : (OmEncoder_init encoder scale_factor add_offset compression data_type dimensions
      chunks dimension_count lut_chunk_element_count).1 = ERROR_OK) :
    (compression = COMPRESSION_PFOR_16BIT_DELTA2D
        ∨ compression = COMPRESSION_PFOR_16BIT_DELTA2D_LOGARITHMIC →
      (OmEncoder_init encoder scale_factor add_offset compression data_type dimensions chunks
          dimension_count lut_chunk_element_count).2.bytes_per_element = 4
        ∧ (OmEncoder_init encoder scale_factor add_offset compression data_type dimensions chunks
          dimension_count lut_chunk_element_count).2.bytes_per_element_compressed = 2) ∧
    (compression = COMPRESSION_FPX_XOR2D → data_type = DATA_TYPE_FLOAT →
      (OmEncoder_init encoder scale_factor add_offset compression data_type dimensions chunks
          dimension_count lut_chunk_element_count).2.bytes_per_element = 4
        ∧ (OmEncoder_init encoder scale_factor add_offset compression data_type dimensions chunks
          dimension_count lut_chunk_element_count).2.bytes_per_element_compressed = 4) ∧
    (compression = COMPRESSION_FPX_XOR2D → data_type = DATA_TYPE_DOUBLE →
      (OmEncoder_init encoder scale_factor add_offset compression data_type dimensions chunks
          dimension_count lut_chunk_element_count).2.bytes_per_element = 8
        ∧ (OmEncoder_init encoder scale_factor add_offset compression data_type dimensions chunks
          dimension_count lut_chunk_element_count).2.bytes_per_element_compressed = 8) ∧
    (OmEncoder_init encoder scale_factor add_offset compression data_type dimensions chunks
        dimension_count lut_chunk_element_count).2.bytes_per_element_compressed
      ≤ (OmEncoder_init encoder scale_factor add_offset compression data_type dimensions chunks
        dimension_count lut_chunk_element_count).2.bytes_per_element ∧
    ((OmEncoder_init encoder scale_factor add_offset compression data_type dimensions chunks
        dimension_count lut_chunk_element_count).2.bytes_per_element
      ≠ (OmEncoder_init encoder scale_factor add_offset compression data_type dimensions chunks
        dimension_count lut_chunk_element_count).2.bytes_per_element_compressed ↔
      compression = COMPRESSION_PFOR_16BIT_DELTA2D
        ∨ compression = COMPRESSION_PFOR_16BIT_DELTA2D_LOGARITHMIC) := by
  rcases OmEncoder_init_ok_cases _ _ _ _ _ _ _ _ _ hok with h | h | h | h <;>
    obtain ⟨hc, hd⟩ := h <;> subst hc <;> subst hd <;>
    simp [OmEncoder_init, initDataType, initCompression, DATA_TYPE_INT8, DATA_TYPE_UINT8,
      DATA_TYPE_INT16, DATA_TYPE_UINT16, DATA_TYPE_INT32, DATA_TYPE_UINT32, DATA_TYPE_INT64,
      DATA_TYPE_UINT64, DATA_TYPE_FLOAT, DATA_TYPE_DOUBLE, COMPRESSION_PFOR_16BIT_DELTA2D,
      COMPRESSION_FPX_XOR2D, COMPRESSION_PFOR_16BIT_DELTA2D_LOGARITHMIC]

theorem OmEncoder_init_widths_witness :
    (OmEncoder_init (pforEncoder [] []) 100 0 COMPRESSION_FPX_XOR2D DATA_TYPE_DOUBLE [4, 4]
        [2, 2] 2 256).1 = ERROR_OK
      ∧ (OmEncoder_init (pforEncoder [] []) 100 0 COMPRESSION_FPX_XOR2D DATA_TYPE_DOUBLE [4, 4]
        [2, 2] 2 256).2.bytes_per_element_compressed
      ≤ (OmEncoder_init (pforEncoder [] []) 100 0 COMPRESSION_FPX_XOR2D DATA_TYPE_DOUBLE [4, 4]
        [2, 2] 2 256).2.bytes_per_element :=
  ⟨by decide,
    (OmEncoder_init_widths (pforEncoder [] []) 100 0 COMPRESSION_FPX_XOR2D DATA_TYPE_DOUBLE
      [4, 4] [2, 2] 2 256 (by decide)).2.2.2.1⟩

/-- C9 (the code departs from it): for the three 8-byte data types the first
`switch` of `OmEncoder_init` stores `om_common_copy32`, not `om_common_copy64`,
next to the widths `8` and `8`; for double under `COMPRESSION_FPX_XOR2D`, the one
accepted combination, the call returns `ERROR_OK` with that callback in place. -/
theorem OmEncoder_init_copy_callback_64bit {F : Type} (encoder : OmEncoder_t F)
    (scale_factor add_offset : F) (dimensions chunks : List Nat)
    (dimension_count lut_chunk_element_count : Nat) :
    (OmEncoder_init encoder scale_factor add_offset COMPRESSION_FPX_XOR2D DATA_TYPE_DOUBLE
        dimensions chunks dimension_count lut_chunk_element_count).1 = ERROR_OK ∧
    (OmEncoder_init encoder scale_factor add_offset COMPRESSION_FPX_XOR2D DATA_TYPE_DOUBLE
        dimensions chunks dimension_count lut_chunk_element_count).2.compress_copy_callback
      = om_common_copy32 ∧
    (OmEncoder_init encoder scale_factor add_offset COMPRESSION_FPX_XOR2D DATA_TYPE_DOUBLE
        dimensions chunks dimension_count lut_chunk_element_count).2.compress_copy_callback
      ≠ om_common_copy64 ∧
    (OmEncoder_init encoder scale_factor add_offset COMPRESSION_FPX_XOR2D DATA_TYPE_DOUBLE
        dimensions chunks dimension_count lut_chunk_element_count).2.bytes_per_element = 8 ∧
    (OmEncoder_init encoder scale_factor add_offset COMPRESSION_FPX_XOR2D DATA_TYPE_DOUBLE
        dimensions chunks dimension_count lut_chunk_element_count).2.bytes_per_element_compressed
      = 8 ∧
    (∀ data_type, data_type = DATA_TYPE_INT64 ∨ data_type = DATA_TYPE_UINT64
        ∨ data_type = DATA_TYPE_DOUBLE →
      ∃ e1, initDataType encoder data_type = some e1
        ∧ e1.compress_copy_callback = om_common_copy32 ∧ e1.bytes_per_element = 8
        ∧ e1.bytes_per_element_compressed = 8) := by
  refine ⟨rfl, rfl, ?_, rfl, rfl, ?_⟩
  · show om_common_copy32 ≠ om_common_copy64
    decide
  · intro data_type h
    rcases h with h | h | h <;> subst h <;> exact ⟨_, rfl, rfl, rfl, rfl⟩

/-! ## Size queries -/

/-- C3: with `chunks[i] >= 1` and no `size_t` overflow, `divide_rounded_up(a, b)` is
the ceiling of `a / b` (also for `a = 0`), `OmEncoder_countChunks` returns the
product of the per-axis ceilings `ceil(dimensions[i] / chunks[i])`,
`OmEncoder_countChunksInArray` returns the product of
`ceil(array_count[i] / chunks[i])` and agrees with `OmEncoder_countChunks` on
`dimensions`; for `dims = [4, 4]`, `chunks = [2, 2]` the count is `4`. -/
theorem OmEncoder_countChunks_eq_prod_ceil {F : Type} (encoder : OmEncoder_t F)
    (hchunks : ∀ i, i < encoder.dimension_count → 1 ≤ encoder.chunks.getD i 0) :
    (∀ a b : Nat, 1 ≤ b → a + b ≤ sizeMod →
      divide_rounded_up a b = .ok ⌈(a : ℚ) / (b : ℚ)⌉₊) ∧
    divide_rounded_up 0 1 = .ok 0 ∧
    ((∀ i, i < encoder.dimension_count →
        encoder.dimensions.getD i 0 + encoder.chunks.getD i 0 ≤ sizeMod) →
      (∏ i in Finset.range encoder.dimension_count,
        ⌈(encoder.dimensions.getD i 0 : ℚ) / (encoder.chunks.getD i 0 : ℚ)⌉₊) < sizeMod →
      OmEncoder_countChunks encoder
        = .ok (∏ i in Finset.range encoder.dimension_count,
          ⌈(encoder.dimensions.getD i 0 : ℚ) / (encoder.chunks.getD i 0 : ℚ)⌉₊)) ∧
    (∀ array_count : List Nat,
      (∀ i, i < encoder.dimension_count →
        array_count.getD i 0 + encoder.chunks.getD i 0 ≤ sizeMod) →
      (∏ i in Finset.range encoder.dimension_count,
        ⌈(array_count.getD i 0 : ℚ) / (encoder.chunks.getD i 0 : ℚ)⌉₊) < sizeMod →
      OmEncoder_countChunksInArray encoder array_count
        = .ok (∏ i in Finset.range encoder.dimension_count,
          ⌈(array_count.getD i 0 : ℚ) / (encoder.chunks.getD i 0 : ℚ)⌉₊)) ∧
    OmEncoder_countChunksInArray encoder encoder.dimensions = OmEncoder_countChunks encoder ∧
    OmEncoder_countChunks (pforEncoder [4, 4] [2, 2]) = .ok 4 := by
  have key : ∀ count : List Nat,
      (∀ i, i < encoder.dimension_count →
        count.getD i 0 + encoder.chunks.getD i 0 ≤ sizeMod) →
      (∏ i in Finset.range encoder.dimension_count,
        ⌈(count.getD i 0 : ℚ) / (encoder.chunks.getD i 0 : ℚ)⌉₊) < sizeMod →
      (List.range encoder.dimension_count).foldlM
          (fun n i => do
            let q ← divide_rounded_up (count.getD i 0) (encoder.chunks.getD i 0)
            pure (mulw n q))
          1
        = (Except.ok (∏ i in Finset.range encoder.dimension_count,
          ⌈(count.getD i 0 : ℚ) / (encoder.chunks.getD i 0 : ℚ)⌉₊) : Except OmFault Nat) := by
    intro count hov hlt
    rw [countLoop_eq count encoder.chunks encoder.dimension_count
      (fun i hi => ⟨hchunks i hi, hov i hi⟩)]
    have hprod : (∏ i in Finset.range encoder.dimension_count,
        (count.getD i 0 + encoder.chunks.getD i 0 - 1) / encoder.chunks.getD i 0)
        = ∏ i in Finset.range encoder.dimension_count,
          ⌈(count.getD i 0 : ℚ) / (encoder.chunks.getD i 0 : ℚ)⌉₊ :=
      Finset.prod_congr rfl (fun i hi =>
        (ceil_div_eq _ _ (hchunks i (Finset.mem_range.mp hi))).symm)
    rw [hprod, Nat.mod_eq_of_lt hlt]
  refine ⟨?_, ?_, ?_, ?_, rfl, ?_⟩
  · intro a b hb hab
    rw [divide_rounded_up_ok a b hb hab, ceil_div_eq a b hb]
  · rw [divide_rounded_up_ok 0 1 (le_refl 1) (by rw [sizeMod_eq]; omega)]
  · exact key encoder.dimensions
  · exact key
  · rfl

theorem OmEncoder_countChunks_eq_prod_ceil_witness :
    OmEncoder_countChunksInArray (pforEncoder [5, 3] [2, 3]) [5, 3]
      = OmEncoder_countChunks (pforEncoder [5, 3] [2, 3]) :=
  (OmEncoder_countChunks_eq_prod_ceil (pforEncoder [5, 3] [2, 3]) (by decide)).2.2.2.2.1

/-- C10: with `L` the product of the chunk shape and `w` the compressed element
width, and no `size_t` overflow, `OmEncoder_chunkBufferSize` returns `L * w` and
`OmEncoder_compressedChunkBufferSize` returns `ceil(L / 256) + (L + 32) * w`, the
code's `(L + 255) / 256` being that ceiling; so the second is the first plus
`32 * w + ceil(L / 256)`.  For `chunks = [2, 2]` and `w = 2` they are `8` and `73`. -/
theorem OmEncoder_chunkBufferSize_formulas {F : Type} (encoder : OmEncoder_t F)
    (hL : (∏ i in Finset.range encoder.dimension_count, encoder.chunks.getD i 0) + 255
      < sizeMod)
    (hov : ⌈((∏ i in Finset.range encoder.dimension_count, encoder.chunks.getD i 0 : ℕ) : ℚ)
        / 256⌉₊
      + ((∏ i in Finset.range encoder.dimension_count, encoder.chunks.getD i 0) + 32)
        * encoder.bytes_per_element_compressed < sizeMod) :
    OmEncoder_chunkBufferSize encoder
      = (∏ i in Finset.range encoder.dimension_count, encoder.chunks.getD i 0)
        * encoder.bytes_per_element_compressed ∧
    OmEncoder_compressedChunkBufferSize encoder
      = ⌈((∏ i in Finset.range encoder.dimension_count, encoder.chunks.getD i 0 : ℕ) : ℚ)
          / 256⌉₊
        + ((∏ i in Finset.range encoder.dimension_count, encoder.chunks.getD i 0) + 32)
          * encoder.bytes_per_element_compressed ∧
    ((∏ i in Finset.range encoder.dimension_count, encoder.chunks.getD i 0) + 255) / 256
      = ⌈((∏ i in Finset.range encoder.dimension_count, encoder.chunks.getD i 0 : ℕ) : ℚ)
          / 256⌉₊ ∧
    OmEncoder_compressedChunkBufferSize encoder
      = OmEncoder_chunkBufferSize encoder + 32 * encoder.bytes_per_element_compressed
        + ⌈((∏ i in Finset.range encoder.dimension_count, encoder.chunks.getD i 0 : ℕ) : ℚ)
          / 256⌉₊ ∧
    OmEncoder_chunkBufferSize (pforEncoder [4, 4] [2, 2]) = 8 ∧
    OmEncoder_compressedChunkBufferSize (pforEncoder [4, 4] [2, 2]) = 73 := by
  have hW := sizeMod_eq
  have hceil := ceil_div_eq (∏ i in Finset.range encoder.dimension_count,
    encoder.chunks.getD i 0) 256 (by omega)
  have hcast : (((256 : ℕ) : ℚ)) = (256 : ℚ) := by norm_num
  rw [hcast] at hceil
  rw [hceil] at hov ⊢
  rw [show ∀ n : ℕ, n + 256 - 1 = n + 255 from fun n => rfl] at hov hceil ⊢
  generalize hLdef : (∏ i in Finset.range encoder.dimension_count,
    encoder.chunks.getD i 0) = L at *
  have hLlt : L < sizeMod := by omega
  have hlen : chunkLengthLoop encoder = L := by
    rw [chunkLengthLoop_eq, hLdef, Nat.mod_eq_of_lt hLlt]
  have hmul : (L + 32) * encoder.bytes_per_element_compressed < sizeMod := by omega
  have hmul2 : L * encoder.bytes_per_element_compressed < sizeMod := by
    have : L * encoder.bytes_per_element_compressed
        ≤ (L + 32) * encoder.bytes_per_element_compressed :=
      Nat.mul_le_mul_right _ (by omega)
    omega
  have h1 : OmEncoder_chunkBufferSize encoder = L * encoder.bytes_per_element_compressed := by
    unfold OmEncoder_chunkBufferSize
    rw [hlen, mulw_of_lt hmul2]
  have h2 : OmEncoder_compressedChunkBufferSize encoder
      = (L + 255) / 256 + (L + 32) * encoder.bytes_per_element_compressed := by
    unfold OmEncoder_compressedChunkBufferSize
    rw [hlen, addw_of_lt (show L + 255 < sizeMod by omega),
      addw_of_lt (show L + 32 < sizeMod by omega), mulw_of_lt hmul, addw_of_lt hov]
  refine ⟨h1, h2, rfl, ?_, rfl, rfl⟩
  rw [h1, h2, Nat.add_mul]
  omega

theorem OmEncoder_chunkBufferSize_formulas_witness :
    OmEncoder_chunkBufferSize (pforEncoder [10, 10] [3, 3]) = 9 * 2 :=
  (OmEncoder_chunkBufferSize_formulas (pforEncoder [10, 10] [3, 3])
    (by rw [sizeMod_eq]; decide)
    (by
      rw [show ((256 : ℚ)) = ((256 : ℕ) : ℚ) by norm_num, ceil_div_eq _ 256 (by omega),
        sizeMod_eq]
      decide)).1

/-! ## Per-axis facts of the chunk grid -/

theorem omMin_eq_min (a b : Nat) : omMin a b = min a b := by
  unfold omMin
  split_ifs with h
  · exact (Nat.min_eq_left (Nat.le_of_lt h)).symm
  · exact (Nat.min_eq_right (Nat.le_of_not_lt h)).symm

theorem nChunks_pos {F : Type} (e : OmEncoder_t F) (i : Nat)
    (hd : 1 ≤ e.dimensions.getD i 0) (hc : 1 ≤ e.chunks.getD i 0) : 1 ≤ nChunks e i := by
  unfold nChunks
  rw [Nat.le_div_iff_mul_le (by omega)]
  omega

theorem nChunks_mul_le {F : Type} (e : OmEncoder_t F) (i : Nat) :
    nChunks e i * e.chunks.getD i 0 ≤ e.dimensions.getD i 0 + e.chunks.getD i 0 - 1 :=
  Nat.div_mul_le_self _ _

theorem chunkCoord_lt {F : Type} (e : OmEncoder_t F) (ci i : Nat)
    (hd : 1 ≤ e.dimensions.getD i 0) (hc : 1 ≤ e.chunks.getD i 0) :
    chunkCoord e ci i < nChunks e i :=
  Nat.mod_lt _ (nChunks_pos e i hd hc)

theorem chunkCoord_mul_lt {F : Type} (e : OmEncoder_t F) (ci i : Nat)
    (hd : 1 ≤ e.dimensions.getD i 0) (hc : 1 ≤ e.chunks.getD i 0) :
    chunkCoord e ci i * e.chunks.getD i 0 < e.dimensions.getD i 0 := by
  have h1 := nChunks_mul_le e i
  have h2 : (chunkCoord e ci i + 1) * e.chunks.getD i 0 ≤ nChunks e i * e.chunks.getD i 0 :=
    Nat.mul_le_mul_right _ (chunkCoord_lt e ci i hd hc)
  rw [Nat.add_mul, Nat.one_mul] at h2
  omega

theorem chunkLen_eq {F : Type} (e : OmEncoder_t F) (ci i : Nat) :
    chunkLen e ci i
      = min (chunkCoord e ci i * e.chunks.getD i 0 + e.chunks.getD i 0) (e.dimensions.getD i 0)
        - chunkCoord e ci i * e.chunks.getD i 0 := by
  unfold chunkLen
  rw [Nat.add_mul, Nat.one_mul]

theorem chunkLen_pos {F : Type} (e : OmEncoder_t F) (ci i : Nat)
    (hd : 1 ≤ e.dimensions.getD i 0) (hc : 1 ≤ e.chunks.getD i 0) : 1 ≤ chunkLen e ci i := by
  have h := chunkCoord_mul_lt e ci i hd hc
  rw [chunkLen_eq]
  omega

theorem chunkLen_le_chunk {F : Type} (e : OmEncoder_t F) (ci i : Nat) :
    chunkLen e ci i ≤ e.chunks.getD i 0 := by
  rw [chunkLen_eq]
  omega

theorem chunkLen_add_le {F : Type} (e : OmEncoder_t F) (ci i : Nat)
    (hd : 1 ≤ e.dimensions.getD i 0) (hc : 1 ≤ e.chunks.getD i 0) :
    chunkCoord e ci i * e.chunks.getD i 0 + chunkLen e ci i ≤ e.dimensions.getD i 0 := by
  have h := chunkCoord_mul_lt e ci i hd hc
  rw [chunkLen_eq]
  omega

theorem chunkLen_add_eq {F : Type} (e : OmEncoder_t F) (ci i : Nat)
    (hd : 1 ≤ e.dimensions.getD i 0) (hc : 1 ≤ e.chunks.getD i 0) :
    chunkCoord e ci i * e.chunks.getD i 0 + chunkLen e ci i
      = min (chunkCoord e ci i * e.chunks.getD i 0 + e.chunks.getD i 0)
          (e.dimensions.getD i 0) := by
  have h := chunkCoord_mul_lt e ci i hd hc
  rw [chunkLen_eq]
  omega

theorem chunkLen_le_dim {F : Type} (e : OmEncoder_t F) (ci i : Nat)
    (hd : 1 ≤ e.dimensions.getD i 0) (hc : 1 ≤ e.chunks.getD i 0) :
    chunkLen e ci i ≤ e.dimensions.getD i 0 := by
  have h := chunkLen_add_le e ci i hd hc
  omega

theorem chunkCoord_eq_zero_of_full {F : Type} (e : OmEncoder_t F) (ci i : Nat)
    (hd : 1 ≤ e.dimensions.getD i 0) (hc : 1 ≤ e.chunks.getD i 0)
    (h : e.dimensions.getD i 0 = chunkLen e ci i) : chunkCoord e ci i = 0 := by
  have h1 := chunkLen_add_le e ci i hd hc
  have h2 : chunkCoord e ci i * e.chunks.getD i 0 = 0 := by omega
  rcases Nat.mul_eq_zero.mp h2 with h3 | h3
  · exact h3
  · omega

theorem nChunks_le_dim {F : Type} (e : OmEncoder_t F) (i : Nat)
    (hd : 1 ≤ e.dimensions.getD i 0) (hc : 1 ≤ e.chunks.getD i 0) :
    nChunks e i ≤ e.dimensions.getD i 0 := by
  unfold nChunks
  have h : (e.dimensions.getD i 0 + e.chunks.getD i 0 - 1) / e.chunks.getD i 0
      < e.dimensions.getD i 0 + 1 := by
    rw [Nat.div_lt_iff_lt_mul (by omega), Nat.add_mul, Nat.one_mul]
    have : e.dimensions.getD i 0 * 1 ≤ e.dimensions.getD i 0 * e.chunks.getD i 0 :=
      Nat.mul_le_mul_left _ hc
    omega
  omega

/-! ## Products over the trailing axes -/

theorem prodIco_succ (f : Nat → Nat) {k d : Nat} (h : k < d) :
    ∏ j in Finset.Ico k d, f j = f k * ∏ j in Finset.Ico (k + 1) d, f j :=
  Finset.prod_eq_prod_Ico_succ_bot h f

theorem prodIco_self (f : Nat → Nat) (d : Nat) : ∏ j in Finset.Ico d d, f j = 1 := by
  simp

theorem prodIco_pos (f : Nat → Nat) (k d : Nat) (h : ∀ j, j < d → 1 ≤ f j) :
    1 ≤ ∏ j in Finset.Ico k d, f j :=
  Nat.succ_le_of_lt (Finset.prod_pos (fun j hj => h j (Finset.mem_Ico.mp hj).2))

theorem prodIco_le (f g : Nat → Nat) (k d : Nat) (h : ∀ j, j < d → f j ≤ g j) :
    ∏ j in Finset.Ico k d, f j ≤ ∏ j in Finset.Ico k d, g j :=
  Finset.prod_le_prod' (fun j hj => h j (Finset.mem_Ico.mp hj).2)

theorem prodIco_zero (f : Nat → Nat) (d : Nat) :
    ∏ j in Finset.Ico 0 d, f j = ∏ j in Finset.range d, f j := by
  rw [Finset.range_eq_Ico]

theorem prodIco_dvd (f : Nat → Nat) (k d : Nat) :
    (∏ j in Finset.Ico k d, f j) ∣ ∏ j in Finset.range d, f j := by
  rw [Finset.range_eq_Ico]
  exact Finset.prod_dvd_prod_of_subset _ _ _
    (Finset.Ico_subset_Ico (Nat.zero_le k) (le_refl d))

theorem prodIco_le_total (f : Nat → Nat) (k d : Nat) (h : ∀ j, j < d → 1 ≤ f j) :
    ∏ j in Finset.Ico k d, f j ≤ ∏ j in Finset.range d, f j :=
  Nat.le_of_dvd (Finset.prod_pos (fun j hj => h j (Finset.mem_range.mp hj)))
    (prodIco_dvd f k d)

theorem factor_le_prodIco (f : Nat → Nat) {k d : Nat} (h : ∀ j, j < d → 1 ≤ f j) (hk : k < d) :
    f k ≤ ∏ j in Finset.Ico k d, f j := by
  rw [prodIco_succ f hk]
  exact Nat.le_mul_of_pos_right _ (prodIco_pos f (k + 1) d h)

/-! ## Suffix volumes and the chunk origin -/

theorem dimSuffix_succ {F : Type} (e : OmEncoder_t F) {k : Nat} (hk : k < e.dimension_count) :
    dimSuffix e k = e.dimensions.getD k 0 * dimSuffix e (k + 1) :=
  prodIco_succ _ hk

theorem dimSuffix_top {F : Type} (e : OmEncoder_t F) : dimSuffix e e.dimension_count = 1 :=
  prodIco_self _ _

theorem lenSuffix_succ {F : Type} (e : OmEncoder_t F) (ci : Nat) {k : Nat}
    (hk : k < e.dimension_count) :
    lenSuffix e ci k = chunkLen e ci k * lenSuffix e ci (k + 1) :=
  prodIco_succ _ hk

theorem lenSuffix_top {F : Type} (e : OmEncoder_t F) (ci : Nat) :
    lenSuffix e ci e.dimension_count = 1 :=
  prodIco_self _ _

theorem originSuffix_succ {F : Type} (e : OmEncoder_t F) (ci : Nat) {k : Nat}
    (hk : k < e.dimension_count) :
    originSuffix e ci k
      = chunkCoord e ci k * e.chunks.getD k 0 * dimSuffix e (k + 1) + originSuffix e ci (k + 1) :=
  Finset.sum_eq_sum_Ico_succ_bot hk _

theorem originSuffix_top {F : Type} (e : OmEncoder_t F) (ci : Nat) :
    originSuffix e ci e.dimension_count = 0 := by
  simp [originSuffix]

theorem dimSuffix_pos {F : Type} {e : OmEncoder_t F} {ci : Nat} (h : FullInput e ci) (k : Nat) :
    1 ≤ dimSuffix e k :=
  prodIco_pos _ k _ h.hdims

theorem lenSuffix_pos {F : Type} {e : OmEncoder_t F} {ci : Nat} (h : FullInput e ci) (k : Nat) :
    1 ≤ lenSuffix e ci k :=
  prodIco_pos _ k _ (fun j hj => chunkLen_pos e ci j (h.hdims j hj) (h.hchunks j hj))

theorem dimSuffix_le_total {F : Type} {e : OmEncoder_t F} {ci : Nat} (h : FullInput e ci)
    (k : Nat) : dimSuffix e k ≤ dimSuffix e 0 := by
  unfold dimSuffix
  rw [prodIco_zero]
  exact prodIco_le_total _ k _ h.hdims

theorem dimSuffix_zero_lt {F : Type} {e : OmEncoder_t F} {ci : Nat} (h : FullInput e ci) :
    2 * dimSuffix e 0 ≤ sizeMod := by
  unfold dimSuffix
  rw [prodIco_zero]
  exact h.hmem

theorem lenSuffix_zero {F : Type} (e : OmEncoder_t F) (ci : Nat) :
    lenSuffix e ci 0 = packedVolume e ci :=
  prodIco_zero _ _

theorem lenSuffix_dvd_volume {F : Type} (e : OmEncoder_t F) (ci k : Nat) :
    lenSuffix e ci k ∣ packedVolume e ci :=
  prodIco_dvd _ k _

theorem lenSuffix_le_chunks {F : Type} {e : OmEncoder_t F} {ci : Nat} (h : FullInput e ci)
    (k : Nat) : 2 * lenSuffix e ci k ≤ sizeMod := by
  have h1 : lenSuffix e ci k ≤ ∏ j in Finset.Ico k e.dimension_count, e.chunks.getD j 0 :=
    prodIco_le _ _ k _ (fun j _ => chunkLen_le_chunk e ci j)
  have h2 : ∏ j in Finset.Ico k e.dimension_count, e.chunks.getD j 0
      ≤ ∏ j in Finset.range e.dimension_count, e.chunks.getD j 0 :=
    prodIco_le_total (fun j => e.chunks.getD j 0) k _ h.hchunks
  have h3 := h.hbuf
  omega

theorem lenSuffix_le_dimSuffix {F : Type} {e : OmEncoder_t F} {ci : Nat} (h : FullInput e ci)
    (k : Nat) : lenSuffix e ci k ≤ dimSuffix e k :=
  prodIco_le _ _ k _ (fun j hj => chunkLen_le_dim e ci j (h.hdims j hj) (h.hchunks j hj))

theorem originSuffix_lt {F : Type} {e : OmEncoder_t F} {ci : Nat} (h : FullInput e ci) :
    ∀ t k, k + t = e.dimension_count → originSuffix e ci k < dimSuffix e k := by
  intro t
  induction t with
  | zero =>
    intro k hk
    have hk' : k = e.dimension_count := by omega
    subst hk'
    rw [originSuffix_top, dimSuffix_top]
    exact Nat.one_pos
  | succ t ih =>
    intro k hk
    have hlt : k < e.dimension_count := by omega
    have h1 := ih (k + 1) (by omega)
    have h2 := chunkCoord_mul_lt e ci k (h.hdims k hlt) (h.hchunks k hlt)
    rw [originSuffix_succ e ci hlt, dimSuffix_succ e hlt]
    have h3 : (chunkCoord e ci k * e.chunks.getD k 0 + 1) * dimSuffix e (k + 1)
        ≤ e.dimensions.getD k 0 * dimSuffix e (k + 1) := Nat.mul_le_mul_right _ h2
    rw [Nat.add_mul, Nat.one_mul] at h3
    omega

/-! ## Source positions -/

theorem srcPre_lt {F : Type} {e : OmEncoder_t F} {ci : Nat} (h : FullInput e ci) :
    ∀ k, k ≤ e.dimension_count → ∀ u,
      srcPre e ci k u < ∏ j in Finset.range k, e.dimensions.getD j 0 := by
  intro k
  induction k with
  | zero =>
    intro _ u
    simp [srcPre]
  | succ k ih =>
    intro hk u
    have hlt : k < e.dimension_count := by omega
    have h1 := ih (by omega) (u / chunkLen e ci k)
    have h2 := chunkLen_add_le e ci k (h.hdims k hlt) (h.hchunks k hlt)
    have h3 := Nat.mod_lt u (chunkLen_pos e ci k (h.hdims k hlt) (h.hchunks k hlt))
    rw [Finset.prod_range_succ]
    show srcPre e ci k (u / chunkLen e ci k) * e.dimensions.getD k 0
      + (chunkCoord e ci k * e.chunks.getD k 0 + u % chunkLen e ci k) < _
    have h4 : (srcPre e ci k (u / chunkLen e ci k) + 1) * e.dimensions.getD k 0
        ≤ (∏ j in Finset.range k, e.dimensions.getD j 0) * e.dimensions.getD k 0 :=
      Nat.mul_le_mul_right _ h1
    rw [Nat.add_mul, Nat.one_mul] at h4
    omega

theorem srcPre_block {F : Type} {e : OmEncoder_t F} {ci : Nat} (h : FullInput e ci) :
    ∀ t k, k + t = e.dimension_count → ∀ v,
      srcPre e ci e.dimension_count (v * lenSuffix e ci k)
        = srcPre e ci k v * dimSuffix e k + originSuffix e ci k := by
  intro t
  induction t with
  | zero =>
    intro k hk v
    have hk' : k = e.dimension_count := by omega
    subst hk'
    rw [originSuffix_top, dimSuffix_top, lenSuffix_top, Nat.mul_one, Nat.mul_one, Nat.add_zero]
  | succ t ih =>
    intro k hk v
    have hlt : k < e.dimension_count := by omega
    have hpos := chunkLen_pos e ci k (h.hdims k hlt) (h.hchunks k hlt)
    have h1 := ih (k + 1) (by omega) (v * chunkLen e ci k)
    rw [lenSuffix_succ e ci hlt, ← Nat.mul_assoc, h1, originSuffix_succ e ci hlt,
      dimSuffix_succ e hlt]
    show (srcPre e ci k (v * chunkLen e ci k / chunkLen e ci k) * e.dimensions.getD k 0
      + (chunkCoord e ci k * e.chunks.getD k 0 + v * chunkLen e ci k % chunkLen e ci k))
      * dimSuffix e (k + 1) + originSuffix e ci (k + 1) = _
    rw [Nat.mul_div_cancel _ hpos, Nat.mul_mod_left, Nat.add_zero]
    ring

/-! ## Axes that the chunk covers entirely -/

theorem dimSuffix_eq_lenSuffix {F : Type} (e : OmEncoder_t F) (ci k : Nat)
    (hm : ∀ j, k ≤ j → j < e.dimension_count → e.dimensions.getD j 0 = chunkLen e ci j) :
    dimSuffix e k = lenSuffix e ci k :=
  Finset.prod_congr rfl (fun j hj => hm j (Finset.mem_Ico.mp hj).1 (Finset.mem_Ico.mp hj).2)

theorem srcPre_succ {F : Type} (e : OmEncoder_t F) (ci k u : Nat) :
    srcPre e ci (k + 1) u
      = srcPre e ci k (u / chunkLen e ci k) * e.dimensions.getD k 0
        + (chunkCoord e ci k * e.chunks.getD k 0 + u % chunkLen e ci k) :=
  rfl

theorem srcPre_full_block {F : Type} {e : OmEncoder_t F} {ci : Nat} (h : FullInput e ci) :
    ∀ t k, k + t = e.dimension_count →
      (∀ j, k ≤ j → j < e.dimension_count → e.dimensions.getD j 0 = chunkLen e ci j) →
      ∀ v s, s < lenSuffix e ci k →
        srcPre e ci e.dimension_count (v * lenSuffix e ci k + s)
          = srcPre e ci k v * dimSuffix e k + s := by
  intro t
  induction t with
  | zero =>
    intro k hk _ v s hs
    have hk' : k = e.dimension_count := by omega
    subst hk'
    rw [lenSuffix_top] at hs
    have hs0 : s = 0 := by omega
    rw [dimSuffix_top, lenSuffix_top, hs0, Nat.mul_one, Nat.mul_one, Nat.add_zero, Nat.add_zero]
  | succ t ih =>
    intro k hk hm v s hs
    have hlt : k < e.dimension_count := by omega
    have hpos := chunkLen_pos e ci k (h.hdims k hlt) (h.hchunks k hlt)
    have hLpos := lenSuffix_pos h (k + 1)
    have hmk := hm k (le_refl k) hlt
    have hc0 := chunkCoord_eq_zero_of_full e ci k (h.hdims k hlt) (h.hchunks k hlt) hmk
    have hm' : ∀ j, k + 1 ≤ j → j < e.dimension_count →
        e.dimensions.getD j 0 = chunkLen e ci j := fun j hj hjd => hm j (by omega) hjd
    have hdl := dimSuffix_eq_lenSuffix e ci (k + 1) hm'
    rw [lenSuffix_succ e ci hlt] at hs
    have hs1 : s / lenSuffix e ci (k + 1) < chunkLen e ci k := by
      rw [Nat.div_lt_iff_lt_mul hLpos]
      exact hs
    have hs2 := Nat.mod_lt s hLpos
    have hsplit : v * lenSuffix e ci k + s
        = (v * chunkLen e ci k + s / lenSuffix e ci (k + 1)) * lenSuffix e ci (k + 1)
          + s % lenSuffix e ci (k + 1) := by
      rw [lenSuffix_succ e ci hlt]
      have := Nat.div_add_mod s (lenSuffix e ci (k + 1))
      rw [Nat.mul_comm] at this
      rw [Nat.add_mul, Nat.mul_assoc, Nat.add_assoc, this]
    rw [hsplit, ih (k + 1) (by omega) hm' _ _ hs2, srcPre_succ, dimSuffix_succ e hlt, hc0,
      Nat.zero_mul, Nat.zero_add, hdl, hmk]
    have hq : (v * chunkLen e ci k + s / lenSuffix e ci (k + 1)) / chunkLen e ci k = v := by
      rw [Nat.add_comm, Nat.add_mul_div_right _ _ hpos, Nat.div_eq_of_lt hs1, Nat.zero_add]
    have hr : (v * chunkLen e ci k + s / lenSuffix e ci (k + 1)) % chunkLen e ci k
        = s / lenSuffix e ci (k + 1) := by
      rw [Nat.add_comm, Nat.add_mul_mod_self_right, Nat.mod_eq_of_lt hs1]
    rw [hq, hr]
    have := Nat.div_add_mod s (lenSuffix e ci (k + 1))
    rw [Nat.mul_comm] at this
    calc (srcPre e ci k v * chunkLen e ci k + s / lenSuffix e ci (k + 1))
          * lenSuffix e ci (k + 1) + s % lenSuffix e ci (k + 1)
        = srcPre e ci k v * (chunkLen e ci k * lenSuffix e ci (k + 1))
          + (s / lenSuffix e ci (k + 1) * lenSuffix e ci (k + 1)
            + s % lenSuffix e ci (k + 1)) := by ring
      _ = srcPre e ci k v * (chunkLen e ci k * lenSuffix e ci (k + 1)) + s := by rw [this]

/-! ## The run length -/

theorem subw_one {d : Nat} (h1 : 1 ≤ d) (h2 : d < sizeMod) : subw d 1 = d - 1 :=
  subw_of_le h1 h2

theorem linearUpdate_full (D i d len R : Nat) (lr : Bool) (hD : 1 ≤ D) (hDlt : D < sizeMod) :
    linearUpdate D i d d len R lr
      = if i = D - 1 ∧ d ≠ len then (len, false)
        else if lr = true ∧ d = len then (mulw R len, true) else (R, false) := by
  unfold linearUpdate
  rw [subw_one hD hDlt]
  by_cases h1 : i = D - 1 ∧ d ≠ len
  · have h1' : i = D - 1 ∧ ¬ (d = len ∧ d = len) := ⟨h1.1, fun hh => h1.2 hh.1⟩
    simp only [if_pos h1, if_pos h1']
    simp
  · have h1' : ¬ (i = D - 1 ∧ ¬ (d = len ∧ d = len)) := fun hh => h1 ⟨hh.1, fun hd => hh.2 ⟨hd, hd⟩⟩
    simp only [if_neg h1, if_neg h1']
    by_cases h2 : lr = true ∧ d = len
    · have h2' : lr = true ∧ d = len ∧ d = len := ⟨h2.1, h2.2, h2.2⟩
      simp only [if_pos h2, if_pos h2']
      rw [h2.1]
    · have h2' : ¬ (lr = true ∧ d = len ∧ d = len) := fun hh => h2 ⟨hh.1, hh.2.1⟩
      simp only [if_neg h2, if_neg h2']

theorem runAfter_succ {F : Type} {e : OmEncoder_t F} {ci : Nat} (h : FullInput e ci)
    {t k : Nat} (hk : k + (t + 1) = e.dimension_count) :
    runAfter e ci (t + 1)
      = if t = 0 ∧ e.dimensions.getD k 0 ≠ chunkLen e ci k then (chunkLen e ci k, false)
        else if (runAfter e ci t).2 = true ∧ e.dimensions.getD k 0 = chunkLen e ci k then
          (mulw (runAfter e ci t).1 (chunkLen e ci k), true)
        else ((runAfter e ci t).1, false) := by
  have hi : e.dimension_count - 1 - t = k := by omega
  show linearUpdate _ _ _ _ _ _ _ = _
  rw [hi, linearUpdate_full _ _ _ _ _ _ h.hD h.hDlt]
  have hiff : (k = e.dimension_count - 1) ↔ t = 0 := by omega
  simp only [hiff]

/-- What the proofs need to know about the run length after `t` axes. -/
theorem runAfter_inv {F : Type} {e : OmEncoder_t F} {ci : Nat} (h : FullInput e ci) :
    ∀ t k, k + t = e.dimension_count →
      1 ≤ (runAfter e ci t).1 ∧
      (runAfter e ci t).1 ∣ lenSuffix e ci k ∧
      ((runAfter e ci t).2 = true →
        (runAfter e ci t).1 = lenSuffix e ci k ∧
        ∀ j, k ≤ j → j < e.dimension_count → e.dimensions.getD j 0 = chunkLen e ci j) ∧
      (∀ v s, s < (runAfter e ci t).1 →
        srcPre e ci e.dimension_count (v * (runAfter e ci t).1 + s)
          = srcPre e ci e.dimension_count (v * (runAfter e ci t).1) + s) := by
  intro t
  induction t with
  | zero =>
    intro k hk
    have hk' : k = e.dimension_count := by omega
    subst hk'
    refine ⟨le_refl 1, ?_, ?_, ?_⟩
    · exact Dvd.intro _ (Nat.one_mul _)
    · intro _
      refine ⟨(lenSuffix_top e ci).symm, fun j h1 h2 => absurd h2 (by omega)⟩
    · intro v s hs
      have hs' : s < 1 := hs
      have hs0 : s = 0 := by omega
      rw [hs0, Nat.add_zero, Nat.add_zero]
  | succ t ih =>
    intro k hk
    have hlt : k < e.dimension_count := by omega
    obtain ⟨ih1, ih2, ih3, ih4⟩ := ih (k + 1) (by omega)
    have hpos := chunkLen_pos e ci k (h.hdims k hlt) (h.hchunks k hlt)
    have hsuc := lenSuffix_succ e ci hlt
    rw [runAfter_succ h hk]
    by_cases hA : t = 0 ∧ e.dimensions.getD k 0 ≠ chunkLen e ci k
    · rw [if_pos hA]
      have hkD : e.dimension_count = k + 1 := by omega
      have htop : lenSuffix e ci (k + 1) = 1 := by
        have := lenSuffix_top e ci
        rw [hkD] at this
        exact this
      refine ⟨hpos, ?_, ?_, ?_⟩
      · rw [hsuc, htop, Nat.mul_one]
      · intro hf
        exact absurd hf (by simp)
      · intro v s hs
        have hs' : s < chunkLen e ci k := hs
        show srcPre e ci e.dimension_count (v * chunkLen e ci k + s)
          = srcPre e ci e.dimension_count (v * chunkLen e ci k) + s
        rw [hkD, srcPre_succ, srcPre_succ]
        have hq : (v * chunkLen e ci k + s) / chunkLen e ci k = v := by
          rw [Nat.add_comm, Nat.add_mul_div_right _ _ hpos, Nat.div_eq_of_lt hs', Nat.zero_add]
        have hr : (v * chunkLen e ci k + s) % chunkLen e ci k = s := by
          rw [Nat.add_comm, Nat.add_mul_mod_self_right, Nat.mod_eq_of_lt hs']
        rw [hq, hr, Nat.mul_div_cancel _ hpos, Nat.mul_mod_left]
        omega
    · rw [if_neg hA]
      by_cases hB : (runAfter e ci t).2 = true ∧ e.dimensions.getD k 0 = chunkLen e ci k
      · rw [if_pos hB]
        obtain ⟨hR, hm⟩ := ih3 hB.1
        have hmul : mulw (runAfter e ci t).1 (chunkLen e ci k) = lenSuffix e ci k := by
          have hlt2 : lenSuffix e ci (k + 1) * chunkLen e ci k < sizeMod := by
            have := lenSuffix_le_chunks h k
            rw [hsuc, Nat.mul_comm (chunkLen e ci k)] at this
            have hW := sizeMod_eq
            omega
          rw [hR, mulw_of_lt hlt2, hsuc, Nat.mul_comm]
        have hm' : ∀ j, k ≤ j → j < e.dimension_count →
            e.dimensions.getD j 0 = chunkLen e ci j := by
          intro j hj hjd
          rcases Nat.eq_or_lt_of_le hj with hjk | hjk
          · rw [← hjk]
            exact hB.2
          · exact hm j hjk hjd
        rw [hmul]
        refine ⟨lenSuffix_pos h k, dvd_refl _, fun _ => ⟨rfl, hm'⟩, ?_⟩
        intro v s hs
        have hs' : s < lenSuffix e ci k := hs
        show srcPre e ci e.dimension_count (v * lenSuffix e ci k + s)
          = srcPre e ci e.dimension_count (v * lenSuffix e ci k) + s
        have h0 := srcPre_full_block h (t + 1) k hk hm' v 0 (lenSuffix_pos h k)
        rw [Nat.add_zero, Nat.add_zero] at h0
        rw [srcPre_full_block h (t + 1) k hk hm' v s hs', h0]
      · rw [if_neg hB]
        refine ⟨ih1, ?_, ?_, ih4⟩
        · rw [hsuc]
          exact Dvd.dvd.mul_left ih2 _
        · intro hf
          exact absurd hf (by simp)

theorem runAfter_zero {F : Type} (e : OmEncoder_t F) (ci : Nat) : runAfter e ci 0 = (1, true) :=
  rfl

theorem runAfter_stable {F : Type} {e : OmEncoder_t F} {ci : Nat} (h : FullInput e ci) :
    ∀ s t, t + s = e.dimension_count → (runAfter e ci t).2 = false →
      runAfter e ci e.dimension_count = runAfter e ci t := by
  intro s
  induction s with
  | zero =>
    intro t ht _
    have : t = e.dimension_count := by omega
    rw [this]
  | succ s ih =>
    intro t ht hf
    have ht0 : t ≠ 0 := by
      intro h0
      rw [h0, runAfter_zero] at hf
      exact absurd hf (by simp)
    have hsucc : runAfter e ci (t + 1) = ((runAfter e ci t).1, false) := by
      rw [runAfter_succ h (show (e.dimension_count - (t + 1)) + (t + 1) = e.dimension_count by omega),
        if_neg (fun hh => ht0 hh.1), if_neg (fun hh => by rw [hf] at hh; exact absurd hh.1 (by simp))]
    have h1 := ih (t + 1) (by omega) (by rw [hsucc])
    rw [h1, hsucc]
    exact Prod.ext rfl hf.symm

theorem runAfter_dvd_runLength {F : Type} {e : OmEncoder_t F} {ci : Nat} (h : FullInput e ci) :
    ∀ s t, t + s = e.dimension_count → (runAfter e ci t).1 ∣ runLength e ci := by
  intro s
  induction s with
  | zero =>
    intro t ht
    have : t = e.dimension_count := by omega
    rw [this]
    exact dvd_refl _
  | succ s ih =>
    intro t ht
    refine dvd_trans ?_ (ih (t + 1) (by omega))
    have hk : (e.dimension_count - (t + 1)) + (t + 1) = e.dimension_count := by omega
    rw [runAfter_succ h hk]
    split_ifs with hA hB
    · have h0 : runAfter e ci t = (1, true) := by rw [hA.1, runAfter_zero]
      rw [h0]
      exact one_dvd _
    · obtain ⟨_, _, h3, _⟩ := runAfter_inv h t (e.dimension_count - (t + 1) + 1) (by omega)
      obtain ⟨hR, _⟩ := h3 hB.1
      have hlt : (runAfter e ci t).1 * chunkLen e ci (e.dimension_count - (t + 1)) < sizeMod := by
        have h5 := lenSuffix_le_chunks h (e.dimension_count - (t + 1))
        rw [lenSuffix_succ e ci (show e.dimension_count - (t + 1) < e.dimension_count by omega),
          ← hR, Nat.mul_comm (chunkLen e ci _)] at h5
        have hW := sizeMod_eq
        omega
      show (runAfter e ci t).1 ∣ mulw _ _
      rw [mulw_of_lt hlt]
      exact Dvd.intro _ rfl
    · exact dvd_refl _

theorem runLength_pos {F : Type} {e : OmEncoder_t F} {ci : Nat} (h : FullInput e ci) :
    1 ≤ runLength e ci :=
  (runAfter_inv h e.dimension_count 0 (Nat.zero_add _)).1

theorem runLength_dvd_volume {F : Type} {e : OmEncoder_t F} {ci : Nat} (h : FullInput e ci) :
    runLength e ci ∣ packedVolume e ci := by
  have := (runAfter_inv h e.dimension_count 0 (Nat.zero_add _)).2.1
  rw [lenSuffix_zero] at this
  exact this

theorem runLength_contiguous {F : Type} {e : OmEncoder_t F} {ci : Nat} (h : FullInput e ci)
    (v s : Nat) (hs : s < runLength e ci) :
    srcPre e ci e.dimension_count (v * runLength e ci + s)
      = srcPre e ci e.dimension_count (v * runLength e ci) + s :=
  (runAfter_inv h e.dimension_count 0 (Nat.zero_add _)).2.2.2 v s hs

/-! ## The first loop of a full-array call -/

theorem getD_replicate_zero (n i : Nat) : (List.replicate n 0).getD i 0 = 0 := by
  rw [List.getD_eq_getElem?_getD]
  by_cases h : i < n
  · simp [List.getElem?_replicate, h]
  · simp [List.getElem?_replicate, h]

theorem dim_le_total {F : Type} {e : OmEncoder_t F} {ci : Nat} (h : FullInput e ci)
    {k : Nat} (hk : k < e.dimension_count) : 2 * e.dimensions.getD k 0 ≤ sizeMod := by
  have h1 := factor_le_prodIco (fun j => e.dimensions.getD j 0) h.hdims hk
  have h2 : ∏ j in Finset.Ico k e.dimension_count, e.dimensions.getD j 0 ≤ dimSuffix e 0 :=
    dimSuffix_le_total h k
  have h3 := dimSuffix_zero_lt h
  have h1' : e.dimensions.getD k 0 ≤ ∏ j in Finset.Ico k e.dimension_count,
      e.dimensions.getD j 0 := h1
  omega

theorem chunk_le_total {F : Type} {e : OmEncoder_t F} {ci : Nat} (h : FullInput e ci)
    {k : Nat} (hk : k < e.dimension_count) : 2 * e.chunks.getD k 0 ≤ sizeMod := by
  have h1 : e.chunks.getD k 0 ≤ ∏ j in Finset.Ico k e.dimension_count, e.chunks.getD j 0 :=
    factor_le_prodIco (fun j => e.chunks.getD j 0) h.hchunks hk
  have h2 : ∏ j in Finset.Ico k e.dimension_count, e.chunks.getD j 0
      ≤ ∏ j in Finset.range e.dimension_count, e.chunks.getD j 0 :=
    prodIco_le_total (fun j => e.chunks.getD j 0) k _ h.hchunks
  have h3 := h.hbuf
  omega

/-- The expression `min((c + 1) * chunk, bound) - c * chunk` of both loops, when
nothing wraps. -/
theorem length0_eq (c chunk bound : Nat) (h1 : c * chunk + chunk < sizeMod)
    (h2 : c * chunk ≤ bound) (h3 : 1 ≤ chunk) :
    subw (omMin (mulw (addw c 1) chunk) bound) (mulw c chunk)
      = min (c * chunk + chunk) bound - c * chunk := by
  have hW := sizeMod_eq
  have hc : c + 1 < sizeMod := by
    have : c * 1 ≤ c * chunk := Nat.mul_le_mul_left _ h3
    omega
  have hmul : (c + 1) * chunk = c * chunk + chunk := by rw [Nat.add_mul, Nat.one_mul]
  rw [addw_of_lt hc, mulw_of_lt (by rw [hmul]; exact h1), mulw_of_lt (by omega), omMin_eq_min,
    hmul]
  apply subw_of_le
  · exact Nat.le_min.mpr ⟨by omega, h2⟩
  · exact lt_of_le_of_lt (Nat.min_le_left _ _) h1

theorem chunk_step_lt {F : Type} {e : OmEncoder_t F} {ci : Nat} (h : FullInput e ci)
    {k : Nat} (hk : k < e.dimension_count) :
    chunkCoord e ci k * e.chunks.getD k 0 + e.chunks.getD k 0 < sizeMod := by
  have h1 := chunkCoord_mul_lt e ci k (h.hdims k hk) (h.hchunks k hk)
  have h2 := dim_le_total h hk
  have h3 := chunk_le_total h hk
  omega

theorem nSuffix_le {F : Type} {e : OmEncoder_t F} {ci : Nat} (h : FullInput e ci) (k : Nat) :
    ∏ j in Finset.Ico k e.dimension_count, nChunks e j ≤ dimSuffix e k :=
  prodIco_le _ _ k _ (fun j hj => nChunks_le_dim e j (h.hdims j hj) (h.hchunks j hj))

theorem setupAxis_full {F : Type} {e : OmEncoder_t F} {ci : Nat} (h : FullInput e ci)
    {k : Nat} (hk : k < e.dimension_count) :
    setupAxis e e.dimensions (List.replicate e.dimension_count 0) e.dimensions ci ci k
        (setupAt e ci (k + 1))
      = .ok (setupAt e ci k) := by
  have hW := sizeMod_eq
  have hd := h.hdims k hk
  have hc := h.hchunks k hk
  have hdt := dim_le_total h hk
  have hct := chunk_le_total h hk
  have htot := dimSuffix_zero_lt h
  have hn : divide_rounded_up (e.dimensions.getD k 0) (e.chunks.getD k 0) = .ok (nChunks e k) :=
    divide_rounded_up_ok _ _ hc (by omega)
  have hnpos := nChunks_pos e k hd hc
  have hrm : 1 ≤ ∏ j in Finset.Ico (k + 1) e.dimension_count, nChunks e j :=
    prodIco_pos _ _ _ (fun j hj => nChunks_pos e j (h.hdims j hj) (h.hchunks j hj))
  have hlen : subw (omMin (mulw (addw (chunkCoord e ci k) 1) (e.chunks.getD k 0))
        (e.dimensions.getD k 0)) (mulw (chunkCoord e ci k) (e.chunks.getD k 0))
      = chunkLen e ci k := by
    rw [length0_eq _ _ _ (chunk_step_lt h hk) (Nat.le_of_lt (chunkCoord_mul_lt e ci k hd hc)) hc,
      chunkLen_eq]
  have hcm := chunkCoord_mul_lt e ci k hd hc
  have hds := dimSuffix_succ e hk
  have hdle := dimSuffix_le_total h k
  have hdpos := dimSuffix_pos h (k + 1)
  have hprod : dimSuffix e (k + 1) * (chunkCoord e ci k * e.chunks.getD k 0) ≤ dimSuffix e k := by
    rw [hds, Nat.mul_comm (e.dimensions.getD k 0)]
    exact Nat.mul_le_mul_left _ (Nat.le_of_lt hcm)
  have hol := originSuffix_lt h (e.dimension_count - k) k (by omega)
  have hos := originSuffix_succ e ci hk
  have hcmlt : chunkCoord e ci k * e.chunks.getD k 0 < sizeMod := by omega
  have hos' : originSuffix e ci k
      = originSuffix e ci (k + 1)
        + dimSuffix e (k + 1) * (chunkCoord e ci k * e.chunks.getD k 0) := by
    rw [hos, Nat.mul_comm, Nat.add_comm]
  have hrc : addw (originSuffix e ci (k + 1))
        (mulw (dimSuffix e (k + 1))
          (addw (mulw (chunkCoord e ci k) (e.chunks.getD k 0))
            ((List.replicate e.dimension_count 0).getD k 0)))
      = originSuffix e ci k := by
    have e1 : mulw (chunkCoord e ci k) (e.chunks.getD k 0)
        = chunkCoord e ci k * e.chunks.getD k 0 := mulw_of_lt hcmlt
    have e2 : addw (chunkCoord e ci k * e.chunks.getD k 0) 0
        = chunkCoord e ci k * e.chunks.getD k 0 := addw_of_lt (by omega)
    have e3 : mulw (dimSuffix e (k + 1)) (chunkCoord e ci k * e.chunks.getD k 0)
        = dimSuffix e (k + 1) * (chunkCoord e ci k * e.chunks.getD k 0) :=
      mulw_of_lt (by omega)
    have e4 : addw (originSuffix e ci (k + 1))
          (dimSuffix e (k + 1) * (chunkCoord e ci k * e.chunks.getD k 0))
        = originSuffix e ci (k + 1)
          + dimSuffix e (k + 1) * (chunkCoord e ci k * e.chunks.getD k 0) :=
      addw_of_lt (by omega)
    rw [getD_replicate_zero, e1, e2, e3, e4, hos']
  have hrmul : mulw (∏ j in Finset.Ico (k + 1) e.dimension_count, nChunks e j) (nChunks e k)
      = ∏ j in Finset.Ico k e.dimension_count, nChunks e j := by
    have h1 := nSuffix_le h k
    have h2 : ∏ j in Finset.Ico k e.dimension_count, nChunks e j
        = (∏ j in Finset.Ico (k + 1) e.dimension_count, nChunks e j) * nChunks e k := by
      rw [prodIco_succ (fun j => nChunks e j) hk, Nat.mul_comm]
    rw [h2] at h1 ⊢
    exact mulw_of_lt (by omega)
  have hlmul : mulw (lenSuffix e ci (k + 1)) (chunkLen e ci k) = lenSuffix e ci k := by
    have h1 := lenSuffix_le_chunks h k
    have h2 : lenSuffix e ci k = lenSuffix e ci (k + 1) * chunkLen e ci k := by
      rw [lenSuffix_succ e ci hk, Nat.mul_comm]
    rw [h2] at h1 ⊢
    exact mulw_of_lt (by omega)
  have hdmul : mulw (dimSuffix e (k + 1)) (e.dimensions.getD k 0) = dimSuffix e k := by
    have h2 : dimSuffix e k = dimSuffix e (k + 1) * e.dimensions.getD k 0 := by
      rw [hds, Nat.mul_comm]
    rw [h2] at hdle ⊢
    exact mulw_of_lt (by omega)
  have hrun : linearUpdate e.dimension_count k (e.dimensions.getD k 0) (e.dimensions.getD k 0)
        (chunkLen e ci k) (runAfter e ci (e.dimension_count - (k + 1))).1
        (runAfter e ci (e.dimension_count - (k + 1))).2
      = runAfter e ci (e.dimension_count - k) := by
    have h1 : e.dimension_count - k = (e.dimension_count - (k + 1)) + 1 := by omega
    have h2 : e.dimension_count - 1 - (e.dimension_count - (k + 1)) = k := by omega
    rw [h1]
    show _ = linearUpdate _ _ _ _ _ _ _
    rw [h2]
  have hlast : (if k = subw e.dimension_count 1 then chunkLen e ci k
        else if k + 1 < e.dimension_count then chunkLen e ci (e.dimension_count - 1) else 0)
      = if k < e.dimension_count then chunkLen e ci (e.dimension_count - 1) else 0 := by
    rw [subw_one h.hD h.hDlt, if_pos hk]
    by_cases hkl : k = e.dimension_count - 1
    · rw [if_pos hkl, ← hkl]
    · rw [if_neg hkl, if_pos (by omega)]
  have hle := chunkLen_le_dim e ci k hd hc
  have hcc : (ci / ∏ j in Finset.Ico (k + 1) e.dimension_count, nChunks e j) % nChunks e k
      = chunkCoord e ci k := rfl
  unfold setupAxis
  simp only [setupAt, hn, divw, modw, bind, Except.bind, pure, Except.pure,
    if_neg (Nat.ne_of_gt hrm), if_neg (Nat.ne_of_gt hnpos), hcc, hlen]
  rw [if_neg (not_not.mpr hle), if_neg (not_not.mpr hle), hrmul, hlmul, hdmul, hrc, hrun, hlast]

theorem setupLoop_full {F : Type} {e : OmEncoder_t F} {ci : Nat} (h : FullInput e ci) :
    ∀ k, k ≤ e.dimension_count →
      setupLoop e e.dimensions (List.replicate e.dimension_count 0) e.dimensions ci ci k
          (setupAt e ci k)
        = .ok (setupAt e ci 0) := by
  intro k
  induction k with
  | zero =>
    intro _
    rfl
  | succ k ih =>
    intro hk
    show (do
      let s1 ← setupAxis e e.dimensions (List.replicate e.dimension_count 0) e.dimensions ci ci k
        (setupAt e ci (k + 1))
      setupLoop e e.dimensions (List.replicate e.dimension_count 0) e.dimensions ci ci k s1) = _
    rw [setupAxis_full h (by omega)]
    exact ih (by omega)

theorem setupInit_eq {F : Type} (e : OmEncoder_t F) (ci : Nat) :
    setupInit = setupAt e ci e.dimension_count := by
  unfold setupInit setupAt
  rw [prodIco_self, lenSuffix_top, dimSuffix_top, originSuffix_top, Nat.sub_self,
    if_neg (Nat.lt_irrefl _)]
  rfl

theorem arrayTotalCountLoop_full {F : Type} {e : OmEncoder_t F} {ci : Nat} (h : FullInput e ci) :
    arrayTotalCountLoop e.dimension_count e.dimensions = dimSuffix e 0 := by
  have hW := sizeMod_eq
  have key : ∀ d, (List.range d).foldl
      (fun arrayTotalCount i => mulw arrayTotalCount (e.dimensions.getD i 0)) 1
      = (∏ i in Finset.range d, e.dimensions.getD i 0) % sizeMod := by
    intro d
    induction d with
    | zero => rfl
    | succ d ih =>
      rw [List.range_succ, List.foldl_append, ih, Finset.prod_range_succ]
      simp only [List.foldl_cons, List.foldl_nil]
      rw [mulw_mod_left]
      rfl
  unfold arrayTotalCountLoop
  rw [key, Nat.mod_eq_of_lt (by have := h.hmem; omega)]
  unfold dimSuffix
  rw [prodIco_zero]

/-! ## The inner loop of the gather -/

theorem block_div {a s o : Nat} (h : o < s) : (a * s + o) / s = a := by
  have hs : 0 < s := by omega
  rw [Nat.add_comm, Nat.add_mul_div_right _ _ hs, Nat.div_eq_of_lt h, Nat.zero_add]

theorem block_mod {a s o : Nat} (h : o < s) : (a * s + o) % s = o := by
  rw [Nat.add_comm, Nat.add_mul_mod_self_right, Nat.mod_eq_of_lt h]

theorem subw_zero {a : Nat} (h : a < sizeMod) : subw a 0 = a :=
  subw_of_le (Nat.zero_le a) h

theorem succ_div_of_lt {u n : Nat} (h : u % n + 1 < n) : (u + 1) / n = u / n := by
  have hn : 0 < n := by omega
  have h1 := Nat.div_add_mod u n
  have h2 : u + 1 = (u / n) * n + (u % n + 1) := by
    rw [Nat.mul_comm]
    omega
  rw [h2, block_div h]

theorem succ_mod_of_lt {u n : Nat} (h : u % n + 1 < n) : (u + 1) % n = u % n + 1 := by
  have h1 := Nat.div_add_mod u n
  have h2 : u + 1 = (u / n) * n + (u % n + 1) := by
    rw [Nat.mul_comm]
    omega
  rw [h2, block_mod h]

theorem succ_eq_of_last {u n : Nat} (h : u % n + 1 = n) : u + 1 = (u / n + 1) * n := by
  have h1 := Nat.div_add_mod u n
  rw [Nat.add_mul, Nat.one_mul, Nat.mul_comm]
  omega

/-- One iteration of the inner loop on explicit numbers: the read coordinate is
`(H * d + (c * ch + p)) * S + O`, with `p` the position inside the chunk on this
axis, `c` the chunk coordinate, `S` the stride and `O < S` the part of the lower
axes. -/
theorem carryAxis_eval {F : Type} (e : OmEncoder_t F) (aD aO aC : List Nat)
    (k H d c ch p S O len R : Nat) (lr : Bool)
    (hdk : aD.getD k 0 = d) (hck : aC.getD k 0 = d) (hch : e.chunks.getD k 0 = ch)
    (hz : aO.getD k 0 = 0) (hc : 1 ≤ ch) (hp : p < len) (hlch : len ≤ ch)
    (hlen : c * ch + len = min (c * ch + ch) d) (hO : O < S)
    (hrc : (H * d + (c * ch + p)) * S + O + S < sizeMod) (hdS : d * S < sizeMod)
    (hstep : c * ch + ch < sizeMod) :
    carryAxis e aD aO aC k
        { readCoordinate := (H * d + (c * ch + p)) * S + O
          rollingMultiplyTargetCube := S
          linearReadCount := R
          linearRead := lr }
      = if p + 1 < len then
          .ok (CarryExit.breakOut,
            { readCoordinate := (H * d + (c * ch + p) + 1) * S + O
              rollingMultiplyTargetCube := S
              linearReadCount := (linearUpdate e.dimension_count k d d len R lr).1
              linearRead := (linearUpdate e.dimension_count k d d len R lr).2 })
        else
          .ok (CarryExit.carried,
            { readCoordinate := (H * d + c * ch) * S + O
              rollingMultiplyTargetCube := d * S
              linearReadCount := (linearUpdate e.dimension_count k d d len R lr).1
              linearRead := (linearUpdate e.dimension_count k d d len R lr).2 }) := by
  have hW := sizeMod_eq
  have hX : c * ch + p < d := by omega
  have hA : (H * d + (c * ch + p) + 1) * S = (H * d + (c * ch + p)) * S + S := by
    rw [Nat.add_mul _ 1, Nat.one_mul]
  have hSne : S ≠ 0 := by omega
  have hdne : d ≠ 0 := by omega
  have hchne : ch ≠ 0 := by omega
  have hdlt : d < sizeMod := by
    have : d * 1 ≤ d * S := Nat.mul_le_mul_left _ (by omega)
    omega
  have e1 : ((H * d + (c * ch + p)) * S + O) / S = H * d + (c * ch + p) := block_div hO
  have e2 : (H * d + (c * ch + p)) % d = c * ch + p := block_mod hX
  have e3 : subw (c * ch + p) 0 = c * ch + p := subw_zero (by omega)
  have e4 : (c * ch + p) / ch = c := block_div (by omega)
  have e5 : subw (omMin (mulw (addw c 1) ch) d) (mulw c ch) = len := by
    rw [length0_eq c ch d hstep (by omega) hc]
    omega
  have e6 : addw ((H * d + (c * ch + p)) * S + O) S = (H * d + (c * ch + p) + 1) * S + O := by
    rw [addw_of_lt hrc, hA]
    omega
  have e7 : ((H * d + (c * ch + p) + 1) * S + O) / S = H * d + (c * ch + p) + 1 := block_div hO
  unfold carryAxis
  simp only [divw, modw, bind, Except.bind, pure, Except.pure, hdk, hck, hch, hz, if_neg hSne,
    if_neg hdne, if_neg hchne, e1, e2, e3, e4, e5, e6, e7]
  by_cases hbr : p + 1 < len
  · have e8 : (H * d + (c * ch + p) + 1) % d = c * ch + (p + 1) := by
      rw [Nat.add_assoc, Nat.add_assoc (c * ch)]
      exact block_mod (by omega)
    have e9 : subw (c * ch + (p + 1)) 0 = c * ch + (p + 1) := subw_zero (by omega)
    have e10 : (c * ch + (p + 1)) % ch = p + 1 := block_mod (by omega)
    have hcond : p + 1 ≠ 0 ∧ p + 1 ≠ len := ⟨by omega, by omega⟩
    rw [e8, e9, e10, if_pos hcond, if_pos hbr]
  · have hlast : p + 1 = len := by omega
    have e8 : subw ((H * d + (c * ch + p) + 1) % d) 0 % ch = 0 := by
      have hlt : (H * d + (c * ch + p) + 1) % d < d := Nat.mod_lt _ (by omega)
      rw [subw_zero (by omega)]
      by_cases hfull : c * ch + p + 1 = d
      · have : H * d + (c * ch + p) + 1 = (H + 1) * d := by
          rw [Nat.add_mul, Nat.one_mul]
          omega
        rw [this, Nat.mul_mod_left, Nat.zero_mod]
      · have hx1 : c * ch + p + 1 = (c + 1) * ch := by
          rw [Nat.add_mul, Nat.one_mul]
          omega
        have : H * d + (c * ch + p) + 1 = H * d + (c + 1) * ch := by omega
        rw [this, block_mod (by omega), Nat.mul_mod_left]
    have hcond : ¬ ((0 : Nat) ≠ 0 ∧ 0 ≠ len) := fun hh => hh.1 rfl
    have hlenS : len * S ≤ d * S := Nat.mul_le_mul_right _ (by omega)
    have hmulS : mulw len S = len * S := mulw_of_lt (by omega)
    have hsub : subw ((H * d + (c * ch + p) + 1) * S + O) (len * S) = (H * d + c * ch) * S + O := by
      have hexp : (H * d + (c * ch + p) + 1) * S + O = (H * d + c * ch) * S + O + len * S := by
        have : H * d + (c * ch + p) + 1 = (H * d + c * ch) + len := by omega
        rw [this, Nat.add_mul]
        omega
      rw [subw_of_le (by omega) (by omega), hexp, Nat.add_sub_cancel]
    have hmulD : mulw S d = d * S := by
      rw [Nat.mul_comm d S]
      exact mulw_of_lt (by rw [Nat.mul_comm]; exact hdS)
    rw [e8, if_neg hcond, if_neg hbr, hmulS, hsub, hmulD]

theorem carryAxis_full {F : Type} {e : OmEncoder_t F} {ci : Nat} (h : FullInput e ci)
    {k : Nat} (hk : k < e.dimension_count) (u : Nat) :
    carryAxis e e.dimensions (List.replicate e.dimension_count 0) e.dimensions k
        (carryAt e ci (k + 1) u)
      = if u % chunkLen e ci k + 1 < chunkLen e ci k then
          .ok (CarryExit.breakOut, breakAt e ci k u)
        else .ok (CarryExit.carried, carryAt e ci k (u / chunkLen e ci k)) := by
  have hW := sizeMod_eq
  have hd := h.hdims k hk
  have hc := h.hchunks k hk
  have htot := dimSuffix_zero_lt h
  have hlpos := chunkLen_pos e ci k hd hc
  have hp := Nat.mod_lt u hlpos
  have hds := dimSuffix_succ e hk
  have hol := originSuffix_lt h (e.dimension_count - (k + 1)) (k + 1) (by omega)
  have hos := originSuffix_succ e ci hk
  have hSle := dimSuffix_le_total h (k + 1)
  have hkle := dimSuffix_le_total h k
  have hpre := srcPre_lt h (k + 1) (by omega) u
  have htotal : (∏ j in Finset.range (k + 1), e.dimensions.getD j 0) * dimSuffix e (k + 1)
      = dimSuffix e 0 := by
    unfold dimSuffix
    rw [prodIco_zero]
    exact Finset.prod_range_mul_prod_Ico _ (by omega)
  have hrcbound : srcPre e ci (k + 1) u * dimSuffix e (k + 1) + originSuffix e ci (k + 1)
      < dimSuffix e 0 := by
    rw [← htotal]
    have : (srcPre e ci (k + 1) u + 1) * dimSuffix e (k + 1)
        ≤ (∏ j in Finset.range (k + 1), e.dimensions.getD j 0) * dimSuffix e (k + 1) :=
      Nat.mul_le_mul_right _ hpre
    rw [Nat.add_mul, Nat.one_mul] at this
    omega
  have hrun : linearUpdate e.dimension_count k (e.dimensions.getD k 0) (e.dimensions.getD k 0)
        (chunkLen e ci k) (runAfter e ci (e.dimension_count - (k + 1))).1
        (runAfter e ci (e.dimension_count - (k + 1))).2
      = runAfter e ci (e.dimension_count - k) := by
    have h1 : e.dimension_count - k = (e.dimension_count - (k + 1)) + 1 := by omega
    have h2 : e.dimension_count - 1 - (e.dimension_count - (k + 1)) = k := by omega
    rw [h1]
    show _ = linearUpdate _ _ _ _ _ _ _
    rw [h2]
  have heval := carryAxis_eval e e.dimensions (List.replicate e.dimension_count 0) e.dimensions k
    (srcPre e ci k (u / chunkLen e ci k)) (e.dimensions.getD k 0) (chunkCoord e ci k)
    (e.chunks.getD k 0) (u % chunkLen e ci k) (dimSuffix e (k + 1)) (originSuffix e ci (k + 1))
    (chunkLen e ci k) (runAfter e ci (e.dimension_count - (k + 1))).1
    (runAfter e ci (e.dimension_count - (k + 1))).2 rfl rfl rfl (getD_replicate_zero _ _) hc hp
    (chunkLen_le_chunk e ci k) (chunkLen_add_eq e ci k hd hc) hol
    (by rw [← srcPre_succ]; omega) (by rw [← hds]; omega) (chunk_step_lt h hk)
  rw [hrun, ← srcPre_succ] at heval
  have hca : carryAt e ci (k + 1) u
      = { readCoordinate :=
            srcPre e ci (k + 1) u * dimSuffix e (k + 1) + originSuffix e ci (k + 1)
          rollingMultiplyTargetCube := dimSuffix e (k + 1)
          linearReadCount := (runAfter e ci (e.dimension_count - (k + 1))).1
          linearRead := (runAfter e ci (e.dimension_count - (k + 1))).2 } := rfl
  rw [hca, heval]
  by_cases hbr : u % chunkLen e ci k + 1 < chunkLen e ci k
  · rw [if_pos hbr, if_pos hbr]
    have hb : breakAt e ci k u
        = { readCoordinate :=
              (srcPre e ci (k + 1) u + 1) * dimSuffix e (k + 1) + originSuffix e ci (k + 1)
            rollingMultiplyTargetCube := dimSuffix e (k + 1)
            linearReadCount := (runAfter e ci (e.dimension_count - k)).1
            linearRead := (runAfter e ci (e.dimension_count - k)).2 } := by
      unfold breakAt
      rw [srcPre_succ e ci k (u + 1), succ_div_of_lt hbr, succ_mod_of_lt hbr, srcPre_succ,
        Nat.add_assoc (_ * _), Nat.add_assoc (chunkCoord e ci k * _)]
    rw [hb]
  · rw [if_neg hbr, if_neg hbr]
    have hca' : carryAt e ci k (u / chunkLen e ci k)
        = { readCoordinate :=
              (srcPre e ci k (u / chunkLen e ci k) * e.dimensions.getD k 0
                + chunkCoord e ci k * e.chunks.getD k 0) * dimSuffix e (k + 1)
                + originSuffix e ci (k + 1)
            rollingMultiplyTargetCube := e.dimensions.getD k 0 * dimSuffix e (k + 1)
            linearReadCount := (runAfter e ci (e.dimension_count - k)).1
            linearRead := (runAfter e ci (e.dimension_count - k)).2 } := by
      have hrcv : srcPre e ci k (u / chunkLen e ci k)
            * (e.dimensions.getD k 0 * dimSuffix e (k + 1))
            + (chunkCoord e ci k * e.chunks.getD k 0 * dimSuffix e (k + 1)
              + originSuffix e ci (k + 1))
          = (srcPre e ci k (u / chunkLen e ci k) * e.dimensions.getD k 0
              + chunkCoord e ci k * e.chunks.getD k 0) * dimSuffix e (k + 1)
            + originSuffix e ci (k + 1) := by ring
      unfold carryAt
      rw [hds, hos, hrcv]
    rw [hca']

theorem carryLoop_succ {F : Type} (e : OmEncoder_t F) (aD aO aC : List Nat) (k : Nat)
    (s : CarryState) :
    carryLoop e aD aO aC (k + 1) s
      = (do
        let r ← carryAxis e aD aO aC k s
        match r.1 with
        | CarryExit.breakOut => pure (false, r.2)
        | CarryExit.carried =>
          if k = 0 then pure (true, r.2) else carryLoop e aD aO aC k r.2) :=
  rfl

/-- The inner loop of a full-array call either leaves by `break` at some axis `i`,
having moved the position over the axes up to `i` on by one, or carries out of
every axis, in which case the element last copied was the last one of the chunk. -/
theorem carryLoop_full {F : Type} {e : OmEncoder_t F} {ci : Nat} (h : FullInput e ci) :
    ∀ k, k < e.dimension_count → ∀ u,
      (∃ i u', i ≤ k ∧ (u + 1) * lenSuffix e ci (k + 1) = (u' + 1) * lenSuffix e ci (i + 1)
          ∧ u' % chunkLen e ci i + 1 < chunkLen e ci i
          ∧ carryLoop e e.dimensions (List.replicate e.dimension_count 0) e.dimensions (k + 1)
              (carryAt e ci (k + 1) u)
            = .ok (false, breakAt e ci i u'))
      ∨ (∃ c s, (u + 1) * lenSuffix e ci (k + 1) = c * lenSuffix e ci 0
          ∧ carryLoop e e.dimensions (List.replicate e.dimension_count 0) e.dimensions (k + 1)
              (carryAt e ci (k + 1) u)
            = .ok (true, s)) := by
  intro k
  induction k with
  | zero =>
    intro hk u
    rw [carryLoop_succ, carryAxis_full h hk]
    by_cases hbr : u % chunkLen e ci 0 + 1 < chunkLen e ci 0
    · left
      refine ⟨0, u, le_refl 0, rfl, hbr, ?_⟩
      rw [if_pos hbr]
      rfl
    · right
      have hpos := chunkLen_pos e ci 0 (h.hdims 0 hk) (h.hchunks 0 hk)
      have hm := Nat.mod_lt u hpos
      have hlast : u % chunkLen e ci 0 + 1 = chunkLen e ci 0 := by omega
      refine ⟨u / chunkLen e ci 0 + 1, carryAt e ci 0 (u / chunkLen e ci 0), ?_, ?_⟩
      · rw [succ_eq_of_last hlast, lenSuffix_succ e ci hk, Nat.mul_assoc]
      · rw [if_neg hbr]
        rfl
  | succ k ih =>
    intro hk u
    rw [carryLoop_succ, carryAxis_full h hk]
    by_cases hbr : u % chunkLen e ci (k + 1) + 1 < chunkLen e ci (k + 1)
    · left
      refine ⟨k + 1, u, le_refl _, rfl, hbr, ?_⟩
      rw [if_pos hbr]
      rfl
    · have hpos := chunkLen_pos e ci (k + 1) (h.hdims _ hk) (h.hchunks _ hk)
      have hm := Nat.mod_lt u hpos
      have hlast : u % chunkLen e ci (k + 1) + 1 = chunkLen e ci (k + 1) := by omega
      have hrel : (u + 1) * lenSuffix e ci (k + 1 + 1)
          = (u / chunkLen e ci (k + 1) + 1) * lenSuffix e ci (k + 1) := by
        rw [succ_eq_of_last hlast, lenSuffix_succ e ci hk, Nat.mul_assoc]
      have hstep : (do
            let r ← (if u % chunkLen e ci (k + 1) + 1 < chunkLen e ci (k + 1) then
                (Except.ok (CarryExit.breakOut, breakAt e ci (k + 1) u) :
                  Except OmFault (CarryExit × CarryState))
              else .ok (CarryExit.carried, carryAt e ci (k + 1) (u / chunkLen e ci (k + 1))))
            match r.1 with
            | CarryExit.breakOut => pure (false, r.2)
            | CarryExit.carried =>
              if k + 1 = 0 then pure (true, r.2)
              else
                carryLoop e e.dimensions (List.replicate e.dimension_count 0) e.dimensions (k + 1)
                  r.2)
          = carryLoop e e.dimensions (List.replicate e.dimension_count 0) e.dimensions (k + 1)
              (carryAt e ci (k + 1) (u / chunkLen e ci (k + 1))) := by
        rw [if_neg hbr]
        rfl
      rw [hstep, hrel]
      rcases ih (by omega) (u / chunkLen e ci (k + 1)) with hA | hB
      · obtain ⟨i, u', hi, hr, hlt, hres⟩ := hA
        left
        exact ⟨i, u', by omega, hr, hlt, hres⟩
      · right
        exact hB

/-! ## The gather loop of a full-array call -/

theorem gatherLoop_succ {F α β : Type} (e : OmEncoder_t F) (impl : OmCallbacks F α β)
    (array : Nat → α) (aD aO aC : List Nat) (out : Nat → Nat) (total vol last fuel : Nat)
    (s : GatherState β) :
    gatherLoop e impl array aD aO aC out total vol last (fuel + 1) s
      = (do
        if ¬ addw s.readCoordinate s.linearReadCount ≤ total then
          throw OmFault.assertReadInBounds
        if ¬ addw s.writeCoordinate s.linearReadCount ≤ vol then
          throw OmFault.assertWriteInBounds
        let chunkBuffer :=
          writeBack s.chunkBuffer s.writeCoordinate
            (impl.copy e.compress_copy_callback s.linearReadCount e.scale_factor
              e.add_offset (fun j => array (s.readCoordinate + j))
              (fun j => s.chunkBuffer (s.writeCoordinate + j)))
        let calls := s.calls ++ [OmCall.copy s.linearReadCount s.readCoordinate s.writeCoordinate]
        let readCoordinate := addw s.readCoordinate (subw s.linearReadCount 1)
        let writeCoordinate := addw (addw s.writeCoordinate (subw s.linearReadCount 1)) 1
        let r ← carryLoop e aD aO aC e.dimension_count
          { readCoordinate := readCoordinate
            rollingMultiplyTargetCube := 1
            linearReadCount := 1
            linearRead := true }
        if r.1 = true then
          let rows ← divw vol last
          let filtered := impl.filter e.compress_filter_callback rows last chunkBuffer
          let res := impl.compress e.compress_callback filtered vol out
          pure
            { bytes := res.1
              out := res.2
              chunkBuffer := filtered
              packed := chunkBuffer
              calls := calls ++ [OmCall.filter rows last, OmCall.compress vol] }
        else
          gatherLoop e impl array aD aO aC out total vol last fuel
            { readCoordinate := r.2.readCoordinate
              writeCoordinate := writeCoordinate
              linearReadCount := r.2.linearReadCount
              chunkBuffer := chunkBuffer
              calls := calls }) :=
  rfl

/-- A `break` of the inner loop happens only on an axis at which the run has
stopped growing, and never after the last element of the chunk. -/
theorem break_facts {F : Type} {e : OmEncoder_t F} {ci : Nat} (h : FullInput e ci)
    {i u' w : Nat} (hi : i < e.dimension_count)
    (hrel : w = (u' + 1) * lenSuffix e ci (i + 1))
    (hlt : u' % chunkLen e ci i + 1 < chunkLen e ci i) :
    (runLength e ci ∣ w → (runAfter e ci (e.dimension_count - i)).1 = runLength e ci) ∧
    w ≠ packedVolume e ci := by
  have hLpos := lenSuffix_pos h (i + 1)
  have hnd : ¬ lenSuffix e ci i ∣ w := by
    intro hdvd
    rw [hrel, lenSuffix_succ e ci hi] at hdvd
    have h1 : chunkLen e ci i ∣ u' + 1 := Nat.dvd_of_mul_dvd_mul_right hLpos hdvd
    have h2 := Nat.mod_eq_zero_of_dvd h1
    rw [succ_mod_of_lt hlt] at h2
    omega
  constructor
  · intro hR
    have hfalse : (runAfter e ci (e.dimension_count - i)).2 = false := by
      by_contra hne
      have htrue : (runAfter e ci (e.dimension_count - i)).2 = true := by
        cases hb : (runAfter e ci (e.dimension_count - i)).2
        · exact absurd hb hne
        · rfl
      obtain ⟨_, _, h3, _⟩ := runAfter_inv h (e.dimension_count - i) i (by omega)
      have h4 := (h3 htrue).1
      have h5 := runAfter_dvd_runLength h i (e.dimension_count - i) (by omega)
      rw [h4] at h5
      exact hnd (dvd_trans h5 hR)
    have := runAfter_stable h i (e.dimension_count - i) (by omega) hfalse
    unfold runLength
    rw [this]
  · intro heq
    apply hnd
    rw [heq]
    exact lenSuffix_dvd_volume e ci i

theorem writeBack_scalarCopy {α β : Type} (conv : α → β) (array : Nat → α) (b : Nat → β)
    (rc w r : Nat) :
    writeBack b w (scalarCopy conv r (fun j => array (rc + j)) (fun j => b (w + j)))
      = fun j => if w ≤ j ∧ j < w + r then conv (array (rc + (j - w))) else b j := by
  funext j
  unfold writeBack scalarCopy
  by_cases h1 : w ≤ j
  · by_cases h2 : j - w < r
    · rw [if_pos h1, if_pos h2, if_pos ⟨h1, by omega⟩]
    · have hj : w + (j - w) = j := by omega
      rw [if_pos h1, if_neg h2, if_neg (fun hh => h2 (by have := hh.2; omega))]
      beta_reduce
      rw [hj]
  · rw [if_neg h1, if_neg (fun hh => h1 hh.1)]

theorem fillFrom_step {F α β : Type} {e : OmEncoder_t F} {ci : Nat} (h : FullInput e ci)
    (conv : α → β) (array : Nat → α) (b : Nat → β) (w : Nat)
    (hdvd : runLength e ci ∣ w) (hle : w + runLength e ci ≤ packedVolume e ci) :
    fillFrom e conv array ci
        (fun j => if w ≤ j ∧ j < w + runLength e ci then
            conv (array (srcPre e ci e.dimension_count w + (j - w)))
          else b j)
        (w + runLength e ci)
      = fillFrom e conv array ci b w := by
  funext j
  unfold fillFrom
  obtain ⟨v, hv⟩ := hdvd
  by_cases h1 : w + runLength e ci ≤ j ∧ j < packedVolume e ci
  · rw [if_pos h1, if_pos ⟨by omega, h1.2⟩]
  · rw [if_neg h1]
    beta_reduce
    by_cases h2 : w ≤ j ∧ j < w + runLength e ci
    · rw [if_pos h2, if_pos ⟨h2.1, by omega⟩]
      have hj : j = v * runLength e ci + (j - w) := by
        rw [Nat.mul_comm, ← hv]
        omega
      have hw : w = v * runLength e ci := by rw [Nat.mul_comm, ← hv]
      have hc := runLength_contiguous h v (j - w) (by omega)
      rw [← hw] at hc
      have hj' : w + (j - w) = j := by omega
      rw [hj'] at hc
      rw [hc]
    · rw [if_neg h2, if_neg (fun hh => h1 ⟨by have := hh.1; omega, hh.2⟩)]

theorem fillFrom_zero {F α β : Type} (e : OmEncoder_t F) (conv : α → β) (array : Nat → α)
    (ci : Nat) (b : Nat → β) : fillFrom e conv array ci b 0 = packedChunk e conv array ci b := by
  funext j
  unfold fillFrom packedChunk
  by_cases h1 : j < packedVolume e ci
  · rw [if_pos ⟨Nat.zero_le j, h1⟩, if_pos h1]
  · rw [if_neg (fun hh => h1 hh.2), if_neg h1]

theorem carryAt_top {F : Type} (e : OmEncoder_t F) (ci u : Nat) :
    carryAt e ci e.dimension_count u
      = { readCoordinate := srcPre e ci e.dimension_count u
          rollingMultiplyTargetCube := 1
          linearReadCount := 1
          linearRead := true } := by
  unfold carryAt
  rw [dimSuffix_top, originSuffix_top, Nat.sub_self, Nat.mul_one, Nat.add_zero]
  rfl

theorem breakAt_read {F : Type} {e : OmEncoder_t F} {ci : Nat} (h : FullInput e ci)
    {i : Nat} (hi : i < e.dimension_count) (u : Nat) :
    (breakAt e ci i u).readCoordinate
      = srcPre e ci e.dimension_count ((u + 1) * lenSuffix e ci (i + 1)) :=
  (srcPre_block h (e.dimension_count - (i + 1)) (i + 1) (by omega) (u + 1)).symm

theorem lengthLast_ne_zero {F : Type} {e : OmEncoder_t F} {ci : Nat} (h : FullInput e ci) :
    chunkLen e ci (e.dimension_count - 1) ≠ 0 := by
  have hlt : e.dimension_count - 1 < e.dimension_count := by have := h.hD; omega
  have := chunkLen_pos e ci _ (h.hdims _ hlt) (h.hchunks _ hlt)
  omega

/-- The gather loop of a full-array call, entered at the start `w` of a run with
`n` runs still to copy, completes within `n` iterations and leaves the packed
positions from `w` on filled with the converted source elements. -/
theorem gatherLoop_full {F α β : Type} {e : OmEncoder_t F} {ci : Nat} (h : FullInput e ci)
    (impl : OmCallbacks F α β) (conv : α → β) (array : Nat → α) (out : Nat → Nat)
    (hcopy : ∀ (n : Nat) (src : Nat → α) (dst : Nat → β),
      impl.copy e.compress_copy_callback n e.scale_factor e.add_offset src dst
        = scalarCopy conv n src dst) :
    ∀ fuel n w (b : Nat → β) (cs : List OmCall),
      w + n * runLength e ci = packedVolume e ci → 1 ≤ n → n ≤ fuel → runLength e ci ∣ w →
      gatherLoop e impl array e.dimensions (List.replicate e.dimension_count 0) e.dimensions out
          (dimSuffix e 0) (packedVolume e ci) (chunkLen e ci (e.dimension_count - 1)) fuel
          { readCoordinate := srcPre e ci e.dimension_count w
            writeCoordinate := w
            linearReadCount := runLength e ci
            chunkBuffer := b
            calls := cs }
        = .ok (finishChunk e impl ci out (fillFrom e conv array ci b w)
            (cs ++ copyTrace (runLength e ci) (srcPre e ci e.dimension_count) n w)) := by
  have hW := sizeMod_eq
  have hRpos := runLength_pos h
  have htot := dimSuffix_zero_lt h
  have hvol : 2 * packedVolume e ci ≤ sizeMod := by
    rw [← lenSuffix_zero]
    exact lenSuffix_le_chunks h 0
  intro fuel
  induction fuel with
  | zero =>
    intro n w b cs _ h1 h2 _
    omega
  | succ fuel ih =>
    intro n w b cs hsum hn hfuel hdvd
    have hnR : runLength e ci ≤ n * runLength e ci := Nat.le_mul_of_pos_left _ (by omega)
    have hwR : w + runLength e ci ≤ packedVolume e ci := by omega
    obtain ⟨v, hv⟩ := hdvd
    have hw : w = v * runLength e ci := by rw [Nat.mul_comm, ← hv]
    -- the run is read from consecutive source positions
    have hlastpos : srcPre e ci e.dimension_count (w + (runLength e ci - 1))
        = srcPre e ci e.dimension_count w + (runLength e ci - 1) := by
      have := runLength_contiguous h v (runLength e ci - 1) (by omega)
      rw [← hw] at this
      exact this
    have hsrclt : srcPre e ci e.dimension_count (w + (runLength e ci - 1)) < dimSuffix e 0 := by
      have := srcPre_lt h e.dimension_count (le_refl _) (w + (runLength e ci - 1))
      unfold dimSuffix
      rw [prodIco_zero]
      exact this
    have hread : addw (srcPre e ci e.dimension_count w) (runLength e ci)
        = srcPre e ci e.dimension_count w + runLength e ci := addw_of_lt (by omega)
    have hwrite : addw w (runLength e ci) = w + runLength e ci := addw_of_lt (by omega)
    have hsub1 : subw (runLength e ci) 1 = runLength e ci - 1 := subw_of_le hRpos (by omega)
    have hread2 : addw (srcPre e ci e.dimension_count w) (runLength e ci - 1)
        = srcPre e ci e.dimension_count (w + (runLength e ci - 1)) := by
      rw [addw_of_lt (by omega), hlastpos]
    have hwl : w + (runLength e ci - 1) + 1 = w + runLength e ci := by omega
    have hwrite2 : addw (addw w (runLength e ci - 1)) 1 = w + runLength e ci := by
      have e1 : addw w (runLength e ci - 1) = w + (runLength e ci - 1) := addw_of_lt (by omega)
      have e2 : addw (w + (runLength e ci - 1)) 1 = w + (runLength e ci - 1) + 1 :=
        addw_of_lt (by omega)
      rw [e1, e2, hwl]
    have hkD : e.dimension_count - 1 + 1 = e.dimension_count := by have := h.hD; omega
    have hreadle : srcPre e ci e.dimension_count w + runLength e ci ≤ dimSuffix e 0 := by omega
    have hD1 : e.dimension_count - 1 < e.dimension_count := by have := h.hD; omega
    have hcarry := carryLoop_full h (e.dimension_count - 1) hD1 (w + (runLength e ci - 1))
    rw [hkD, lenSuffix_top, Nat.mul_one, carryAt_top, hwl] at hcarry
    rw [gatherLoop_succ]
    simp only [hread, hwrite, if_neg (not_not.mpr hreadle), if_neg (not_not.mpr hwR), hsub1, hread2,
      hwrite2, hcopy, writeBack_scalarCopy, bind, Except.bind, pure, Except.pure]
    rcases hcarry with hA | hB
    · obtain ⟨i, u', hi, hrel, hlt, hres⟩ := hA
      have hi' : i < e.dimension_count := Nat.lt_of_le_of_lt hi hD1
      obtain ⟨hRun, hne⟩ := break_facts h hi' hrel hlt
      have hRun' := hRun (Dvd.intro_left (v + 1) (by rw [Nat.add_mul, Nat.one_mul, ← hw]))
      have hn2 : 2 ≤ n := by
        rcases Nat.eq_or_lt_of_le hn with h1 | h1
        · exfalso
          apply hne
          rw [← hsum, ← h1, Nat.one_mul]
        · omega
      have hrc : (breakAt e ci i u').readCoordinate
          = srcPre e ci e.dimension_count (w + runLength e ci) := by
        rw [breakAt_read h hi', hrel]
      have hlr : (breakAt e ci i u').linearReadCount = runLength e ci := hRun'
      rw [hres]
      simp only [Bool.false_eq_true, if_false, hrc, hlr]
      have hsum' : (w + runLength e ci) + (n - 1) * runLength e ci = packedVolume e ci := by
        have hn1 : n = (n - 1) + 1 := by omega
        have : n * runLength e ci = (n - 1) * runLength e ci + runLength e ci := by
          calc n * runLength e ci = ((n - 1) + 1) * runLength e ci := by rw [← hn1]
            _ = (n - 1) * runLength e ci + runLength e ci := by rw [Nat.add_mul, Nat.one_mul]
        omega
      rw [ih (n - 1) (w + runLength e ci) _ _ hsum' (by omega) (by omega)
        (Dvd.intro_left (v + 1) (by rw [Nat.add_mul, Nat.one_mul, ← hw])),
        fillFrom_step h conv array b w ⟨v, hv⟩ hwR]
      have hn1 : n = (n - 1) + 1 := by omega
      have htr : copyTrace (runLength e ci) (srcPre e ci e.dimension_count) n w
          = OmCall.copy (runLength e ci) (srcPre e ci e.dimension_count w) w
            :: copyTrace (runLength e ci) (srcPre e ci e.dimension_count) (n - 1)
              (w + runLength e ci) := by
        conv_lhs => rw [hn1]
        rfl
      rw [htr, List.append_assoc]
      rfl
    · obtain ⟨c, s, hrel, hres⟩ := hB
      rw [lenSuffix_zero] at hrel
      have hc1 : 1 ≤ c := by
        rcases Nat.eq_zero_or_pos c with h0 | h0
        · rw [h0, Nat.zero_mul] at hrel
          omega
        · exact h0
      have hcv : packedVolume e ci ≤ c * packedVolume e ci := Nat.le_mul_of_pos_left _ hc1
      have hend : w + runLength e ci = packedVolume e ci := by omega
      have hn1 : n = 1 := by
        have h1 : n * runLength e ci = 1 * runLength e ci := by omega
        exact Nat.eq_of_mul_eq_mul_right hRpos h1
      rw [hres]
      simp only [if_true, divw, if_neg (lengthLast_ne_zero h), bind, Except.bind, pure,
        Except.pure]
      have hfill : (fun j => if w ≤ j ∧ j < w + runLength e ci then
            conv (array (srcPre e ci e.dimension_count w + (j - w)))
          else b j)
          = fillFrom e conv array ci b w := by
        have h1 := fillFrom_step h conv array b w ⟨v, hv⟩ hwR
        rw [← h1]
        funext j
        unfold fillFrom
        rw [if_neg (show ¬ (w + runLength e ci ≤ j ∧ j < packedVolume e ci) from
          fun hh => by have := hh.1; have := hh.2; omega)]
      rw [hfill, hn1]
      rfl

/-! ## The full-array call as a whole -/

theorem countChunks_eq_chunkCount {F : Type} (e : OmEncoder_t F)
    (hdims : ∀ i, i < e.dimension_count → 1 ≤ e.dimensions.getD i 0)
    (hchunks : ∀ i, i < e.dimension_count → 1 ≤ e.chunks.getD i 0)
    (hmem : 2 * (∏ i in Finset.range e.dimension_count, e.dimensions.getD i 0) ≤ sizeMod)
    (hbuf : 2 * (∏ i in Finset.range e.dimension_count, e.chunks.getD i 0) ≤ sizeMod) :
    OmEncoder_countChunks e = .ok (chunkCount e) := by
  have hW := sizeMod_eq
  have hfac : ∀ i, i < e.dimension_count →
      e.dimensions.getD i 0 + e.chunks.getD i 0 ≤ sizeMod := by
    intro i hi
    have h1 : e.dimensions.getD i 0 ≤ ∏ j in Finset.range e.dimension_count,
        e.dimensions.getD j 0 :=
      Nat.le_of_dvd (Finset.prod_pos (fun j hj => hdims j (Finset.mem_range.mp hj)))
        (Finset.dvd_prod_of_mem _ (Finset.mem_range.mpr hi))
    have h2 : e.chunks.getD i 0 ≤ ∏ j in Finset.range e.dimension_count, e.chunks.getD j 0 :=
      Nat.le_of_dvd (Finset.prod_pos (fun j hj => hchunks j (Finset.mem_range.mp hj)))
        (Finset.dvd_prod_of_mem _ (Finset.mem_range.mpr hi))
    omega
  unfold OmEncoder_countChunks
  rw [countLoop_eq e.dimensions e.chunks e.dimension_count
    (fun i hi => ⟨hchunks i hi, hfac i hi⟩)]
  have hle : chunkCount e ≤ ∏ j in Finset.range e.dimension_count, e.dimensions.getD j 0 :=
    Finset.prod_le_prod' (fun j hj =>
      nChunks_le_dim e j (hdims j (Finset.mem_range.mp hj)) (hchunks j (Finset.mem_range.mp hj)))
  have hlt : chunkCount e < sizeMod := by omega
  show Except.ok (chunkCount e % sizeMod) = _
  rw [Nat.mod_eq_of_lt hlt]

theorem srcPre_zero_eq_origin {F : Type} {e : OmEncoder_t F} {ci : Nat} (h : FullInput e ci) :
    srcPre e ci e.dimension_count 0 = originSuffix e ci 0 := by
  have := srcPre_block h e.dimension_count 0 (Nat.zero_add _) 0
  rw [Nat.zero_mul] at this
  rw [this]
  show 0 * _ + _ = _
  rw [Nat.zero_mul, Nat.zero_add]

/-- A full-array call on well-formed input completes within `L' / R` iterations
of the gather loop (`R` the run length) and hands `packedChunk` to the filter. -/
theorem compressChunkFull_eq {F α β : Type} {e : OmEncoder_t F} {ci : Nat} (h : FullInput e ci)
    (impl : OmCallbacks F α β) (conv : α → β) (array : Nat → α) (out : Nat → Nat)
    (b : Nat → β) (fuel : Nat)
    (hcopy : ∀ (n : Nat) (src : Nat → α) (dst : Nat → β),
      impl.copy e.compress_copy_callback n e.scale_factor e.add_offset src dst
        = scalarCopy conv n src dst)
    (hfuel : packedVolume e ci / runLength e ci ≤ fuel) :
    compressChunkFull e impl array ci out b fuel
      = .ok (finishChunk e impl ci out (packedChunk e conv array ci b)
          (copyTrace (runLength e ci) (srcPre e ci e.dimension_count)
            (packedVolume e ci / runLength e ci) 0)) := by
  have hRpos := runLength_pos h
  have hdvd := runLength_dvd_volume h
  have hvolpos : 1 ≤ packedVolume e ci := by
    rw [← lenSuffix_zero]
    exact lenSuffix_pos h 0
  have hsum : 0 + packedVolume e ci / runLength e ci * runLength e ci = packedVolume e ci := by
    rw [Nat.zero_add, Nat.div_mul_cancel hdvd]
  have hn : 1 ≤ packedVolume e ci / runLength e ci := by
    rw [Nat.le_div_iff_mul_le (by omega), Nat.one_mul]
    exact Nat.le_of_dvd (by omega) hdvd
  have hloop := gatherLoop_full h impl conv array out hcopy fuel
    (packedVolume e ci / runLength e ci) 0 b [] hsum hn hfuel (dvd_zero _)
  rw [fillFrom_zero, List.nil_append] at hloop
  unfold compressChunkFull OmEncoder_compressChunk
  rw [setupInit_eq e ci, setupLoop_full h e.dimension_count (le_refl _),
    arrayTotalCountLoop_full h]
  show gatherLoop e impl array e.dimensions (List.replicate e.dimension_count 0) e.dimensions out
    (dimSuffix e 0) (setupAt e ci 0).rollingMultiplyChunkLength (setupAt e ci 0).lengthLast fuel
    { readCoordinate := (setupAt e ci 0).readCoordinate
      writeCoordinate := 0
      linearReadCount := (setupAt e ci 0).linearReadCount
      chunkBuffer := b
      calls := [] } = _
  have e1 : (setupAt e ci 0).rollingMultiplyChunkLength = packedVolume e ci := lenSuffix_zero e ci
  have e2 : (setupAt e ci 0).lengthLast = chunkLen e ci (e.dimension_count - 1) :=
    if_pos h.hD
  have e3 : (setupAt e ci 0).readCoordinate = srcPre e ci e.dimension_count 0 :=
    (srcPre_zero_eq_origin h).symm
  have e4 : (setupAt e ci 0).linearReadCount = runLength e ci := rfl
  rw [e1, e2, e3, e4]
  exact hloop

/-! ## Row-major indices and their digits -/

theorem hornerIndex_succ (f p : Nat → Nat) (k : Nat) :
    hornerIndex f p (k + 1) = hornerIndex f p k * f k + p k :=
  rfl

theorem horner_mul_suffix (f p : Nat → Nat) (d : Nat) :
    ∀ k, k ≤ d →
      hornerIndex f p k * ∏ j in Finset.Ico k d, f j
        = ∑ i in Finset.range k, p i * ∏ j in Finset.Ico (i + 1) d, f j := by
  intro k
  induction k with
  | zero =>
    intro _
    simp [hornerIndex]
  | succ k ih =>
    intro hk
    rw [Finset.sum_range_succ, ← ih (by omega), prodIco_succ f (show k < d by omega),
      hornerIndex_succ]
    ring

theorem horner_eq_sum (f p : Nat → Nat) (d : Nat) :
    hornerIndex f p d = ∑ i in Finset.range d, p i * ∏ j in Finset.Ico (i + 1) d, f j := by
  have := horner_mul_suffix f p d d (le_refl d)
  rw [prodIco_self, Nat.mul_one] at this
  exact this

theorem hornerIndex_lt (f p : Nat → Nat) :
    ∀ k, (∀ i, i < k → p i < f i) → hornerIndex f p k < ∏ j in Finset.range k, f j := by
  intro k
  induction k with
  | zero =>
    intro _
    simp [hornerIndex]
  | succ k ih =>
    intro hp
    have h1 := ih (fun i hi => hp i (by omega))
    have h2 := hp k (Nat.lt_succ_self k)
    rw [Finset.prod_range_succ, hornerIndex_succ]
    have h3 : (hornerIndex f p k + 1) * f k ≤ (∏ j in Finset.range k, f j) * f k :=
      Nat.mul_le_mul_right _ h1
    rw [Nat.add_mul, Nat.one_mul] at h3
    omega

theorem tail_sum_lt (f p : Nat → Nat) (d : Nat) (hp : ∀ i, i < d → p i < f i) :
    ∀ t k, k + t = d →
      ∑ i in Finset.Ico k d, p i * ∏ j in Finset.Ico (i + 1) d, f j
        < ∏ j in Finset.Ico k d, f j := by
  intro t
  induction t with
  | zero =>
    intro k hk
    have : k = d := by omega
    subst this
    simp
  | succ t ih =>
    intro k hk
    have hlt : k < d := by omega
    have h1 := ih (k + 1) (by omega)
    have h2 := hp k hlt
    rw [Finset.sum_eq_sum_Ico_succ_bot hlt, prodIco_succ f hlt]
    have h3 : (p k + 1) * ∏ j in Finset.Ico (k + 1) d, f j
        ≤ f k * ∏ j in Finset.Ico (k + 1) d, f j := Nat.mul_le_mul_right _ h2
    rw [Nat.add_mul, Nat.one_mul] at h3
    omega

/-- The digit of a row-major index on axis `i` is the coordinate on that axis. -/
theorem digit_of_index (f p : Nat → Nat) (d : Nat) (hp : ∀ i, i < d → p i < f i)
    {i : Nat} (hi : i < d) :
    ((∑ j in Finset.range d, p j * ∏ l in Finset.Ico (j + 1) d, f l)
        / ∏ l in Finset.Ico (i + 1) d, f l) % f i = p i := by
  have hsplit : ∑ j in Finset.range d, p j * ∏ l in Finset.Ico (j + 1) d, f l
      = hornerIndex f p (i + 1) * ∏ l in Finset.Ico (i + 1) d, f l
        + ∑ j in Finset.Ico (i + 1) d, p j * ∏ l in Finset.Ico (j + 1) d, f l := by
    rw [horner_mul_suffix f p d (i + 1) (by omega)]
    exact (Finset.sum_range_add_sum_Ico _ (by omega)).symm
  rw [hsplit, block_div (tail_sum_lt f p d hp (d - (i + 1)) (i + 1) (by omega)),
    hornerIndex_succ, block_mod (hp i hi)]

/-- A row-major index below the volume is the index of its digits. -/
theorem index_of_digits (f : Nat → Nat) (d x : Nat) (hf : ∀ i, i < d → 1 ≤ f i) :
    ∀ t k, k + t = d →
      ∑ i in Finset.Ico k d,
          (x / ∏ l in Finset.Ico (i + 1) d, f l) % f i * ∏ l in Finset.Ico (i + 1) d, f l
        = x % ∏ l in Finset.Ico k d, f l := by
  intro t
  induction t with
  | zero =>
    intro k hk
    have : k = d := by omega
    subst this
    simp [Nat.mod_one]
  | succ t ih =>
    intro k hk
    have hlt : k < d := by omega
    rw [Finset.sum_eq_sum_Ico_succ_bot hlt, ih (k + 1) (by omega), prodIco_succ f hlt,
      Nat.mul_comm (f k), Nat.mod_mul, Nat.add_comm, Nat.mul_comm]

theorem index_of_digits_full (f : Nat → Nat) (d x : Nat) (hf : ∀ i, i < d → 1 ≤ f i)
    (hx : x < ∏ l in Finset.range d, f l) :
    ∑ i in Finset.range d,
        (x / ∏ l in Finset.Ico (i + 1) d, f l) % f i * ∏ l in Finset.Ico (i + 1) d, f l
      = x := by
  have := index_of_digits f d x hf d 0 (Nat.zero_add d)
  rw [prodIco_zero, Nat.mod_eq_of_lt hx, ← Finset.range_eq_Ico] at this
  exact this

/-! ## Local coordinates of a chunk -/

theorem localIndex_eq_horner {F : Type} (e : OmEncoder_t F) (ci : Nat) (p : Nat → Nat) :
    localIndex e ci p = hornerIndex (chunkLen e ci) p e.dimension_count :=
  (horner_eq_sum (chunkLen e ci) p e.dimension_count).symm

theorem sourceIndex_eq_horner {F : Type} (e : OmEncoder_t F) (ci : Nat) (p : Nat → Nat) :
    sourceIndex e ci p
      = hornerIndex (fun i => e.dimensions.getD i 0)
          (fun i => chunkCoord e ci i * e.chunks.getD i 0 + p i) e.dimension_count :=
  (horner_eq_sum (fun i => e.dimensions.getD i 0)
    (fun i => chunkCoord e ci i * e.chunks.getD i 0 + p i) e.dimension_count).symm

theorem srcPre_horner {F : Type} (e : OmEncoder_t F) (ci : Nat) (p : Nat → Nat) :
    ∀ k, (∀ i, i < k → p i < chunkLen e ci i) →
      srcPre e ci k (hornerIndex (chunkLen e ci) p k)
        = hornerIndex (fun i => e.dimensions.getD i 0)
            (fun i => chunkCoord e ci i * e.chunks.getD i 0 + p i) k := by
  intro k
  induction k with
  | zero =>
    intro _
    rfl
  | succ k ih =>
    intro hp
    have hk := hp k (Nat.lt_succ_self k)
    rw [srcPre_succ, hornerIndex_succ, hornerIndex_succ, block_div hk, block_mod hk,
      ih (fun i hi => hp i (by omega))]

theorem srcPre_localIndex {F : Type} (e : OmEncoder_t F) (ci : Nat) (p : Nat → Nat)
    (hp : ∀ i, i < e.dimension_count → p i < chunkLen e ci i) :
    srcPre e ci e.dimension_count (localIndex e ci p) = sourceIndex e ci p := by
  rw [localIndex_eq_horner, sourceIndex_eq_horner, srcPre_horner e ci p _ hp]

theorem localIndex_lt {F : Type} (e : OmEncoder_t F) (ci : Nat) (p : Nat → Nat)
    (hp : ∀ i, i < e.dimension_count → p i < chunkLen e ci i) :
    localIndex e ci p < packedVolume e ci := by
  rw [localIndex_eq_horner]
  exact hornerIndex_lt (chunkLen e ci) p _ hp

/-- Every position below `L'` is the row-major position of a local coordinate. -/
theorem localIndex_surj {F : Type} (e : OmEncoder_t F) (ci : Nat)
    (hdims : ∀ i, i < e.dimension_count → 1 ≤ e.dimensions.getD i 0)
    (hchunks : ∀ i, i < e.dimension_count → 1 ≤ e.chunks.getD i 0)
    (j : Nat) (hj : j < packedVolume e ci) :
    ∃ p : Nat → Nat, (∀ i, i < e.dimension_count → p i < chunkLen e ci i)
      ∧ localIndex e ci p = j := by
  refine ⟨fun i => (j / ∏ l in Finset.Ico (i + 1) e.dimension_count, chunkLen e ci l)
    % chunkLen e ci i, ?_, ?_⟩
  · intro i hi
    exact Nat.mod_lt _ (chunkLen_pos e ci i (hdims i hi) (hchunks i hi))
  · exact index_of_digits_full (chunkLen e ci) e.dimension_count j
      (fun i hi => chunkLen_pos e ci i (hdims i hi) (hchunks i hi)) hj

theorem fullInput_of_count {F : Type} (e : OmEncoder_t F) (ci : Nat)
    (hD : 1 ≤ e.dimension_count) (hDlt : e.dimension_count < sizeMod)
    (hdims : ∀ i, i < e.dimension_count → 1 ≤ e.dimensions.getD i 0)
    (hchunks : ∀ i, i < e.dimension_count → 1 ≤ e.chunks.getD i 0)
    (hmem : 2 * (∏ i in Finset.range e.dimension_count, e.dimensions.getD i 0) ≤ sizeMod)
    (hbuf : 2 * (∏ i in Finset.range e.dimension_count, e.chunks.getD i 0) ≤ sizeMod)
    (hci : ∃ count, OmEncoder_countChunks e = .ok count ∧ ci < count) : FullInput e ci := by
  obtain ⟨count, hcount, hlt⟩ := hci
  rw [countChunks_eq_chunkCount e hdims hchunks hmem hbuf] at hcount
  have hc : chunkCount e = count := by
    injection hcount
  exact ⟨hD, hDlt, hdims, hchunks, hmem, hbuf, by rw [hc]; exact hlt⟩

theorem volume_div_run_le {F : Type} {e : OmEncoder_t F} {ci : Nat} (fuel : Nat)
    (hfuel : packedVolume e ci ≤ fuel) : packedVolume e ci / runLength e ci ≤ fuel :=
  le_trans (Nat.div_le_self _ _) hfuel

/-! ## Single iterations of the gather loop -/

/-- An iteration whose read assertion fails ends the call before anything is
copied. -/
theorem gatherLoop_read_fault {F α β : Type} (e : OmEncoder_t F) (impl : OmCallbacks F α β)
    (array : Nat → α) (aD aO aC : List Nat) (out : Nat → Nat) (total vol last fuel : Nat)
    (s : GatherState β) (h : ¬ addw s.readCoordinate s.linearReadCount ≤ total) :
    gatherLoop e impl array aD aO aC out total vol last (fuel + 1) s
      = .error OmFault.assertReadInBounds := by
  rw [gatherLoop_succ, if_pos h]
  rfl

/-- An iteration whose assertions hold and whose inner loop leaves by `break`
copies one run and goes round again. -/
theorem gatherLoop_continue {F α β : Type} (e : OmEncoder_t F) (impl : OmCallbacks F α β)
    (array : Nat → α) (aD aO aC : List Nat) (out : Nat → Nat) (total vol last fuel : Nat)
    (s : GatherState β) (c : CarryState)
    (hread : addw s.readCoordinate s.linearReadCount ≤ total)
    (hwrite : addw s.writeCoordinate s.linearReadCount ≤ vol)
    (hcarry : carryLoop e aD aO aC e.dimension_count
        { readCoordinate := addw s.readCoordinate (subw s.linearReadCount 1)
          rollingMultiplyTargetCube := 1
          linearReadCount := 1
          linearRead := true }
      = .ok (false, c)) :
    gatherLoop e impl array aD aO aC out total vol last (fuel + 1) s
      = gatherLoop e impl array aD aO aC out total vol last fuel
          { readCoordinate := c.readCoordinate
            writeCoordinate := addw (addw s.writeCoordinate (subw s.linearReadCount 1)) 1
            linearReadCount := c.linearReadCount
            chunkBuffer :=
              writeBack s.chunkBuffer s.writeCoordinate
                (impl.copy e.compress_copy_callback s.linearReadCount e.scale_factor
                  e.add_offset (fun j => array (s.readCoordinate + j))
                  (fun j => s.chunkBuffer (s.writeCoordinate + j)))
            calls :=
              s.calls ++ [OmCall.copy s.linearReadCount s.readCoordinate s.writeCoordinate] } := by
  rw [gatherLoop_succ, if_neg (not_not.mpr hread), if_neg (not_not.mpr hwrite)]
  simp only [bind, Except.bind, pure, Except.pure, hcarry]
  rw [if_neg (show ¬ (false = true) by decide)]

theorem gatherLoop_zero {F α β : Type} (e : OmEncoder_t F) (impl : OmCallbacks F α β)
    (array : Nat → α) (aD aO aC : List Nat) (out : Nat → Nat) (total vol last : Nat)
    (s : GatherState β) :
    gatherLoop e impl array aD aO aC out total vol last 0 s = .error OmFault.outOfFuel :=
  rfl

theorem compressChunk_eq_gather {F α β : Type} (e : OmEncoder_t F) (impl : OmCallbacks F α β)
    (array : Nat → α) (aD aO aC : List Nat) (ci co : Nat) (out : Nat → Nat) (b : Nat → β)
    (fuel : Nat) (s : SetupState)
    (hsetup : setupLoop e aD aO aC ci co e.dimension_count setupInit = .ok s) :
    OmEncoder_compressChunk e impl array aD aO aC ci co out b fuel
      = gatherLoop e impl array aD aO aC out (arrayTotalCountLoop e.dimension_count aD)
          s.rollingMultiplyChunkLength s.lengthLast fuel
          { readCoordinate := s.readCoordinate
            writeCoordinate := 0
            linearReadCount := s.linearReadCount
            chunkBuffer := b
            calls := [] } := by
  unfold OmEncoder_compressChunk
  rw [hsetup]
  rfl

/-! ## The gather of a full-array call -/

/-- C1: full-array gather.  For at least one axis, positive `dimensions` and
`chunks`, a chunk index below `count_chunks()`, a source array and a scratch
buffer that fit in memory (fewer than `2 ^ 63` elements each), a copy callback
that converts element by element with `conv`, and enough fuel, the call with
`arrayDimensions = arrayCount = dimensions`, `arrayOffset = 0` and
`chunkIndexOffsetInThisArray = chunkIndex` completes, and the buffer handed to the
filter holds exactly the `L'` packed elements: the element at local row-major
position `p` is `conv` of the source element at
`sum_i (c_i * chunks[i] + p_i) * prod_{j>i} dimensions[j]`, every position below
`L'` is such a position, and the positions from `L'` on are untouched. -/
theorem OmEncoder_compressChunk_full_array_gather {F α β : Type} (e : OmEncoder_t F)
    (impl : OmCallbacks F α β) (conv : α → β) (array : Nat → α) (chunkIndex : Nat)
    (out : Nat → Nat) (chunkBuffer : Nat → β) (fuel : Nat)
    (hD : 1 ≤ e.dimension_count) (hDlt : e.dimension_count < sizeMod)
    (hdims : ∀ i, i < e.dimension_count → 1 ≤ e.dimensions.getD i 0)
    (hchunks : ∀ i, i < e.dimension_count → 1 ≤ e.chunks.getD i 0)
    (hmem : 2 * (∏ i in Finset.range e.dimension_count, e.dimensions.getD i 0) ≤ sizeMod)
    (hbuf : 2 * (∏ i in Finset.range e.dimension_count, e.chunks.getD i 0) ≤ sizeMod)
    (hci : ∃ count, OmEncoder_countChunks e = .ok count ∧ chunkIndex < count)
    (hcopy : ∀ (n : Nat) (src : Nat → α) (dst : Nat → β),
      impl.copy e.compress_copy_callback n e.scale_factor e.add_offset src dst
        = scalarCopy conv n src dst)
    (hfuel : packedVolume e chunkIndex ≤ fuel) :
    ∃ r : ChunkResult β,
      OmEncoder_compressChunk e impl array e.dimensions (List.replicate e.dimension_count 0)
          e.dimensions chunkIndex chunkIndex out chunkBuffer fuel = .ok r ∧
      (∀ p : Nat → Nat, (∀ i, i < e.dimension_count → p i < chunkLen e chunkIndex i) →
        localIndex e chunkIndex p < packedVolume e chunkIndex ∧
        r.packed (localIndex e chunkIndex p) = conv (array (sourceIndex e chunkIndex p))) ∧
      (∀ j, j < packedVolume e chunkIndex →
        ∃ p : Nat → Nat, (∀ i, i < e.dimension_count → p i < chunkLen e chunkIndex i)
          ∧ localIndex e chunkIndex p = j) ∧
      (∀ j, packedVolume e chunkIndex ≤ j → r.packed j = chunkBuffer j) := by
  have h := fullInput_of_count e chunkIndex hD hDlt hdims hchunks hmem hbuf hci
  have hrun := compressChunkFull_eq h impl conv array out chunkBuffer fuel hcopy
    (volume_div_run_le fuel hfuel)
  refine ⟨_, hrun, ?_, ?_, ?_⟩
  · intro p hp
    have hlt := localIndex_lt e chunkIndex p hp
    refine ⟨hlt, ?_⟩
    show packedChunk e conv array chunkIndex chunkBuffer (localIndex e chunkIndex p) = _
    unfold packedChunk
    rw [if_pos hlt, srcPre_localIndex e chunkIndex p hp]
  · intro j hj
    exact localIndex_surj e chunkIndex hdims hchunks j hj
  · intro j hj
    show packedChunk e conv array chunkIndex chunkBuffer j = _
    unfold packedChunk
    rw [if_neg (by omega)]

theorem OmEncoder_compressChunk_full_array_gather_witness :
    ∃ r : ChunkResult Nat,
      OmEncoder_compressChunk (pforEncoder [4, 4] [2, 2]) plainCallbacks (fun j => 1000 + j)
          (pforEncoder [4, 4] [2, 2]).dimensions
          (List.replicate (pforEncoder [4, 4] [2, 2]).dimension_count 0)
          (pforEncoder [4, 4] [2, 2]).dimensions 3 3 (fun _ => 0) (fun _ => 7) 4 = .ok r ∧
      (∀ p : Nat → Nat,
        (∀ i, i < (pforEncoder [4, 4] [2, 2]).dimension_count →
          p i < chunkLen (pforEncoder [4, 4] [2, 2]) 3 i) →
        localIndex (pforEncoder [4, 4] [2, 2]) 3 p < packedVolume (pforEncoder [4, 4] [2, 2]) 3 ∧
        r.packed (localIndex (pforEncoder [4, 4] [2, 2]) 3 p)
          = id ((fun j => 1000 + j) (sourceIndex (pforEncoder [4, 4] [2, 2]) 3 p))) ∧
      (∀ j, j < packedVolume (pforEncoder [4, 4] [2, 2]) 3 →
        ∃ p : Nat → Nat,
          (∀ i, i < (pforEncoder [4, 4] [2, 2]).dimension_count →
            p i < chunkLen (pforEncoder [4, 4] [2, 2]) 3 i)
          ∧ localIndex (pforEncoder [4, 4] [2, 2]) 3 p = j) ∧
      (∀ j, packedVolume (pforEncoder [4, 4] [2, 2]) 3 ≤ j → r.packed j = (fun _ => 7) j) :=
  OmEncoder_compressChunk_full_array_gather (pforEncoder [4, 4] [2, 2]) plainCallbacks id
    (fun j => 1000 + j) 3 (fun _ => 0) (fun _ => 7) 4 (by decide) (by decide) (by decide)
    (by decide) (by decide) (by decide) ⟨4, rfl, by decide⟩ (fun _ _ _ => rfl) (by decide)

/-! ## Chunk independence -/

theorem mem_copyTrace (r : Nat) (src : Nat → Nat) :
    ∀ n w0 m rc w, OmCall.copy m rc w ∈ copyTrace r src n w0 →
      m = r ∧ rc = src w ∧ ∃ v, v < n ∧ w = w0 + v * r := by
  intro n
  induction n with
  | zero =>
    intro w0 m rc w hmem
    exact absurd hmem (List.not_mem_nil _)
  | succ n ih =>
    intro w0 m rc w hmem
    rcases List.mem_cons.mp hmem with hhead | htail
    · injection hhead with h1 h2 h3
      exact ⟨h1, by rw [h2, h3], 0, Nat.succ_pos n, by rw [h3, Nat.zero_mul, Nat.add_zero]⟩
    · obtain ⟨h1, h2, v, hv, hw⟩ := ih (w0 + r) m rc w htail
      exact ⟨h1, h2, v + 1, by omega, by rw [hw, Nat.add_mul, Nat.one_mul]; omega⟩

theorem packedChunk_congr {F α β : Type} {e : OmEncoder_t F} {ci : Nat} (conv : α → β)
    (A A' : Nat → α) (b : Nat → β)
    (hdims : ∀ i, i < e.dimension_count → 1 ≤ e.dimensions.getD i 0)
    (hchunks : ∀ i, i < e.dimension_count → 1 ≤ e.chunks.getD i 0)
    (hagree : ∀ p : Nat → Nat, (∀ i, i < e.dimension_count → p i < chunkLen e ci i) →
      A (sourceIndex e ci p) = A' (sourceIndex e ci p)) :
    (∀ j, j < packedVolume e ci →
      A (srcPre e ci e.dimension_count j) = A' (srcPre e ci e.dimension_count j)) ∧
    packedChunk e conv A ci b = packedChunk e conv A' ci b := by
  have key : ∀ j, j < packedVolume e ci →
      A (srcPre e ci e.dimension_count j) = A' (srcPre e ci e.dimension_count j) := by
    intro j hj
    obtain ⟨p, hp, hpj⟩ := localIndex_surj e ci hdims hchunks j hj
    rw [← hpj, srcPre_localIndex e ci p hp]
    exact hagree p hp
  refine ⟨key, ?_⟩
  funext j
  unfold packedChunk
  by_cases hj : j < packedVolume e ci
  · rw [if_pos hj, if_pos hj, key j hj]
  · rw [if_neg hj, if_neg hj]

/-- C7: chunk independence.  Two full source arrays that agree on every element
of chunk `chunkIndex` give the same completed call: the same copy-callback
invocations reading equal source values, the same packed buffer for the filter
and the entropy coder, the same byte count and the same output, whatever the
arrays hold outside the chunk. -/
theorem OmEncoder_compressChunk_chunk_independence {F α β : Type} (e : OmEncoder_t F)
    (impl : OmCallbacks F α β) (conv : α → β) (A A' : Nat → α) (chunkIndex : Nat)
    (out : Nat → Nat) (chunkBuffer : Nat → β) (fuel : Nat)
    (hD : 1 ≤ e.dimension_count) (hDlt : e.dimension_count < sizeMod)
    (hdims : ∀ i, i < e.dimension_count → 1 ≤ e.dimensions.getD i 0)
    (hchunks : ∀ i, i < e.dimension_count → 1 ≤ e.chunks.getD i 0)
    (hmem : 2 * (∏ i in Finset.range e.dimension_count, e.dimensions.getD i 0) ≤ sizeMod)
    (hbuf : 2 * (∏ i in Finset.range e.dimension_count, e.chunks.getD i 0) ≤ sizeMod)
    (hci : ∃ count, OmEncoder_countChunks e = .ok count ∧ chunkIndex < count)
    (hcopy : ∀ (n : Nat) (src : Nat → α) (dst : Nat → β),
      impl.copy e.compress_copy_callback n e.scale_factor e.add_offset src dst
        = scalarCopy conv n src dst)
    (hfuel : packedVolume e chunkIndex ≤ fuel)
    (hagree : ∀ p : Nat → Nat,
      (∀ i, i < e.dimension_count → p i < chunkLen e chunkIndex i) →
      A (sourceIndex e chunkIndex p) = A' (sourceIndex e chunkIndex p)) :
    ∃ r : ChunkResult β,
      OmEncoder_compressChunk e impl A e.dimensions (List.replicate e.dimension_count 0)
          e.dimensions chunkIndex chunkIndex out chunkBuffer fuel = .ok r ∧
      OmEncoder_compressChunk e impl A' e.dimensions (List.replicate e.dimension_count 0)
          e.dimensions chunkIndex chunkIndex out chunkBuffer fuel = .ok r ∧
      (∀ n rc w, OmCall.copy n rc w ∈ r.calls → ∀ t, t < n → A (rc + t) = A' (rc + t)) := by
  have h := fullInput_of_count e chunkIndex hD hDlt hdims hchunks hmem hbuf hci
  have hrun := compressChunkFull_eq h impl conv A out chunkBuffer fuel hcopy
    (volume_div_run_le fuel hfuel)
  have hrun' := compressChunkFull_eq h impl conv A' out chunkBuffer fuel hcopy
    (volume_div_run_le fuel hfuel)
  obtain ⟨hval, hpacked⟩ := packedChunk_congr conv A A' chunkBuffer hdims hchunks hagree
  rw [← hpacked] at hrun'
  refine ⟨_, hrun, hrun', ?_⟩
  intro n rc w hmem t ht
  have hmem' : OmCall.copy n rc w
      ∈ copyTrace (runLength e chunkIndex) (srcPre e chunkIndex e.dimension_count)
          (packedVolume e chunkIndex / runLength e chunkIndex) 0
        ++ [OmCall.filter
              (packedVolume e chunkIndex / chunkLen e chunkIndex (e.dimension_count - 1))
              (chunkLen e chunkIndex (e.dimension_count - 1)),
            OmCall.compress (packedVolume e chunkIndex)] := hmem
  rcases List.mem_append.mp hmem' with hc | hc
  · obtain ⟨hn, hrc, v, hv, hw⟩ := mem_copyTrace _ _ _ _ _ _ _ hc
    rw [Nat.zero_add] at hw
    rw [hn] at ht
    have hcont := runLength_contiguous h v t ht
    rw [← hw] at hcont
    have hRpos := runLength_pos h
    have hdvd := runLength_dvd_volume h
    have hvol : (v + 1) * runLength e chunkIndex ≤ packedVolume e chunkIndex := by
      have h1 : (v + 1) * runLength e chunkIndex
          ≤ packedVolume e chunkIndex / runLength e chunkIndex * runLength e chunkIndex :=
        Nat.mul_le_mul_right _ hv
      rw [Nat.div_mul_cancel hdvd] at h1
      exact h1
    rw [Nat.add_mul, Nat.one_mul, ← hw] at hvol
    rw [hrc, ← hcont]
    exact hval (w + t) (by omega)
  · simp at hc

theorem OmEncoder_compressChunk_chunk_independence_witness :
    ∃ r : ChunkResult Nat,
      OmEncoder_compressChunk (pforEncoder [4, 4] [2, 2]) plainCallbacks (fun j => 1000 + j)
          (pforEncoder [4, 4] [2, 2]).dimensions
          (List.replicate (pforEncoder [4, 4] [2, 2]).dimension_count 0)
          (pforEncoder [4, 4] [2, 2]).dimensions 3 3 (fun _ => 0) (fun _ => 7) 4 = .ok r ∧
      OmEncoder_compressChunk (pforEncoder [4, 4] [2, 2]) plainCallbacks
          (fun j => if j < 10 then 0 else 1000 + j)
          (pforEncoder [4, 4] [2, 2]).dimensions
          (List.replicate (pforEncoder [4, 4] [2, 2]).dimension_count 0)
          (pforEncoder [4, 4] [2, 2]).dimensions 3 3 (fun _ => 0) (fun _ => 7) 4 = .ok r ∧
      (∀ n rc w, OmCall.copy n rc w ∈ r.calls → ∀ t, t < n →
        (fun j => 1000 + j) (rc + t) = (fun j => if j < 10 then 0 else 1000 + j) (rc + t)) :=
  OmEncoder_compressChunk_chunk_independence (pforEncoder [4, 4] [2, 2]) plainCallbacks id
    (fun j => 1000 + j) (fun j => if j < 10 then 0 else 1000 + j) 3 (fun _ => 0) (fun _ => 7) 4
    (by decide) (by decide) (by decide) (by decide) (by decide) (by decide)
    ⟨4, rfl, by decide⟩ (fun _ _ _ => rfl) (by decide)
    (by
      intro p _
      have h0 : chunkCoord (pforEncoder [4, 4] [2, 2]) 3 0 = 1 := by decide
      have h1 : ∏ j in Finset.Ico (0 + 1) (pforEncoder [4, 4] [2, 2]).dimension_count,
          (pforEncoder [4, 4] [2, 2]).dimensions.getD j 0 = 4 := by decide
      have h2 : (pforEncoder [4, 4] [2, 2]).chunks.getD 0 0 = 2 := rfl
      have hge : 10 ≤ sourceIndex (pforEncoder [4, 4] [2, 2]) 3 p := by
        have h3 : chunkCoord (pforEncoder [4, 4] [2, 2]) 3 1 = 1 := by decide
        have h4 : ∏ j in Finset.Ico (1 + 1) (pforEncoder [4, 4] [2, 2]).dimension_count,
            (pforEncoder [4, 4] [2, 2]).dimensions.getD j 0 = 1 := by decide
        have h5 : (pforEncoder [4, 4] [2, 2]).chunks.getD 1 0 = 2 := rfl
        unfold sourceIndex
        rw [show (pforEncoder [4, 4] [2, 2]).dimension_count = 2 from rfl, Finset.sum_range_succ,
          Finset.sum_range_succ, Finset.sum_range_zero]
        rw [show (pforEncoder [4, 4] [2, 2]).dimension_count = 2 from rfl] at h1 h4
        rw [h0, h1, h2, h3, h4, h5]
        omega
      show 1000 + sourceIndex (pforEncoder [4, 4] [2, 2]) 3 p
        = if sourceIndex (pforEncoder [4, 4] [2, 2]) 3 p < 10 then 0
          else 1000 + sourceIndex (pforEncoder [4, 4] [2, 2]) 3 p
      rw [if_neg (by omega)])

/-! ## A source rectangle that ends at the end of the array -/

/-- The call on `dimensions = [6]`, `chunks = [3]`, chunk `1`, with the whole
array of shape `[6]` as source and the rectangle `arrayOffset = [3]`,
`arrayCount = [3]`: after the first copy the carry test computes
`q0 = (0 - 3) % 3 = 1` in wrapping arithmetic, so the loop goes round again and
the read assertion fails. -/
theorem slab_at_array_end_run {α β : Type} (impl : OmCallbacks Nat α β) (array : Nat → α)
    (out : Nat → Nat) (chunkBuffer : Nat → β) (fuel : Nat) :
    OmEncoder_compressChunk (pforEncoder [6] [3]) impl array [6] [3] [3] 1 0 out chunkBuffer fuel
      = .error (if fuel < 2 then OmFault.outOfFuel else OmFault.assertReadInBounds) := by
  have hsetup : setupLoop (pforEncoder [6] [3]) [6] [3] [3] 1 0
      (pforEncoder [6] [3]).dimension_count setupInit
      = .ok { rollingMultiply := 2, rollingMultiplyChunkLength := 3,
              rollingMultiplyTargetCube := 6, readCoordinate := 3, linearReadCount := 3,
              linearRead := false, lengthLast := 3 } := rfl
  have hcarry : carryLoop (pforEncoder [6] [3]) [6] [3] [3] (pforEncoder [6] [3]).dimension_count
      { readCoordinate := addw 3 (subw 3 1), rollingMultiplyTargetCube := 1, linearReadCount := 1,
        linearRead := true }
      = .ok (false, { readCoordinate := 6, rollingMultiplyTargetCube := 1,
                      linearReadCount := 3, linearRead := false }) := rfl
  have htotal : arrayTotalCountLoop (pforEncoder [6] [3]).dimension_count [6] = 6 := rfl
  have hread : addw 3 3 ≤ 6 := by decide
  have hwrite : addw 0 3 ≤ 3 := by decide
  have hfault : ¬ addw 6 3 ≤ 6 := by decide
  have hstep : ∀ n : Nat,
      gatherLoop (pforEncoder [6] [3]) impl array [6] [3] [3] out 6 3 3 (n + 1)
        { readCoordinate := 3, writeCoordinate := 0, linearReadCount := 3,
          chunkBuffer := chunkBuffer, calls := [] }
      = gatherLoop (pforEncoder [6] [3]) impl array [6] [3] [3] out 6 3 3 n
        { readCoordinate := 6
          writeCoordinate := addw (addw 0 (subw 3 1)) 1
          linearReadCount := 3
          chunkBuffer :=
            writeBack chunkBuffer 0
              (impl.copy (pforEncoder [6] [3]).compress_copy_callback 3
                (pforEncoder [6] [3]).scale_factor (pforEncoder [6] [3]).add_offset
                (fun j => array (3 + j)) (fun j => chunkBuffer (0 + j)))
          calls := [] ++ [OmCall.copy 3 3 0] } :=
    fun n =>
      gatherLoop_continue (pforEncoder [6] [3]) impl array [6] [3] [3] out 6 3 3 n
        { readCoordinate := 3, writeCoordinate := 0, linearReadCount := 3,
          chunkBuffer := chunkBuffer, calls := [] }
        { readCoordinate := 6, rollingMultiplyTargetCube := 1, linearReadCount := 3,
          linearRead := false }
        hread hwrite hcarry
  rw [compressChunk_eq_gather (pforEncoder [6] [3]) impl array [6] [3] [3] 1 0 out chunkBuffer
    fuel _ hsetup, htotal]
  match fuel with
  | 0 => rfl
  | 1 =>
    exact (hstep 0).trans (gatherLoop_zero _ _ _ _ _ _ _ _ _ _ _)
  | n + 2 =>
    rw [if_neg (show ¬ n + 2 < 2 by omega)]
    exact (hstep (n + 1)).trans
      (gatherLoop_read_fault (pforEncoder [6] [3]) impl array [6] [3] [3] out 6 3 3 n _ hfault)

/-- C5 (the code departs from it): `dimensions = [6]`, `chunks = [3]`, chunk `1`
of `count_chunks() = 2`, source array of shape `[6]`, rectangle
`arrayOffset = [3]`, `arrayCount = [3]` (inside the array, equal to the extent
`length_0 = 3` of the chunk, `chunkIndexOffsetInThisArray = 0`): in the second
iteration of the gather loop `assert(readCoordinate + linearReadCount <=
arrayTotalCount)` fails, whatever the callbacks and the memory contents are. -/
theorem OmEncoder_compressChunk_slab_assert_fails {α β : Type} (impl : OmCallbacks Nat α β)
    (array : Nat → α) (out : Nat → Nat) (chunkBuffer : Nat → β) (fuel : Nat) :
    OmEncoder_countChunks (pforEncoder [6] [3]) = .ok 2 ∧
    chunkLen (pforEncoder [6] [3]) 1 0 = [3].getD 0 0 ∧
    [3].getD 0 0 + [3].getD 0 0 ≤ [6].getD 0 0 ∧
    faultOf (OmEncoder_compressChunk (pforEncoder [6] [3]) impl array [6] [3] [3] 1 0 out
        chunkBuffer (fuel + 2))
      = some OmFault.assertReadInBounds := by
  refine ⟨rfl, by decide, by decide, ?_⟩
  rw [slab_at_array_end_run, if_neg (show ¬ fuel + 2 < 2 by omega)]
  rfl

/-- C6 (the code departs from it): on the same input (`dimensions = [6]`,
`chunks = [3]`, chunk `1`, source shape `[6]`, `arrayOffset = [3]`,
`arrayCount = [3]`), a rectangle that is exactly the slab of the chunk, the call
never reaches the filter: with any amount of fuel it ends in a fault, so no chunk
buffer equal to the source block is produced. -/
theorem OmEncoder_compressChunk_slab_no_result {α β : Type} (impl : OmCallbacks Nat α β)
    (array : Nat → α) (out : Nat → Nat) (chunkBuffer : Nat → β) (fuel : Nat)
    (r : ChunkResult β) :
    OmEncoder_compressChunk (pforEncoder [6] [3]) impl array [6] [3] [3] 1 0 out chunkBuffer fuel
      ≠ .ok r := by
  rw [slab_at_array_end_run]
  intro hh
  cases hh

/-! ## The variable accessors -/

theorem values_read {d : OmDimensions_t} (h : d.count ≤ d.values.length) (index : Nat) :
    (if index ≥ d.count then some 0 else d.values[index]?)
      = some (if index < d.count then d.values.getD index 0 else 0) := by
  by_cases hi : index < d.count
  · have hlt : index < d.values.length := Nat.lt_of_lt_of_le hi h
    rw [if_neg (Nat.not_le.mpr hi), if_pos hi, List.getElem?_eq_getElem hlt,
      List.getD_eq_getElem _ _ hlt]
  · rw [if_pos (Nat.not_lt.mp hi), if_neg hi]

/-- C20: whatever `om_variable_get_dimensions` and `om_variable_get_chunks`
return for a variable, as long as the array behind `values` has at least `count`
entries, `om_variable_get_dimension_count` and `om_variable_get_chunk_count`
return the field `count`, and for every `index` the functions
`om_variable_get_dimension_value` and `om_variable_get_chunk_value` return
`values[index]` when `index < count` and `0` when `index >= count`; they never
read outside the array (the result is never `none`). -/
theorem om_variable_accessors_total {V : Type}
    (om_variable_get_dimensions om_variable_get_chunks : V → OmDimensions_t) (var : V)
    (index : Nat)
    (hdims : (om_variable_get_dimensions var).count
      ≤ (om_variable_get_dimensions var).values.length)
    (hchunks : (om_variable_get_chunks var).count
      ≤ (om_variable_get_chunks var).values.length) :
    om_variable_get_dimension_count om_variable_get_dimensions var
        = (om_variable_get_dimensions var).count ∧
    om_variable_get_chunk_count om_variable_get_chunks var
        = (om_variable_get_chunks var).count ∧
    om_variable_get_dimension_value om_variable_get_dimensions var index
        = some (if index < (om_variable_get_dimensions var).count then
            (om_variable_get_dimensions var).values.getD index 0 else 0) ∧
    om_variable_get_chunk_value om_variable_get_chunks var index
        = some (if index < (om_variable_get_chunks var).count then
            (om_variable_get_chunks var).values.getD index 0 else 0) :=
  ⟨rfl, rfl, values_read hdims index, values_read hchunks index⟩

theorem om_variable_accessors_total_witness :
    ((2 : Nat) ≤ [5, 7].length ∧ (1 : Nat) ≤ [2].length) ∧
    (om_variable_get_dimension_count (fun _ : Unit => { count := 2, values := [5, 7] }) () = 2 ∧
     om_variable_get_chunk_count (fun _ : Unit => { count := 1, values := [2] }) () = 1 ∧
     om_variable_get_dimension_value (fun _ : Unit => { count := 2, values := [5, 7] }) () 1
       = some 7 ∧
     om_variable_get_chunk_value (fun _ : Unit => { count := 1, values := [2] }) () 1
       = some 0) :=
  ⟨⟨by decide, by decide⟩,
    om_variable_accessors_total (fun _ : Unit => { count := 2, values := [5, 7] })
      (fun _ : Unit => { count := 1, values := [2] }) () 1 (by decide) (by decide)⟩

/-! ## The groups of the look-up table -/

theorem lutGroupCount_pos {lut_len g : Nat} (hg : 1 ≤ g) (hl : 1 ≤ lut_len) :
    1 ≤ lutGroupCount lut_len g := by
  unfold lutGroupCount
  exact (Nat.one_le_div_iff (by omega)).mpr (by omega)

theorem lutGroupCount_zero {g : Nat} (hg : 1 ≤ g) : lutGroupCount 0 g = 0 := by
  unfold lutGroupCount
  exact Nat.div_eq_of_lt (by omega)

theorem divide_rounded_up_lut (lut_len g : Nat) (hg : 1 ≤ g) (hfit : lut_len + g ≤ sizeMod) :
    divide_rounded_up lut_len g = .ok (lutGroupCount lut_len g) :=
  divide_rounded_up_ok lut_len g hg hfit

theorem plainP4ndenc64_writesEmitted : CodecWritesEmitted plainP4ndenc64 :=
  fun _ _ _ _ h => if_neg (Nat.not_lt.mpr h)

/-- The result of `OmEncoder_compressLut` when there is at least one group and
the buffer size is at least the slack. -/
theorem compressLut_value {F : Type} (e : OmEncoder_t F) (p : P4ndenc64) (lut : Nat → Nat)
    (lut_len : Nat) (out : Nat → Nat) (S : Nat) (hg : 1 ≤ e.lut_chunk_element_count)
    (hl : 1 ≤ lut_len) (hfit : lut_len + e.lut_chunk_element_count ≤ sizeMod)
    (hS : 256 ≤ S) (hSlt : S < sizeMod) :
    OmEncoder_compressLut e p lut lut_len out S
      = .ok { bytes := S - 256
              out := (compressLutLoop e p lut lut_len
                ((S - 256) / lutGroupCount lut_len e.lut_chunk_element_count)
                (lutGroupCount lut_len e.lut_chunk_element_count) out).out
              calls := (compressLutLoop e p lut lut_len
                ((S - 256) / lutGroupCount lut_len e.lut_chunk_element_count)
                (lutGroupCount lut_len e.lut_chunk_element_count) out).calls } := by
  have hN := lutGroupCount_pos hg hl
  have hsub : subw S 256 = S - 256 := subw_of_le hS hSlt
  unfold OmEncoder_compressLut
  rw [divide_rounded_up_lut _ _ hg hfit, hsub]
  unfold divw
  simp only [bind, Except.bind, pure, Except.pure]
  rw [if_neg (show ¬ lutGroupCount lut_len e.lut_chunk_element_count = 0 by omega)]

/-- On the empty table `OmEncoder_compressLut` divides by the group count `0`,
while `OmEncoder_lutBufferSize` returns the slack `256`. -/
theorem lut_empty {F : Type} (e : OmEncoder_t F) (p : P4ndenc64) (lut : Nat → Nat)
    (out : Nat → Nat) (S : Nat) (hg : 1 ≤ e.lut_chunk_element_count)
    (hfit : e.lut_chunk_element_count ≤ sizeMod) :
    OmEncoder_compressLut e p lut 0 out S = .error OmFault.divisionByZero ∧
    OmEncoder_lutBufferSize e p lut 0 = .ok 256 := by
  have hd : divide_rounded_up 0 e.lut_chunk_element_count = .ok 0 := by
    rw [divide_rounded_up_lut _ _ hg (by omega), lutGroupCount_zero hg]
  refine ⟨?_, ?_⟩
  · unfold OmEncoder_compressLut
    rw [hd]
    rfl
  · unfold OmEncoder_lutBufferSize
    rw [hd]
    rfl

/-- C19 (amended): for a group size `g >= 1`, a table length `lut_len` whose sum with `g`
fits `size_t`, and a buffer size `256 <= S < 2 ^ 64`: when `lut_len >= 1` the
group count `N = ceil(lut_len / g)` computed by `OmEncoder_compressLut` is at
least `1`, `S - 256` does not underflow, and the call returns `S - 256` without
a fault; on the empty table (`lut_len = 0`) the group count is `0` and
`OmEncoder_compressLut` divides by zero, although `OmEncoder_lutBufferSize`
returns `256` there. -/
theorem OmEncoder_compressLut_defined {F : Type} (e : OmEncoder_t F) (p : P4ndenc64)
    (lut : Nat → Nat) (lut_len : Nat) (out : Nat → Nat) (S : Nat)
    (hg : 1 ≤ e.lut_chunk_element_count)
    (hfit : lut_len + e.lut_chunk_element_count ≤ sizeMod) (hS : 256 ≤ S)
    (hSlt : S < sizeMod) :
    (1 ≤ lut_len →
      divide_rounded_up lut_len e.lut_chunk_element_count
        = .ok (lutGroupCount lut_len e.lut_chunk_element_count) ∧
      1 ≤ lutGroupCount lut_len e.lut_chunk_element_count ∧
      subw S 256 = S - 256 ∧
      ∃ r : LutResult, OmEncoder_compressLut e p lut lut_len out S = .ok r ∧
        r.bytes = S - 256) ∧
    (divide_rounded_up 0 e.lut_chunk_element_count = .ok 0 ∧
      OmEncoder_compressLut e p lut 0 out S = .error OmFault.divisionByZero ∧
      OmEncoder_lutBufferSize e p lut 0 = .ok 256) := by
  refine ⟨fun hl => ⟨divide_rounded_up_lut _ _ hg hfit, lutGroupCount_pos hg hl,
    subw_of_le hS hSlt, _, compressLut_value e p lut lut_len out S hg hl hfit hS hSlt, rfl⟩, ?_, ?_⟩
  · rw [divide_rounded_up_lut _ _ hg (by omega), lutGroupCount_zero hg]
  · exact lut_empty e p lut out S hg (by omega)

theorem OmEncoder_compressLut_defined_witness :
    (1 ≤ (pforEncoder [4] [2]).lut_chunk_element_count ∧
      513 + (pforEncoder [4] [2]).lut_chunk_element_count ≤ sizeMod ∧
      256 ≤ 6400 ∧ 6400 < sizeMod) ∧
    (1 ≤ lutGroupCount 513 (pforEncoder [4] [2]).lut_chunk_element_count) ∧
    (OmEncoder_compressLut (pforEncoder [4] [2]) plainP4ndenc64 (fun j => 100 * j) 0
        (fun _ => 0) 6400 = .error OmFault.divisionByZero ∧
      OmEncoder_lutBufferSize (pforEncoder [4] [2]) plainP4ndenc64 (fun j => 100 * j) 0
        = .ok 256) :=
  ⟨⟨by decide, by decide, by decide, by decide⟩,
    ((OmEncoder_compressLut_defined (pforEncoder [4] [2]) plainP4ndenc64 (fun j => 100 * j)
      513 (fun _ => 0) 6400 (by decide) (by decide) (by decide) (by decide)).1
        (by decide)).2.1,
    (OmEncoder_compressLut_defined (pforEncoder [4] [2]) plainP4ndenc64 (fun j => 100 * j)
      513 (fun _ => 0) 6400 (by decide) (by decide) (by decide) (by decide)).2.2⟩

theorem FullInput.shape {F : Type} {e : OmEncoder_t F} {ci : Nat} (h : FullInput e ci) :
    ShapeInput e :=
  { hD := h.hD
    hDlt := h.hDlt
    hdims := h.hdims
    hchunks := h.hchunks
    hmem := h.hmem
    hbuf := h.hbuf }

/-- An iteration of the gather loop either returns the result of the call or
hands its locals to the next iteration. -/
theorem gatherLoop_step {F α β : Type} (e : OmEncoder_t F) (impl : OmCallbacks F α β)
    (array : Nat → α) (aD aO aC : List Nat) (out : Nat → Nat) (total vol last fuel : Nat)
    (s : GatherState β) :
    gatherLoop e impl array aD aO aC out total vol last (fuel + 1) s
      = match gatherStep e impl array aD aO aC out total vol last s with
        | .error f => .error f
        | .ok (Sum.inl r) => .ok r
        | .ok (Sum.inr s2) => gatherLoop e impl array aD aO aC out total vol last fuel s2 := by
  rw [gatherLoop_succ]
  unfold gatherStep
  by_cases h1 : addw s.readCoordinate s.linearReadCount ≤ total
  · by_cases h2 : addw s.writeCoordinate s.linearReadCount ≤ vol
    · rw [if_neg (not_not.mpr h1), if_neg (not_not.mpr h2), if_neg (not_not.mpr h1),
        if_neg (not_not.mpr h2)]
      simp only [bind, Except.bind, pure, Except.pure]
      cases hc : carryLoop e aD aO aC e.dimension_count
          { readCoordinate := addw s.readCoordinate (subw s.linearReadCount 1)
            rollingMultiplyTargetCube := 1
            linearReadCount := 1
            linearRead := true } with
      | error f => rfl
      | ok r =>
        dsimp only
        by_cases h3 : r.1 = true
        · rw [if_pos h3, if_pos h3]
          unfold divw
          by_cases h4 : last = 0
          · rw [if_pos h4]
          · rw [if_neg h4]
        · rw [if_neg h3, if_neg h3]
    · rw [if_neg (not_not.mpr h1), if_pos h2, if_neg (not_not.mpr h1), if_pos h2]
      rfl
  · rw [if_pos h1, if_pos h1]
    rfl

/-- The value of one iteration of the gather loop, case by case. -/
theorem gatherStep_eval {F α β : Type} (e : OmEncoder_t F) (impl : OmCallbacks F α β)
    (array : Nat → α) (aD aO aC : List Nat) (out : Nat → Nat) (total vol last : Nat)
    (s : GatherState β) :
    gatherStep e impl array aD aO aC out total vol last s
      = if ¬ addw s.readCoordinate s.linearReadCount ≤ total then
          .error OmFault.assertReadInBounds
        else if ¬ addw s.writeCoordinate s.linearReadCount ≤ vol then
          .error OmFault.assertWriteInBounds
        else
          match carryLoop e aD aO aC e.dimension_count
              { readCoordinate := addw s.readCoordinate (subw s.linearReadCount 1)
                rollingMultiplyTargetCube := 1
                linearReadCount := 1
                linearRead := true } with
          | .error f => .error f
          | .ok r =>
            if r.1 = true then
              if last = 0 then .error OmFault.divisionByZero
              else .ok (Sum.inl
                { bytes :=
                    (impl.compress e.compress_callback
                      (impl.filter e.compress_filter_callback (vol / last) last
                        (writeBack s.chunkBuffer s.writeCoordinate
                          (impl.copy e.compress_copy_callback s.linearReadCount e.scale_factor
                            e.add_offset (fun j => array (s.readCoordinate + j))
                            (fun j => s.chunkBuffer (s.writeCoordinate + j)))))
                      vol out).1
                  out :=
                    (impl.compress e.compress_callback
                      (impl.filter e.compress_filter_callback (vol / last) last
                        (writeBack s.chunkBuffer s.writeCoordinate
                          (impl.copy e.compress_copy_callback s.linearReadCount e.scale_factor
                            e.add_offset (fun j => array (s.readCoordinate + j))
                            (fun j => s.chunkBuffer (s.writeCoordinate + j)))))
                      vol out).2
                  chunkBuffer :=
                    impl.filter e.compress_filter_callback (vol / last) last
                      (writeBack s.chunkBuffer s.writeCoordinate
                        (impl.copy e.compress_copy_callback s.linearReadCount e.scale_factor
                          e.add_offset (fun j => array (s.readCoordinate + j))
                          (fun j => s.chunkBuffer (s.writeCoordinate + j))))
                  packed :=
                    writeBack s.chunkBuffer s.writeCoordinate
                      (impl.copy e.compress_copy_callback s.linearReadCount e.scale_factor
                        e.add_offset (fun j => array (s.readCoordinate + j))
                        (fun j => s.chunkBuffer (s.writeCoordinate + j)))
                  calls :=
                    (s.calls
                        ++ [OmCall.copy s.linearReadCount s.readCoordinate s.writeCoordinate])
                      ++ [OmCall.filter (vol / last) last, OmCall.compress vol] })
            else
              .ok (Sum.inr
                { readCoordinate := r.2.readCoordinate
                  writeCoordinate := addw (addw s.writeCoordinate (subw s.linearReadCount 1)) 1
                  linearReadCount := r.2.linearReadCount
                  chunkBuffer :=
                    writeBack s.chunkBuffer s.writeCoordinate
                      (impl.copy e.compress_copy_callback s.linearReadCount e.scale_factor
                        e.add_offset (fun j => array (s.readCoordinate + j))
                        (fun j => s.chunkBuffer (s.writeCoordinate + j)))
                  calls :=
                    s.calls
                      ++ [OmCall.copy s.linearReadCount s.readCoordinate s.writeCoordinate] }) := by
  unfold gatherStep
  by_cases h1 : addw s.readCoordinate s.linearReadCount ≤ total
  · by_cases h2 : addw s.writeCoordinate s.linearReadCount ≤ vol
    · rw [if_neg (not_not.mpr h1), if_neg (not_not.mpr h2), if_neg (not_not.mpr h1),
        if_neg (not_not.mpr h2)]
      simp only [bind, Except.bind, pure, Except.pure]
      cases hc : carryLoop e aD aO aC e.dimension_count
          { readCoordinate := addw s.readCoordinate (subw s.linearReadCount 1)
            rollingMultiplyTargetCube := 1
            linearReadCount := 1
            linearRead := true } with
      | error f => rfl
      | ok r =>
        dsimp only
        by_cases h3 : r.1 = true
        · rw [if_pos h3, if_pos h3]
          unfold divw
          by_cases h4 : last = 0
          · rw [if_pos h4, if_pos h4]
          · rw [if_neg h4, if_neg h4]
        · rw [if_neg h3, if_neg h3]
    · rw [if_neg (not_not.mpr h1), if_pos h2, if_neg (not_not.mpr h1), if_pos h2]
      rfl
  · rw [if_pos h1, if_pos h1]
    rfl

/-- An iteration that returns: both assertions held, `lengthLast` is not zero,
the filter and the entropy coder were invoked once each after the copy, and the
returned byte count and output memory are those of the entropy coder. -/
theorem gatherStep_done {F α β : Type} (e : OmEncoder_t F) (impl : OmCallbacks F α β)
    (array : Nat → α) (aD aO aC : List Nat) (out : Nat → Nat) (total vol last : Nat)
    (s : GatherState β) (r : ChunkResult β)
    (h : gatherStep e impl array aD aO aC out total vol last s = .ok (Sum.inl r)) :
    addw s.readCoordinate s.linearReadCount ≤ total ∧
    addw s.writeCoordinate s.linearReadCount ≤ vol ∧
    last ≠ 0 ∧
    r.calls = s.calls ++ [OmCall.copy s.linearReadCount s.readCoordinate s.writeCoordinate]
      ++ [OmCall.filter (vol / last) last, OmCall.compress vol] ∧
    r.packed = writeBack s.chunkBuffer s.writeCoordinate
      (impl.copy e.compress_copy_callback s.linearReadCount e.scale_factor e.add_offset
        (fun j => array (s.readCoordinate + j)) (fun j => s.chunkBuffer (s.writeCoordinate + j))) ∧
    r.chunkBuffer = impl.filter e.compress_filter_callback (vol / last) last r.packed ∧
    r.bytes = (impl.compress e.compress_callback r.chunkBuffer vol out).1 ∧
    r.out = (impl.compress e.compress_callback r.chunkBuffer vol out).2 := by
  rw [gatherStep_eval] at h
  by_cases h1 : addw s.readCoordinate s.linearReadCount ≤ total
  · by_cases h2 : addw s.writeCoordinate s.linearReadCount ≤ vol
    · rw [if_neg (not_not.mpr h1), if_neg (not_not.mpr h2)] at h
      generalize carryLoop e aD aO aC e.dimension_count
          { readCoordinate := addw s.readCoordinate (subw s.linearReadCount 1)
            rollingMultiplyTargetCube := 1
            linearReadCount := 1
            linearRead := true } = c at h
      cases c with
      | error f => cases h
      | ok c =>
        dsimp only at h
        by_cases h3 : c.1 = true
        · rw [if_pos h3] at h
          by_cases h4 : last = 0
          · rw [if_pos h4] at h
            cases h
          · rw [if_neg h4] at h
            cases h
            exact ⟨h1, h2, h4, rfl, rfl, rfl, rfl, rfl⟩
        · rw [if_neg h3] at h
          cases h
    · rw [if_neg (not_not.mpr h1), if_pos h2] at h
      cases h
  · rw [if_pos h1] at h
    cases h

/-- An iteration that goes round again: both assertions held, one copy was
made, and the write position moved on by the run length. -/
theorem gatherStep_next {F α β : Type} (e : OmEncoder_t F) (impl : OmCallbacks F α β)
    (array : Nat → α) (aD aO aC : List Nat) (out : Nat → Nat) (total vol last : Nat)
    (s s2 : GatherState β)
    (h : gatherStep e impl array aD aO aC out total vol last s = .ok (Sum.inr s2)) :
    addw s.readCoordinate s.linearReadCount ≤ total ∧
    addw s.writeCoordinate s.linearReadCount ≤ vol ∧
    s2.calls = s.calls ++ [OmCall.copy s.linearReadCount s.readCoordinate s.writeCoordinate] ∧
    s2.writeCoordinate = addw (addw s.writeCoordinate (subw s.linearReadCount 1)) 1 := by
  rw [gatherStep_eval] at h
  by_cases h1 : addw s.readCoordinate s.linearReadCount ≤ total
  · by_cases h2 : addw s.writeCoordinate s.linearReadCount ≤ vol
    · rw [if_neg (not_not.mpr h1), if_neg (not_not.mpr h2)] at h
      generalize carryLoop e aD aO aC e.dimension_count
          { readCoordinate := addw s.readCoordinate (subw s.linearReadCount 1)
            rollingMultiplyTargetCube := 1
            linearReadCount := 1
            linearRead := true } = c at h
      cases c with
      | error f => cases h
      | ok c =>
        dsimp only at h
        by_cases h3 : c.1 = true
        · rw [if_pos h3] at h
          by_cases h4 : last = 0
          · rw [if_pos h4] at h
            cases h
          · rw [if_neg h4] at h
            cases h
        · rw [if_neg h3] at h
          cases h
          exact ⟨h1, h2, rfl, rfl⟩
    · rw [if_neg (not_not.mpr h1), if_pos h2] at h
      cases h
  · rw [if_pos h1] at h
    cases h

/-- The control flow of an iteration does not look at the data: callbacks,
source memory, output memory and scratch memory may be replaced without changing
the fault, the invocations or the coordinates that result. -/
theorem gatherStep_trace {F α β α2 β2 : Type} (e : OmEncoder_t F) (impl : OmCallbacks F α β)
    (impl2 : OmCallbacks F α2 β2) (array : Nat → α) (array2 : Nat → α2) (aD aO aC : List Nat)
    (out out2 : Nat → Nat) (total vol last : Nat) (s : GatherState β) (s2 : GatherState β2)
    (hr : s.readCoordinate = s2.readCoordinate) (hw : s.writeCoordinate = s2.writeCoordinate)
    (hl : s.linearReadCount = s2.linearReadCount) (hc : s.calls = s2.calls) :
    (gatherStep e impl array aD aO aC out total vol last s).map stepTrace
      = (gatherStep e impl2 array2 aD aO aC out2 total vol last s2).map stepTrace := by
  rw [gatherStep_eval, gatherStep_eval, hr, hw, hl, hc]
  by_cases h1 : addw s2.readCoordinate s2.linearReadCount ≤ total
  · by_cases h2 : addw s2.writeCoordinate s2.linearReadCount ≤ vol
    · rw [if_neg (not_not.mpr h1), if_neg (not_not.mpr h2), if_neg (not_not.mpr h1),
        if_neg (not_not.mpr h2)]
      generalize carryLoop e aD aO aC e.dimension_count
          { readCoordinate := addw s2.readCoordinate (subw s2.linearReadCount 1)
            rollingMultiplyTargetCube := 1
            linearReadCount := 1
            linearRead := true } = c
      cases c with
      | error f => rfl
      | ok c =>
        dsimp only
        by_cases h3 : c.1 = true
        · rw [if_pos h3, if_pos h3]
          by_cases h4 : last = 0
          · rw [if_pos h4, if_pos h4]
            rfl
          · rw [if_neg h4, if_neg h4]
            rfl
        · rw [if_neg h3, if_neg h3]
          rfl
    · rw [if_neg (not_not.mpr h1), if_pos h2, if_neg (not_not.mpr h1), if_pos h2]
      rfl
  · rw [if_pos h1, if_pos h1]
    rfl

/-- A gather loop that completes made at least one and at most `fuel` scalar
copies, then one filter invocation on `vol / last` rows of `last` elements, then
one entropy invocation on `vol` elements; the buffer it leaves is the filtered
packed buffer, and the byte count and output memory are those of the entropy
coder. -/
theorem gatherLoop_shape {F α β : Type} (e : OmEncoder_t F) (impl : OmCallbacks F α β)
    (array : Nat → α) (aD aO aC : List Nat) (out : Nat → Nat) (total vol last : Nat) :
    ∀ (fuel : Nat) (s : GatherState β) (r : ChunkResult β),
      gatherLoop e impl array aD aO aC out total vol last fuel s = .ok r →
      last ≠ 0 ∧
      (∃ copies : List OmCall,
        1 ≤ copies.length ∧ copies.length ≤ fuel ∧
        (∀ c, c ∈ copies → ∃ n rc wc, c = OmCall.copy n rc wc) ∧
        r.calls = s.calls ++ copies ++ [OmCall.filter (vol / last) last, OmCall.compress vol]) ∧
      r.chunkBuffer = impl.filter e.compress_filter_callback (vol / last) last r.packed ∧
      r.bytes = (impl.compress e.compress_callback r.chunkBuffer vol out).1 ∧
      r.out = (impl.compress e.compress_callback r.chunkBuffer vol out).2 := by
  intro fuel
  induction fuel with
  | zero =>
    intro s r h
    cases h
  | succ fuel ih =>
    intro s r h
    rw [gatherLoop_step] at h
    cases hstep : gatherStep e impl array aD aO aC out total vol last s with
    | error f =>
      rw [hstep] at h
      cases h
    | ok x =>
      rw [hstep] at h
      cases x with
      | inl r1 =>
        have hr : r1 = r := by
          have : (Except.ok r1 : Except OmFault (ChunkResult β)) = .ok r := h
          cases this
          rfl
        subst hr
        obtain ⟨_, _, h3, h4, _, h6, h7, h8⟩ := gatherStep_done e impl array aD aO aC out total
          vol last s r1 hstep
        refine ⟨h3, ⟨[OmCall.copy s.linearReadCount s.readCoordinate s.writeCoordinate],
          Nat.le_refl _, Nat.succ_le_succ (Nat.zero_le _), ?_, h4⟩, h6, h7, h8⟩
        intro c hc
        rw [List.mem_singleton] at hc
        exact ⟨_, _, _, hc⟩
      | inr s2 =>
        have h' : gatherLoop e impl array aD aO aC out total vol last fuel s2 = .ok r := h
        obtain ⟨_, _, h3, _⟩ := gatherStep_next e impl array aD aO aC out total vol last s s2 hstep
        obtain ⟨i1, ⟨copies, c1, c2, c3, c4⟩, i3, i4, i5⟩ := ih s2 r h'
        refine ⟨i1, ⟨OmCall.copy s.linearReadCount s.readCoordinate s.writeCoordinate :: copies,
          ?_, ?_, ?_, ?_⟩, i3, i4, i5⟩
        · rw [List.length_cons]
          omega
        · rw [List.length_cons]
          omega
        · intro c hc
          rcases List.mem_cons.mp hc with h0 | h0
          · exact ⟨_, _, _, h0⟩
          · exact c3 c h0
        · rw [c4, h3]
          simp only [List.append_assoc, List.singleton_append, List.cons_append, List.nil_append]

/-- The control flow of the gather loop does not look at the data: with other
callbacks, source memory, output memory and scratch memory the loop ends in the
same fault or with the same callback invocations. -/
theorem gatherLoop_trace {F α β α2 β2 : Type} (e : OmEncoder_t F) (impl : OmCallbacks F α β)
    (impl2 : OmCallbacks F α2 β2) (array : Nat → α) (array2 : Nat → α2) (aD aO aC : List Nat)
    (out out2 : Nat → Nat) (total vol last : Nat) :
    ∀ (fuel : Nat) (s : GatherState β) (s2 : GatherState β2),
      s.readCoordinate = s2.readCoordinate → s.writeCoordinate = s2.writeCoordinate →
      s.linearReadCount = s2.linearReadCount → s.calls = s2.calls →
      (gatherLoop e impl array aD aO aC out total vol last fuel s).map ChunkResult.calls
        = (gatherLoop e impl2 array2 aD aO aC out2 total vol last fuel s2).map
            ChunkResult.calls := by
  intro fuel
  induction fuel with
  | zero =>
    intro s s2 _ _ _ _
    rfl
  | succ fuel ih =>
    intro s s2 hr hw hl hc
    have ht := gatherStep_trace e impl impl2 array array2 aD aO aC out out2 total vol last s s2
      hr hw hl hc
    rw [gatherLoop_step, gatherLoop_step]
    cases h1 : gatherStep e impl array aD aO aC out total vol last s with
    | error f =>
      cases h2 : gatherStep e impl2 array2 aD aO aC out2 total vol last s2 with
      | error f2 =>
        rw [h1, h2] at ht
        cases ht
        rfl
      | ok y =>
        rw [h1, h2] at ht
        cases ht
    | ok x =>
      cases h2 : gatherStep e impl2 array2 aD aO aC out2 total vol last s2 with
      | error f2 =>
        rw [h1, h2] at ht
        cases ht
      | ok y =>
        rw [h1, h2] at ht
        have hxy : stepTrace x = stepTrace y := Except.ok.inj ht
        cases x with
        | inl r1 =>
          cases y with
          | inl r2 =>
            have : r1.calls = r2.calls := Sum.inl.inj hxy
            show Except.ok r1.calls = Except.ok r2.calls
            rw [this]
          | inr t2 => cases hxy
        | inr t1 =>
          cases y with
          | inl r2 => cases hxy
          | inr t2 =>
            have hq := Sum.inr.inj hxy
            have q1 : t1.readCoordinate = t2.readCoordinate := congrArg (fun q => q.1) hq
            have q2 : t1.writeCoordinate = t2.writeCoordinate := congrArg (fun q => q.2.1) hq
            have q3 : t1.linearReadCount = t2.linearReadCount := congrArg (fun q => q.2.2.1) hq
            have q4 : t1.calls = t2.calls := congrArg (fun q => q.2.2.2) hq
            exact ih t1 t2 q1 q2 q3 q4

/-- More fuel does not change the result of a gather loop that completes. -/
theorem gatherLoop_mono {F α β : Type} (e : OmEncoder_t F) (impl : OmCallbacks F α β)
    (array : Nat → α) (aD aO aC : List Nat) (out : Nat → Nat) (total vol last : Nat) :
    ∀ (fuel : Nat) (s : GatherState β) (r : ChunkResult β),
      gatherLoop e impl array aD aO aC out total vol last fuel s = .ok r →
      ∀ k, gatherLoop e impl array aD aO aC out total vol last (fuel + k) s = .ok r := by
  intro fuel
  induction fuel with
  | zero =>
    intro s r h
    cases h
  | succ fuel ih =>
    intro s r h k
    have hk : fuel + 1 + k = (fuel + k) + 1 := by omega
    rw [hk, gatherLoop_step]
    rw [gatherLoop_step] at h
    cases hstep : gatherStep e impl array aD aO aC out total vol last s with
    | error f =>
      rw [hstep] at h
      cases h
    | ok x =>
      rw [hstep] at h
      cases x with
      | inl r1 => exact h
      | inr s2 => exact ih s2 r h k

/-- A call that completes, in terms of the locals its first loop produced. -/
theorem compressChunk_shape {F α β : Type} (e : OmEncoder_t F) (impl : OmCallbacks F α β)
    (array : Nat → α) (aD aO aC : List Nat) (ci co : Nat) (out : Nat → Nat) (b : Nat → β)
    (fuel : Nat) (r : ChunkResult β)
    (hrun : OmEncoder_compressChunk e impl array aD aO aC ci co out b fuel = .ok r) :
    ∃ st : SetupState,
      setupLoop e aD aO aC ci co e.dimension_count setupInit = .ok st ∧
      st.lengthLast ≠ 0 ∧
      (∃ copies : List OmCall,
        1 ≤ copies.length ∧ copies.length ≤ fuel ∧
        (∀ c, c ∈ copies → ∃ n rc wc, c = OmCall.copy n rc wc) ∧
        r.calls = copies ++ [OmCall.filter (st.rollingMultiplyChunkLength / st.lengthLast)
          st.lengthLast, OmCall.compress st.rollingMultiplyChunkLength]) ∧
      r.chunkBuffer = impl.filter e.compress_filter_callback
        (st.rollingMultiplyChunkLength / st.lengthLast) st.lengthLast r.packed ∧
      r.bytes = (impl.compress e.compress_callback r.chunkBuffer
        st.rollingMultiplyChunkLength out).1 ∧
      r.out = (impl.compress e.compress_callback r.chunkBuffer
        st.rollingMultiplyChunkLength out).2 := by
  cases hsetup : setupLoop e aD aO aC ci co e.dimension_count setupInit with
  | error f =>
    unfold OmEncoder_compressChunk at hrun
    rw [hsetup] at hrun
    cases hrun
  | ok st =>
    rw [compressChunk_eq_gather e impl array aD aO aC ci co out b fuel st hsetup] at hrun
    obtain ⟨h1, ⟨copies, c1, c2, c3, c4⟩, h3, h4, h5⟩ := gatherLoop_shape e impl array aD aO aC out
      _ _ _ fuel _ r hrun
    exact ⟨st, rfl, h1, ⟨copies, c1, c2, c3, by rw [c4]; rfl⟩, h3, h4, h5⟩

theorem pforEncoder_shape_44_22 : ShapeInput (pforEncoder [4, 4] [2, 2]) :=
  { hD := by decide
    hDlt := by decide
    hdims := by decide
    hchunks := by decide
    hmem := by decide
    hbuf := by decide }

theorem setupLoop_full_init {F : Type} {e : OmEncoder_t F} {ci : Nat} (h : FullInput e ci) :
    setupLoop e e.dimensions (List.replicate e.dimension_count 0) e.dimensions ci ci
        e.dimension_count setupInit
      = .ok (setupAt e ci 0) := by
  rw [setupInit_eq e ci]
  exact setupLoop_full h e.dimension_count (Nat.le_refl _)

/-- A full-array call completes within `L' / R` iterations whatever the
callbacks and the memory are, and its callback invocations are `L' / R` copies
of `R` elements at the write positions `0`, `R`, `2 * R`, ..., then the filter,
then the entropy coder. -/
theorem compressChunkFull_calls {F α β : Type} {e : OmEncoder_t F} {ci : Nat}
    (h : FullInput e ci) (impl : OmCallbacks F α β) (array : Nat → α) (out : Nat → Nat)
    (b : Nat → β) (fuel : Nat) (hfuel : packedVolume e ci / runLength e ci ≤ fuel) :
    ∃ r : ChunkResult β,
      compressChunkFull e impl array ci out b fuel = .ok r ∧
      r.calls = copyTrace (runLength e ci) (srcPre e ci e.dimension_count)
          (packedVolume e ci / runLength e ci) 0
        ++ [OmCall.filter (packedVolume e ci / chunkLen e ci (e.dimension_count - 1))
              (chunkLen e ci (e.dimension_count - 1)),
            OmCall.compress (packedVolume e ci)] := by
  have hsetup := setupLoop_full_init h
  have hT := compressChunkFull_eq h (traceCallbacks F) id (fun _ => ()) out (fun _ => ())
    fuel (fun _ _ _ => rfl) hfuel
  unfold compressChunkFull at hT ⊢
  rw [compressChunk_eq_gather _ _ _ _ _ _ _ _ _ _ _ _ hsetup] at hT ⊢
  have htr := gatherLoop_trace e impl (traceCallbacks F) array (fun _ => ()) e.dimensions
    (List.replicate e.dimension_count 0) e.dimensions out out
    (arrayTotalCountLoop e.dimension_count e.dimensions)
    (setupAt e ci 0).rollingMultiplyChunkLength (setupAt e ci 0).lengthLast fuel
    { readCoordinate := (setupAt e ci 0).readCoordinate
      writeCoordinate := 0
      linearReadCount := (setupAt e ci 0).linearReadCount
      chunkBuffer := b
      calls := [] }
    { readCoordinate := (setupAt e ci 0).readCoordinate
      writeCoordinate := 0
      linearReadCount := (setupAt e ci 0).linearReadCount
      chunkBuffer := fun _ => ()
      calls := [] }
    rfl rfl rfl rfl
  rw [hT] at htr
  cases hg : gatherLoop e impl array e.dimensions (List.replicate e.dimension_count 0)
      e.dimensions out (arrayTotalCountLoop e.dimension_count e.dimensions)
      (setupAt e ci 0).rollingMultiplyChunkLength (setupAt e ci 0).lengthLast fuel
      { readCoordinate := (setupAt e ci 0).readCoordinate
        writeCoordinate := 0
        linearReadCount := (setupAt e ci 0).linearReadCount
        chunkBuffer := b
        calls := [] } with
  | error f =>
    rw [hg] at htr
    cases htr
  | ok r =>
    rw [hg] at htr
    exact ⟨r, rfl, Except.ok.inj htr⟩

theorem copyTrace_length (r : Nat) (src : Nat → Nat) :
    ∀ n w, (copyTrace r src n w).length = n := by
  intro n
  induction n with
  | zero =>
    intro w
    rfl
  | succ n ih =>
    intro w
    show (OmCall.copy r (src w) w :: copyTrace r src n (w + r)).length = n + 1
    rw [List.length_cons, ih]

/-- C17: for a full-array input (at least one axis, `dimensions[i] >= 1`,
`chunks[i] >= 1`, shapes that fit in memory, `chunkIndex < count_chunks()`,
`arrayDimensions = arrayCount = dimensions`, `arrayOffset = 0`,
`chunkIndexOffsetInThisArray = chunkIndex`) and any callbacks and memory: the
setup loop fixes a run length `R >= 1` that divides `L'`; with fuel for `L' / R`
iterations the call completes, its callback invocations are exactly `L' / R`
copies of `R` elements each (at write positions `0`, `R`, `2 * R`, ...) followed
by the filter and the entropy coder, so the write position is
`(L' / R) * R = L'` when the filter is called; with fewer than `L' / R`
iterations the call does not complete; and `L' / R <= L'`. -/
theorem OmEncoder_compressChunk_gather_terminates {F α β : Type} (e : OmEncoder_t F)
    (impl : OmCallbacks F α β) (array : Nat → α) (chunkIndex : Nat) (out : Nat → Nat)
    (chunkBuffer : Nat → β) (fuel : Nat) (hs : ShapeInput e)
    (hci : ∃ count, OmEncoder_countChunks e = .ok count ∧ chunkIndex < count)
    (hfuel : packedVolume e chunkIndex / runLength e chunkIndex ≤ fuel) :
    ∃ (st : SetupState) (r : ChunkResult β),
      setupLoop e e.dimensions (List.replicate e.dimension_count 0) e.dimensions chunkIndex
        chunkIndex e.dimension_count setupInit = .ok st ∧
      st.linearReadCount = runLength e chunkIndex ∧
      st.rollingMultiplyChunkLength = packedVolume e chunkIndex ∧
      1 ≤ runLength e chunkIndex ∧
      runLength e chunkIndex ∣ packedVolume e chunkIndex ∧
      OmEncoder_compressChunk e impl array e.dimensions (List.replicate e.dimension_count 0)
        e.dimensions chunkIndex chunkIndex out chunkBuffer fuel = .ok r ∧
      r.calls = copyTrace (runLength e chunkIndex) (srcPre e chunkIndex e.dimension_count)
          (packedVolume e chunkIndex / runLength e chunkIndex) 0
        ++ [OmCall.filter
              (packedVolume e chunkIndex / chunkLen e chunkIndex (e.dimension_count - 1))
              (chunkLen e chunkIndex (e.dimension_count - 1)),
            OmCall.compress (packedVolume e chunkIndex)] ∧
      (copyTrace (runLength e chunkIndex) (srcPre e chunkIndex e.dimension_count)
          (packedVolume e chunkIndex / runLength e chunkIndex) 0).length
        = packedVolume e chunkIndex / runLength e chunkIndex ∧
      packedVolume e chunkIndex / runLength e chunkIndex * runLength e chunkIndex
        = packedVolume e chunkIndex ∧
      packedVolume e chunkIndex / runLength e chunkIndex ≤ packedVolume e chunkIndex ∧
      (∀ (fuel2 : Nat) (r2 : ChunkResult β),
        fuel2 < packedVolume e chunkIndex / runLength e chunkIndex →
        OmEncoder_compressChunk e impl array e.dimensions (List.replicate e.dimension_count 0)
          e.dimensions chunkIndex chunkIndex out chunkBuffer fuel2 ≠ .ok r2) := by
  have h := fullInput_of_count e chunkIndex hs.hD hs.hDlt hs.hdims hs.hchunks hs.hmem hs.hbuf hci
  have hsetup := setupLoop_full_init h
  obtain ⟨r, hrun, hcalls⟩ := compressChunkFull_calls h impl array out chunkBuffer fuel hfuel
  have hdvd := runLength_dvd_volume h
  have hlen := copyTrace_length (runLength e chunkIndex) (srcPre e chunkIndex e.dimension_count)
    (packedVolume e chunkIndex / runLength e chunkIndex) 0
  refine ⟨setupAt e chunkIndex 0, r, hsetup, ?_, lenSuffix_zero e chunkIndex, runLength_pos h,
    hdvd, hrun, hcalls, hlen, Nat.div_mul_cancel hdvd, Nat.div_le_self _ _, ?_⟩
  · show (runAfter e chunkIndex (e.dimension_count - 0)).1 = runLength e chunkIndex
    rw [Nat.sub_zero]
    rfl
  · intro fuel2 r2 hlt hrun2
    obtain ⟨rn, hrunn, hcallsn⟩ := compressChunkFull_calls h impl array out chunkBuffer
      (packedVolume e chunkIndex / runLength e chunkIndex) (Nat.le_refl _)
    obtain ⟨_, _, _, ⟨copies, _, c2, _, c4⟩, _⟩ := compressChunk_shape e impl array _ _ _ _ _
      out chunkBuffer fuel2 r2 hrun2
    unfold compressChunkFull at hrunn
    rw [compressChunk_eq_gather _ _ _ _ _ _ _ _ _ _ _ _ hsetup] at hrunn hrun2
    have hmono := gatherLoop_mono e impl array _ _ _ out _ _ _ fuel2 _ r2 hrun2
      (packedVolume e chunkIndex / runLength e chunkIndex - fuel2)
    rw [show fuel2 + (packedVolume e chunkIndex / runLength e chunkIndex - fuel2)
      = packedVolume e chunkIndex / runLength e chunkIndex by omega, hrunn] at hmono
    have hr : rn = r2 := Except.ok.inj hmono
    rw [hr, c4] at hcallsn
    have hl := congrArg List.length hcallsn
    rw [List.length_append, List.length_append, hlen] at hl
    simp only [List.length_cons, List.length_nil] at hl
    omega

theorem OmEncoder_compressChunk_gather_terminates_witness :
    (∃ count, OmEncoder_countChunks (pforEncoder [4, 4] [2, 2]) = .ok count ∧ 3 < count) ∧
    packedVolume (pforEncoder [4, 4] [2, 2]) 3 / runLength (pforEncoder [4, 4] [2, 2]) 3 = 2 ∧
    ∃ (st : SetupState) (r : ChunkResult Nat),
      setupLoop (pforEncoder [4, 4] [2, 2]) (pforEncoder [4, 4] [2, 2]).dimensions
        (List.replicate (pforEncoder [4, 4] [2, 2]).dimension_count 0)
        (pforEncoder [4, 4] [2, 2]).dimensions 3 3 (pforEncoder [4, 4] [2, 2]).dimension_count
        setupInit = .ok st ∧
      OmEncoder_compressChunk (pforEncoder [4, 4] [2, 2]) plainCallbacks (fun j => 1000 + j)
        (pforEncoder [4, 4] [2, 2]).dimensions
        (List.replicate (pforEncoder [4, 4] [2, 2]).dimension_count 0)
        (pforEncoder [4, 4] [2, 2]).dimensions 3 3 (fun _ => 0) (fun _ => 7) 2 = .ok r ∧
      r.calls = [OmCall.copy 2 10 0, OmCall.copy 2 14 2, OmCall.filter 2 2, OmCall.compress 4] := by
  refine ⟨⟨4, rfl, by decide⟩, by decide, ?_⟩
  obtain ⟨st, r, h1, _, _, _, _, h6, h7, _⟩ :=
    OmEncoder_compressChunk_gather_terminates (pforEncoder [4, 4] [2, 2]) plainCallbacks
      (fun j => 1000 + j) 3 (fun _ => 0) (fun _ => 7) 2 pforEncoder_shape_44_22
      ⟨4, rfl, by decide⟩ (by decide)
  refine ⟨st, r, h1, h6, ?_⟩
  rw [h7]
  decide

/-! ## The control flow of a call -/

/-- The control flow of a call does not look at the data: with other callbacks,
source memory, output memory and scratch memory the call ends in the same fault
or with the same callback invocations. -/
theorem compressChunk_trace {F α β α2 β2 : Type} (e : OmEncoder_t F) (impl : OmCallbacks F α β)
    (impl2 : OmCallbacks F α2 β2) (array : Nat → α) (array2 : Nat → α2) (aD aO aC : List Nat)
    (ci co : Nat) (out out2 : Nat → Nat) (b : Nat → β) (b2 : Nat → β2) (fuel : Nat) :
    (OmEncoder_compressChunk e impl array aD aO aC ci co out b fuel).map ChunkResult.calls
      = (OmEncoder_compressChunk e impl2 array2 aD aO aC ci co out2 b2 fuel).map
          ChunkResult.calls := by
  cases hsetup : setupLoop e aD aO aC ci co e.dimension_count setupInit with
  | error f =>
    unfold OmEncoder_compressChunk
    rw [hsetup]
    rfl
  | ok st =>
    rw [compressChunk_eq_gather e impl array aD aO aC ci co out b fuel st hsetup,
      compressChunk_eq_gather e impl2 array2 aD aO aC ci co out2 b2 fuel st hsetup]
    exact gatherLoop_trace e impl impl2 array array2 aD aO aC out out2 _ _ _ fuel _ _
      rfl rfl rfl rfl

/-! ## Run detection -/

/-- C19 fails for `g = 2 ^ 64 - 1`, `lut_len = 2`, `S = 6400` (so `g >= 1`,
`lut_len >= 1`, `S >= 256`): the group count computed by
`divide_rounded_up` is `0` and `OmEncoder_compressLut` divides by zero. -/
theorem OmEncoder_compressLut_defined_counterexample :
    (OmEncoder_init (pforEncoder [4] [2]) 1 0 COMPRESSION_PFOR_16BIT_DELTA2D DATA_TYPE_FLOAT
      [4] [2] 1 18446744073709551615).1 = ERROR_OK ∧
    1 ≤ sizeMaxGroupEncoder.lut_chunk_element_count ∧ 1 ≤ 2 ∧ 256 ≤ 6400 ∧
    divide_rounded_up 2 sizeMaxGroupEncoder.lut_chunk_element_count = .ok 0 ∧
    subw 6400 256 = 6144 ∧
    OmEncoder_compressLut sizeMaxGroupEncoder plainP4ndenc64 (fun j => 100 * j) 2 (fun _ => 0)
      6400 = .error OmFault.divisionByZero :=
  ⟨rfl, by decide, by decide, by decide, rfl, rfl, rfl⟩

/-! ## What a stopped call leaves behind -/

theorem gatherLoopOutcome_zero {F α β : Type} (e : OmEncoder_t F) (impl : OmCallbacks F α β)
    (array : Nat → α) (aD aO aC : List Nat) (out : Nat → Nat) (total vol last : Nat)
    (s : GatherState β) :
    gatherLoopOutcome e impl array aD aO aC out total vol last 0 s
      = { result := .error OmFault.outOfFuel, out := out, chunkBuffer := s.chunkBuffer,
          calls := s.calls } :=
  rfl

/-- An iteration entered with the read assertion violated stops the call at
once: the memory and the invocations are those the iteration started with. -/
theorem gatherLoopOutcome_read_fault {F α β : Type} (e : OmEncoder_t F)
    (impl : OmCallbacks F α β) (array : Nat → α) (aD aO aC : List Nat) (out : Nat → Nat)
    (total vol last fuel : Nat) (s : GatherState β)
    (h : ¬ addw s.readCoordinate s.linearReadCount ≤ total) :
    gatherLoopOutcome e impl array aD aO aC out total vol last (fuel + 1) s
      = { result := .error OmFault.assertReadInBounds, out := out, chunkBuffer := s.chunkBuffer,
          calls := s.calls } := by
  unfold gatherLoopOutcome
  rw [if_pos h]

theorem gatherLoopOutcome_write_fault {F α β : Type} (e : OmEncoder_t F)
    (impl : OmCallbacks F α β) (array : Nat → α) (aD aO aC : List Nat) (out : Nat → Nat)
    (total vol last fuel : Nat) (s : GatherState β)
    (h1 : addw s.readCoordinate s.linearReadCount ≤ total)
    (h2 : ¬ addw s.writeCoordinate s.linearReadCount ≤ vol) :
    gatherLoopOutcome e impl array aD aO aC out total vol last (fuel + 1) s
      = { result := .error OmFault.assertWriteInBounds, out := out, chunkBuffer := s.chunkBuffer,
          calls := s.calls } := by
  unfold gatherLoopOutcome
  rw [if_neg (not_not.mpr h1), if_pos h2]

/-- An iteration whose assertions hold, after its copy: the inner loop decides
how the call goes on. -/
theorem gatherLoopOutcome_copied {F α β : Type} (e : OmEncoder_t F)
    (impl : OmCallbacks F α β) (array : Nat → α) (aD aO aC : List Nat) (out : Nat → Nat)
    (total vol last fuel : Nat) (s : GatherState β)
    (h1 : addw s.readCoordinate s.linearReadCount ≤ total)
    (h2 : addw s.writeCoordinate s.linearReadCount ≤ vol) :
    gatherLoopOutcome e impl array aD aO aC out total vol last (fuel + 1) s
      = match carryLoop e aD aO aC e.dimension_count
            { readCoordinate := addw s.readCoordinate (subw s.linearReadCount 1)
              rollingMultiplyTargetCube := 1
              linearReadCount := 1
              linearRead := true } with
        | .error f =>
          { result := .error f
            out := out
            chunkBuffer :=
              writeBack s.chunkBuffer s.writeCoordinate
                (impl.copy e.compress_copy_callback s.linearReadCount e.scale_factor
                  e.add_offset (fun j => array (s.readCoordinate + j))
                  (fun j => s.chunkBuffer (s.writeCoordinate + j)))
            calls :=
              s.calls ++ [OmCall.copy s.linearReadCount s.readCoordinate s.writeCoordinate] }
        | .ok r =>
          if r.1 = true then
            if last = 0 then
              { result := .error OmFault.divisionByZero
                out := out
                chunkBuffer :=
                  writeBack s.chunkBuffer s.writeCoordinate
                    (impl.copy e.compress_copy_callback s.linearReadCount e.scale_factor
                      e.add_offset (fun j => array (s.readCoordinate + j))
                      (fun j => s.chunkBuffer (s.writeCoordinate + j)))
                calls :=
                  s.calls ++ [OmCall.copy s.linearReadCount s.readCoordinate s.writeCoordinate] }
            else
              { result :=
                  .ok (impl.compress e.compress_callback
                    (impl.filter e.compress_filter_callback (vol / last) last
                      (writeBack s.chunkBuffer s.writeCoordinate
                        (impl.copy e.compress_copy_callback s.linearReadCount e.scale_factor
                          e.add_offset (fun j => array (s.readCoordinate + j))
                          (fun j => s.chunkBuffer (s.writeCoordinate + j)))))
                    vol out).1
                out :=
                  (impl.compress e.compress_callback
                    (impl.filter e.compress_filter_callback (vol / last) last
                      (writeBack s.chunkBuffer s.writeCoordinate
                        (impl.copy e.compress_copy_callback s.linearReadCount e.scale_factor
                          e.add_offset (fun j => array (s.readCoordinate + j))
                          (fun j => s.chunkBuffer (s.writeCoordinate + j)))))
                    vol out).2
                chunkBuffer :=
                  impl.filter e.compress_filter_callback (vol / last) last
                    (writeBack s.chunkBuffer s.writeCoordinate
                      (impl.copy e.compress_copy_callback s.linearReadCount e.scale_factor
                        e.add_offset (fun j => array (s.readCoordinate + j))
                        (fun j => s.chunkBuffer (s.writeCoordinate + j))))
                calls :=
                  (s.calls
                      ++ [OmCall.copy s.linearReadCount s.readCoordinate s.writeCoordinate])
                    ++ [OmCall.filter (vol / last) last, OmCall.compress vol] }
          else
            gatherLoopOutcome e impl array aD aO aC out total vol last fuel
              { readCoordinate := r.2.readCoordinate
                writeCoordinate := addw (addw s.writeCoordinate (subw s.linearReadCount 1)) 1
                linearReadCount := r.2.linearReadCount
                chunkBuffer :=
                  writeBack s.chunkBuffer s.writeCoordinate
                    (impl.copy e.compress_copy_callback s.linearReadCount e.scale_factor
                      e.add_offset (fun j => array (s.readCoordinate + j))
                      (fun j => s.chunkBuffer (s.writeCoordinate + j)))
                calls :=
                  s.calls
                    ++ [OmCall.copy s.linearReadCount s.readCoordinate s.writeCoordinate] } := by
  conv_lhs => unfold gatherLoopOutcome
  rw [if_neg (not_not.mpr h1), if_neg (not_not.mpr h2)]
  dsimp only
  cases carryLoop e aD aO aC e.dimension_count
      { readCoordinate := addw s.readCoordinate (subw s.linearReadCount 1)
        rollingMultiplyTargetCube := 1
        linearReadCount := 1
        linearRead := true } with
  | error f => rfl
  | ok r =>
    dsimp only
    by_cases h3 : r.1 = true
    · rw [if_pos h3, if_pos h3]
      unfold divw
      by_cases h4 : last = 0
      · rw [if_pos h4, if_pos h4]
      · rw [if_neg h4, if_neg h4]
    · rw [if_neg h3, if_neg h3]

/-- What the gather loop leaves behind, however it ends: it has made at most
`fuel` scalar copies, each of them after both assertions held for it; when it
stops on a fault, `out` is as it was passed in and nothing but these copies has
been invoked; when it returns, the copies are followed by one filter and one
entropy invocation, and `out` and the byte count are what that entropy
invocation produced. -/
theorem gatherLoopOutcome_inv {F α β : Type} (e : OmEncoder_t F) (impl : OmCallbacks F α β)
    (array : Nat → α) (aD aO aC : List Nat) (out : Nat → Nat) (total vol last : Nat) :
    ∀ (fuel : Nat) (s : GatherState β),
      ∃ copies : List OmCall,
        (∀ c, c ∈ copies →
          ∃ n rc wc, c = OmCall.copy n rc wc ∧ addw rc n ≤ total ∧ addw wc n ≤ vol) ∧
        copies.length ≤ fuel ∧
        ((∃ f,
            (gatherLoopOutcome e impl array aD aO aC out total vol last fuel s).result
              = .error f ∧
            (gatherLoopOutcome e impl array aD aO aC out total vol last fuel s).out = out ∧
            (gatherLoopOutcome e impl array aD aO aC out total vol last fuel s).calls
              = s.calls ++ copies) ∨
          (∃ bytes,
            (gatherLoopOutcome e impl array aD aO aC out total vol last fuel s).result
              = .ok bytes ∧
            last ≠ 0 ∧ 1 ≤ copies.length ∧
            (gatherLoopOutcome e impl array aD aO aC out total vol last fuel s).calls
              = s.calls ++ copies ++ [OmCall.filter (vol / last) last, OmCall.compress vol] ∧
            (gatherLoopOutcome e impl array aD aO aC out total vol last fuel s).out
              = (impl.compress e.compress_callback
                  (gatherLoopOutcome e impl array aD aO aC out total vol last fuel s).chunkBuffer
                  vol out).2 ∧
            bytes
              = (impl.compress e.compress_callback
                  (gatherLoopOutcome e impl array aD aO aC out total vol last fuel s).chunkBuffer
                  vol out).1)) := by
  intro fuel
  induction fuel with
  | zero =>
    intro s
    refine ⟨[], fun c hc => absurd hc (List.not_mem_nil c), Nat.le_refl _, Or.inl ?_⟩
    exact ⟨OmFault.outOfFuel, rfl, rfl, (List.append_nil _).symm⟩
  | succ fuel ih =>
    intro s
    by_cases h1 : addw s.readCoordinate s.linearReadCount ≤ total
    · by_cases h2 : addw s.writeCoordinate s.linearReadCount ≤ vol
      · have hone : ∀ c, c ∈ [OmCall.copy s.linearReadCount s.readCoordinate s.writeCoordinate] →
            ∃ n rc wc, c = OmCall.copy n rc wc ∧ addw rc n ≤ total ∧ addw wc n ≤ vol := by
          intro c hc
          rw [List.mem_singleton] at hc
          exact ⟨_, _, _, hc, h1, h2⟩
        rw [gatherLoopOutcome_copied e impl array aD aO aC out total vol last fuel s h1 h2]
        cases carryLoop e aD aO aC e.dimension_count
            { readCoordinate := addw s.readCoordinate (subw s.linearReadCount 1)
              rollingMultiplyTargetCube := 1
              linearReadCount := 1
              linearRead := true } with
        | error f =>
          dsimp only
          exact ⟨_, hone, Nat.succ_le_succ (Nat.zero_le _), Or.inl ⟨f, rfl, rfl, rfl⟩⟩
        | ok r =>
          dsimp only
          by_cases h3 : r.1 = true
          · rw [if_pos h3]
            by_cases h4 : last = 0
            · rw [if_pos h4]
              exact ⟨_, hone, Nat.succ_le_succ (Nat.zero_le _),
                Or.inl ⟨OmFault.divisionByZero, rfl, rfl, rfl⟩⟩
            · rw [if_neg h4]
              exact ⟨_, hone, Nat.succ_le_succ (Nat.zero_le _),
                Or.inr ⟨_, rfl, h4, Nat.le_refl _, rfl, rfl, rfl⟩⟩
          · rw [if_neg h3]
            obtain ⟨copies, c1, c2, c3⟩ := ih
              { readCoordinate := r.2.readCoordinate
                writeCoordinate := addw (addw s.writeCoordinate (subw s.linearReadCount 1)) 1
                linearReadCount := r.2.linearReadCount
                chunkBuffer :=
                  writeBack s.chunkBuffer s.writeCoordinate
                    (impl.copy e.compress_copy_callback s.linearReadCount e.scale_factor
                      e.add_offset (fun j => array (s.readCoordinate + j))
                      (fun j => s.chunkBuffer (s.writeCoordinate + j)))
                calls :=
                  s.calls
                    ++ [OmCall.copy s.linearReadCount s.readCoordinate s.writeCoordinate] }
            refine ⟨OmCall.copy s.linearReadCount s.readCoordinate s.writeCoordinate :: copies,
              ?_, ?_, ?_⟩
            · intro c hc
              rcases List.mem_cons.mp hc with h0 | h0
              · exact ⟨_, _, _, h0, h1, h2⟩
              · exact c1 c h0
            · rw [List.length_cons]
              omega
            · rcases c3 with ⟨f, f1, f2, f3⟩ | ⟨bytes, b1, b2, b3, b4, b5, b6⟩
              · refine Or.inl ⟨f, f1, f2, ?_⟩
                rw [f3]
                simp only [List.append_assoc, List.singleton_append, List.cons_append,
                  List.nil_append]
              · refine Or.inr ⟨bytes, b1, b2, ?_, ?_, b5, b6⟩
                · rw [List.length_cons]
                  omega
                · rw [b4]
                  simp only [List.append_assoc, List.singleton_append, List.cons_append, List.nil_append]
      · rw [gatherLoopOutcome_write_fault e impl array aD aO aC out total vol last fuel s h1 h2]
        exact ⟨[], fun c hc => absurd hc (List.not_mem_nil c), Nat.zero_le _,
          Or.inl ⟨OmFault.assertWriteInBounds, rfl, rfl, (List.append_nil _).symm⟩⟩
    · rw [gatherLoopOutcome_read_fault e impl array aD aO aC out total vol last fuel s h1]
      exact ⟨[], fun c hc => absurd hc (List.not_mem_nil c), Nat.zero_le _,
        Or.inl ⟨OmFault.assertReadInBounds, rfl, rfl, (List.append_nil _).symm⟩⟩

/-- An iteration that goes round again is the same in both embeddings. -/
theorem gatherLoopOutcome_continue {F α β : Type} (e : OmEncoder_t F)
    (impl : OmCallbacks F α β) (array : Nat → α) (aD aO aC : List Nat) (out : Nat → Nat)
    (total vol last fuel : Nat) (s s2 : GatherState β)
    (h : gatherStep e impl array aD aO aC out total vol last s = .ok (Sum.inr s2)) :
    gatherLoopOutcome e impl array aD aO aC out total vol last (fuel + 1) s
      = gatherLoopOutcome e impl array aD aO aC out total vol last fuel s2 := by
  obtain ⟨h1, h2, _, _⟩ := gatherStep_next e impl array aD aO aC out total vol last s s2 h
  rw [gatherLoopOutcome_copied e impl array aD aO aC out total vol last fuel s h1 h2]
  rw [gatherStep_eval, if_neg (not_not.mpr h1), if_neg (not_not.mpr h2)] at h
  generalize carryLoop e aD aO aC e.dimension_count
      { readCoordinate := addw s.readCoordinate (subw s.linearReadCount 1)
        rollingMultiplyTargetCube := 1
        linearReadCount := 1
        linearRead := true } = c at h ⊢
  cases c with
  | error f => cases h
  | ok r =>
    dsimp only at h ⊢
    by_cases h3 : r.1 = true
    · rw [if_pos h3] at h
      by_cases h4 : last = 0
      · rw [if_pos h4] at h
        cases h
      · rw [if_neg h4] at h
        cases h
    · rw [if_neg h3] at h
      rw [if_neg h3]
      have hs2 := Sum.inr.inj (Except.ok.inj h)
      rw [hs2]

/-- The outcome embedding and `OmEncoder_compressChunk` agree: the same byte
count or the same fault, and for a call that returns the same memory and the
same invocations. -/
theorem gatherLoopOutcome_result {F α β : Type} (e : OmEncoder_t F) (impl : OmCallbacks F α β)
    (array : Nat → α) (aD aO aC : List Nat) (out : Nat → Nat) (total vol last : Nat) :
    ∀ (fuel : Nat) (s : GatherState β),
      (gatherLoopOutcome e impl array aD aO aC out total vol last fuel s).result
        = (gatherLoop e impl array aD aO aC out total vol last fuel s).map ChunkResult.bytes ∧
      (∀ r, gatherLoop e impl array aD aO aC out total vol last fuel s = .ok r →
        (gatherLoopOutcome e impl array aD aO aC out total vol last fuel s).out = r.out ∧
        (gatherLoopOutcome e impl array aD aO aC out total vol last fuel s).chunkBuffer
          = r.chunkBuffer ∧
        (gatherLoopOutcome e impl array aD aO aC out total vol last fuel s).calls = r.calls) := by
  intro fuel
  induction fuel with
  | zero =>
    intro s
    exact ⟨rfl, fun r hr => by cases hr⟩
  | succ fuel ih =>
    intro s
    rw [gatherLoop_step]
    have hstep := gatherStep_eval e impl array aD aO aC out total vol last s
    by_cases h1 : addw s.readCoordinate s.linearReadCount ≤ total
    · by_cases h2 : addw s.writeCoordinate s.linearReadCount ≤ vol
      · rw [if_neg (not_not.mpr h1), if_neg (not_not.mpr h2)] at hstep
        rw [gatherLoopOutcome_copied e impl array aD aO aC out total vol last fuel s h1 h2]
        generalize carryLoop e aD aO aC e.dimension_count
            { readCoordinate := addw s.readCoordinate (subw s.linearReadCount 1)
              rollingMultiplyTargetCube := 1
              linearReadCount := 1
              linearRead := true } = c at hstep ⊢
        cases c with
        | error f =>
          dsimp only at hstep ⊢
          rw [hstep]
          exact ⟨rfl, fun r hr => by cases hr⟩
        | ok c =>
          dsimp only at hstep ⊢
          by_cases h3 : c.1 = true
          · rw [if_pos h3] at hstep
            rw [if_pos h3]
            by_cases h4 : last = 0
            · rw [if_pos h4] at hstep
              rw [if_pos h4, hstep]
              exact ⟨rfl, fun r hr => by cases hr⟩
            · rw [if_neg h4] at hstep
              rw [if_neg h4, hstep]
              refine ⟨rfl, fun r hr => ?_⟩
              have := Except.ok.inj hr
              rw [← this]
              exact ⟨rfl, rfl, rfl⟩
          · rw [if_neg h3] at hstep
            rw [if_neg h3, hstep]
            exact ih _
      · rw [if_neg (not_not.mpr h1), if_pos h2] at hstep
        rw [gatherLoopOutcome_write_fault e impl array aD aO aC out total vol last fuel s h1 h2,
          hstep]
        exact ⟨rfl, fun r hr => by cases hr⟩
    · rw [if_pos h1] at hstep
      rw [gatherLoopOutcome_read_fault e impl array aD aO aC out total vol last fuel s h1, hstep]
      exact ⟨rfl, fun r hr => by cases hr⟩

/-- When the read assertion is violated at the start of iteration `k`, the call
stops there: the memory and the invocations are those of the start of that
iteration, which are `k` copies that each passed the assertion. -/
theorem gatherIter_read_fault {F α β : Type} (e : OmEncoder_t F) (impl : OmCallbacks F α β)
    (array : Nat → α) (aD aO aC : List Nat) (out : Nat → Nat) (total vol last : Nat) :
    ∀ (k : Nat) (s sk : GatherState β) (fuel : Nat),
      gatherIter e impl array aD aO aC out total vol last k s = some sk →
      ¬ addw sk.readCoordinate sk.linearReadCount ≤ total →
      k < fuel →
      gatherLoopOutcome e impl array aD aO aC out total vol last fuel s
        = { result := .error OmFault.assertReadInBounds, out := out,
            chunkBuffer := sk.chunkBuffer, calls := sk.calls } ∧
      ∃ copies : List OmCall,
        copies.length = k ∧ sk.calls = s.calls ++ copies ∧
        ∀ c, c ∈ copies → ∃ n rc wc, c = OmCall.copy n rc wc ∧ addw rc n ≤ total := by
  intro k
  induction k with
  | zero =>
    intro s sk fuel hiter hbad hk
    have hs : s = sk := Option.some.inj hiter
    rw [← hs] at hbad ⊢
    obtain ⟨m, hm⟩ : ∃ m, fuel = m + 1 := ⟨fuel - 1, by omega⟩
    rw [hm]
    exact ⟨gatherLoopOutcome_read_fault e impl array aD aO aC out total vol last m s hbad,
      [], rfl, (List.append_nil _).symm, fun c hc => absurd hc (List.not_mem_nil c)⟩
  | succ k ih =>
    intro s sk fuel hiter hbad hk
    obtain ⟨m, hm⟩ : ∃ m, fuel = m + 1 := ⟨fuel - 1, by omega⟩
    rw [hm]
    unfold gatherIter at hiter
    cases hstep : gatherStep e impl array aD aO aC out total vol last s with
    | error f =>
      rw [hstep] at hiter
      cases hiter
    | ok x =>
      rw [hstep] at hiter
      cases x with
      | inl r => cases hiter
      | inr s2 =>
        dsimp only at hiter
        obtain ⟨h1, _, h3, _⟩ := gatherStep_next e impl array aD aO aC out total vol last s s2 hstep
        obtain ⟨i1, copies, c1, c2, c3⟩ := ih s2 sk m hiter hbad (by omega)
        rw [gatherLoopOutcome_continue e impl array aD aO aC out total vol last m s s2 hstep]
        refine ⟨i1, OmCall.copy s.linearReadCount s.readCoordinate s.writeCoordinate :: copies,
          ?_, ?_, ?_⟩
        · rw [List.length_cons, c1]
        · rw [c2, h3]
          simp only [List.append_assoc, List.singleton_append, List.cons_append,
            List.nil_append]
        · intro c hc
          rcases List.mem_cons.mp hc with h0 | h0
          · exact ⟨_, _, _, h0, h1⟩
          · exact c3 c h0

theorem compressChunkOutcome_setup_fault {F α β : Type} (e : OmEncoder_t F)
    (impl : OmCallbacks F α β) (array : Nat → α) (aD aO aC : List Nat) (ci co : Nat)
    (out : Nat → Nat) (b : Nat → β) (fuel : Nat) (f : OmFault)
    (hsetup : setupLoop e aD aO aC ci co e.dimension_count setupInit = .error f) :
    compressChunkOutcome e impl array aD aO aC ci co out b fuel
      = { result := .error f, out := out, chunkBuffer := b, calls := [] } := by
  unfold compressChunkOutcome
  rw [hsetup]

theorem compressChunkOutcome_eq_gather {F α β : Type} (e : OmEncoder_t F)
    (impl : OmCallbacks F α β) (array : Nat → α) (aD aO aC : List Nat) (ci co : Nat)
    (out : Nat → Nat) (b : Nat → β) (fuel : Nat) (st : SetupState)
    (hsetup : setupLoop e aD aO aC ci co e.dimension_count setupInit = .ok st) :
    compressChunkOutcome e impl array aD aO aC ci co out b fuel
      = gatherLoopOutcome e impl array aD aO aC out
          (arrayTotalCountLoop e.dimension_count aD) st.rollingMultiplyChunkLength
          st.lengthLast fuel
          { readCoordinate := st.readCoordinate
            writeCoordinate := 0
            linearReadCount := st.linearReadCount
            chunkBuffer := b
            calls := [] } := by
  unfold compressChunkOutcome
  rw [hsetup]

/-- The outcome embedding agrees with `OmEncoder_compressChunk` on the returned
byte count and on the fault. -/
theorem compressChunkOutcome_result {F α β : Type} (e : OmEncoder_t F)
    (impl : OmCallbacks F α β) (array : Nat → α) (aD aO aC : List Nat) (ci co : Nat)
    (out : Nat → Nat) (b : Nat → β) (fuel : Nat) :
    (compressChunkOutcome e impl array aD aO aC ci co out b fuel).result
      = (OmEncoder_compressChunk e impl array aD aO aC ci co out b fuel).map
          ChunkResult.bytes := by
  cases hsetup : setupLoop e aD aO aC ci co e.dimension_count setupInit with
  | error f =>
    rw [compressChunkOutcome_setup_fault e impl array aD aO aC ci co out b fuel f hsetup]
    unfold OmEncoder_compressChunk
    rw [hsetup]
    rfl
  | ok st =>
    rw [compressChunkOutcome_eq_gather e impl array aD aO aC ci co out b fuel st hsetup,
      compressChunk_eq_gather e impl array aD aO aC ci co out b fuel st hsetup]
    exact (gatherLoopOutcome_result e impl array aD aO aC out _ _ _ fuel _).1

/-- What a call leaves behind, however it ends: the scalar copies it has made
each passed the read assertion; a call that stops on a fault leaves `out` as it
was passed in and has invoked nothing but these copies; a call that returns has
invoked, after the copies, the filter once and the entropy coder once, and
`out` and the byte count are what that entropy invocation produced. -/
theorem compressChunkOutcome_inv {F α β : Type} (e : OmEncoder_t F)
    (impl : OmCallbacks F α β) (array : Nat → α) (aD aO aC : List Nat) (ci co : Nat)
    (out : Nat → Nat) (b : Nat → β) (fuel : Nat) :
    ∃ copies : List OmCall,
      (∀ c, c ∈ copies → ∃ n rc wc, c = OmCall.copy n rc wc
        ∧ addw rc n ≤ arrayTotalCountLoop e.dimension_count aD) ∧
      ((∃ f,
          (compressChunkOutcome e impl array aD aO aC ci co out b fuel).result = .error f ∧
          (compressChunkOutcome e impl array aD aO aC ci co out b fuel).out = out ∧
          (compressChunkOutcome e impl array aD aO aC ci co out b fuel).calls = copies) ∨
        (∃ (bytes rows cols lengthInChunk : Nat),
          (compressChunkOutcome e impl array aD aO aC ci co out b fuel).result = .ok bytes ∧
          (compressChunkOutcome e impl array aD aO aC ci co out b fuel).calls
            = copies ++ [OmCall.filter rows cols, OmCall.compress lengthInChunk] ∧
          (compressChunkOutcome e impl array aD aO aC ci co out b fuel).out
            = (impl.compress e.compress_callback
                (compressChunkOutcome e impl array aD aO aC ci co out b fuel).chunkBuffer
                lengthInChunk out).2 ∧
          bytes
            = (impl.compress e.compress_callback
                (compressChunkOutcome e impl array aD aO aC ci co out b fuel).chunkBuffer
                lengthInChunk out).1)) := by
  cases hsetup : setupLoop e aD aO aC ci co e.dimension_count setupInit with
  | error f =>
    rw [compressChunkOutcome_setup_fault e impl array aD aO aC ci co out b fuel f hsetup]
    exact ⟨[], fun c hc => absurd hc (List.not_mem_nil c), Or.inl ⟨f, rfl, rfl, rfl⟩⟩
  | ok st =>
    rw [compressChunkOutcome_eq_gather e impl array aD aO aC ci co out b fuel st hsetup]
    obtain ⟨copies, c1, _, c3⟩ := gatherLoopOutcome_inv e impl array aD aO aC out
      (arrayTotalCountLoop e.dimension_count aD) st.rollingMultiplyChunkLength st.lengthLast fuel
      { readCoordinate := st.readCoordinate
        writeCoordinate := 0
        linearReadCount := st.linearReadCount
        chunkBuffer := b
        calls := [] }
    refine ⟨copies, fun c hc => ?_, ?_⟩
    · obtain ⟨n, rc, wc, h1, h2, _⟩ := c1 c hc
      exact ⟨n, rc, wc, h1, h2⟩
    · rcases c3 with ⟨f, f1, f2, f3⟩ | ⟨bytes, b1, _, _, b4, b5, b6⟩
      · exact Or.inl ⟨f, f1, f2, by rw [f3]; rfl⟩
      · exact Or.inr ⟨bytes, _, _, _, b1, by rw [b4]; rfl, b5, b6⟩

/-! ## The read assertion and the output buffer -/

/-- C15 (amended): `compressChunkOutcome` is `OmEncoder_compressChunk` with the
memory and the callback invocations kept also when the call stops (first
conjunct: same byte count, same fault). Whenever at the start of iteration `k`
of the gather loop the `size_t` sum `readCoordinate + linearReadCount` that the
assertion evaluates exceeds `arrayTotalCount` (third conjunct: in particular
whenever the exact sum is below `2 ^ 64` and exceeds it), the call stops there
with the read assertion: the scratch buffer is the one iteration `k` started
with, the invocations made are exactly the `k` scalar copies of the iterations
before, each of which had passed the assertion, and `out` is the buffer passed
in. Whatever stops a call, `out` is as passed in and nothing but scalar copies
that passed the assertion has been invoked; a call that returns has invoked,
after such copies, the filter once and then the entropy coder once, and `out`
and the byte count are the results of that one entropy invocation. -/
theorem OmEncoder_compressChunk_read_fault_before_output {F α β : Type} (e : OmEncoder_t F)
    (impl : OmCallbacks F α β) (array : Nat → α) (aD aO aC : List Nat) (ci co : Nat)
    (out : Nat → Nat) (b : Nat → β) (fuel : Nat) :
    (compressChunkOutcome e impl array aD aO aC ci co out b fuel).result
      = (OmEncoder_compressChunk e impl array aD aO aC ci co out b fuel).map
          ChunkResult.bytes ∧
    (∀ (st : SetupState) (k : Nat) (sk : GatherState β),
      setupLoop e aD aO aC ci co e.dimension_count setupInit = .ok st →
      gatherIter e impl array aD aO aC out (arrayTotalCountLoop e.dimension_count aD)
          st.rollingMultiplyChunkLength st.lengthLast k
          { readCoordinate := st.readCoordinate
            writeCoordinate := 0
            linearReadCount := st.linearReadCount
            chunkBuffer := b
            calls := [] } = some sk →
      ¬ addw sk.readCoordinate sk.linearReadCount ≤ arrayTotalCountLoop e.dimension_count aD →
      k < fuel →
      compressChunkOutcome e impl array aD aO aC ci co out b fuel
        = { result := .error OmFault.assertReadInBounds, out := out,
            chunkBuffer := sk.chunkBuffer, calls := sk.calls } ∧
      OmEncoder_compressChunk e impl array aD aO aC ci co out b fuel
        = .error OmFault.assertReadInBounds ∧
      sk.calls.length = k ∧
      ∀ c, c ∈ sk.calls → ∃ n rc wc, c = OmCall.copy n rc wc
        ∧ addw rc n ≤ arrayTotalCountLoop e.dimension_count aD) ∧
    (∀ (st : SetupState) (k : Nat) (sk : GatherState β),
      setupLoop e aD aO aC ci co e.dimension_count setupInit = .ok st →
      gatherIter e impl array aD aO aC out (arrayTotalCountLoop e.dimension_count aD)
          st.rollingMultiplyChunkLength st.lengthLast k
          { readCoordinate := st.readCoordinate
            writeCoordinate := 0
            linearReadCount := st.linearReadCount
            chunkBuffer := b
            calls := [] } = some sk →
      sk.readCoordinate + sk.linearReadCount < sizeMod →
      arrayTotalCountLoop e.dimension_count aD < sk.readCoordinate + sk.linearReadCount →
      k < fuel →
      compressChunkOutcome e impl array aD aO aC ci co out b fuel
        = { result := .error OmFault.assertReadInBounds, out := out,
            chunkBuffer := sk.chunkBuffer, calls := sk.calls } ∧
      OmEncoder_compressChunk e impl array aD aO aC ci co out b fuel
        = .error OmFault.assertReadInBounds) ∧
    (∃ copies : List OmCall,
      (∀ c, c ∈ copies → ∃ n rc wc, c = OmCall.copy n rc wc
        ∧ addw rc n ≤ arrayTotalCountLoop e.dimension_count aD) ∧
      ((∃ f,
          (compressChunkOutcome e impl array aD aO aC ci co out b fuel).result = .error f ∧
          (compressChunkOutcome e impl array aD aO aC ci co out b fuel).out = out ∧
          (compressChunkOutcome e impl array aD aO aC ci co out b fuel).calls = copies) ∨
        (∃ (bytes rows cols lengthInChunk : Nat),
          (compressChunkOutcome e impl array aD aO aC ci co out b fuel).result = .ok bytes ∧
          (compressChunkOutcome e impl array aD aO aC ci co out b fuel).calls
            = copies ++ [OmCall.filter rows cols, OmCall.compress lengthInChunk] ∧
          (compressChunkOutcome e impl array aD aO aC ci co out b fuel).out
            = (impl.compress e.compress_callback
                (compressChunkOutcome e impl array aD aO aC ci co out b fuel).chunkBuffer
                lengthInChunk out).2 ∧
          bytes
            = (impl.compress e.compress_callback
                (compressChunkOutcome e impl array aD aO aC ci co out b fuel).chunkBuffer
                lengthInChunk out).1))) := by
  have hres := compressChunkOutcome_result e impl array aD aO aC ci co out b fuel
  have hfault : ∀ (st : SetupState) (k : Nat) (sk : GatherState β),
      setupLoop e aD aO aC ci co e.dimension_count setupInit = .ok st →
      gatherIter e impl array aD aO aC out (arrayTotalCountLoop e.dimension_count aD)
          st.rollingMultiplyChunkLength st.lengthLast k
          { readCoordinate := st.readCoordinate
            writeCoordinate := 0
            linearReadCount := st.linearReadCount
            chunkBuffer := b
            calls := [] } = some sk →
      ¬ addw sk.readCoordinate sk.linearReadCount ≤ arrayTotalCountLoop e.dimension_count aD →
      k < fuel →
      compressChunkOutcome e impl array aD aO aC ci co out b fuel
        = { result := .error OmFault.assertReadInBounds, out := out,
            chunkBuffer := sk.chunkBuffer, calls := sk.calls } ∧
      OmEncoder_compressChunk e impl array aD aO aC ci co out b fuel
        = .error OmFault.assertReadInBounds ∧
      sk.calls.length = k ∧
      ∀ c, c ∈ sk.calls → ∃ n rc wc, c = OmCall.copy n rc wc
        ∧ addw rc n ≤ arrayTotalCountLoop e.dimension_count aD := by
    intro st k sk hsetup hiter hbad hk
    obtain ⟨h1, copies, h2, h3, h4⟩ := gatherIter_read_fault e impl array aD aO aC out
      (arrayTotalCountLoop e.dimension_count aD) st.rollingMultiplyChunkLength st.lengthLast
      k _ sk fuel hiter hbad hk
    have hO : compressChunkOutcome e impl array aD aO aC ci co out b fuel
        = { result := .error OmFault.assertReadInBounds, out := out,
            chunkBuffer := sk.chunkBuffer, calls := sk.calls } := by
      rw [compressChunkOutcome_eq_gather e impl array aD aO aC ci co out b fuel st hsetup]
      exact h1
    have hcalls : sk.calls = copies := by
      rw [h3]
      rfl
    refine ⟨hO, ?_, ?_, ?_⟩
    · rw [hO] at hres
      cases hc : OmEncoder_compressChunk e impl array aD aO aC ci co out b fuel with
      | error f =>
        rw [hc] at hres
        cases hres
        rfl
      | ok r =>
        rw [hc] at hres
        cases hres
    · rw [hcalls]
      exact h2
    · rw [hcalls]
      exact h4
  refine ⟨hres, hfault, ?_, compressChunkOutcome_inv e impl array aD aO aC ci co out b fuel⟩
  intro st k sk hsetup hiter hlt hpast hk
  have hadd : addw sk.readCoordinate sk.linearReadCount
      = sk.readCoordinate + sk.linearReadCount := Nat.mod_eq_of_lt hlt
  have hbad : ¬ addw sk.readCoordinate sk.linearReadCount
      ≤ arrayTotalCountLoop e.dimension_count aD := by
    rw [hadd]
    omega
  obtain ⟨h1, h2, _, _⟩ := hfault st k sk hsetup hiter hbad hk
  exact ⟨h1, h2⟩

theorem OmEncoder_compressChunk_read_fault_before_output_witness :
    setupLoop (pforEncoder [6] [3]) [6] [3] [3] 1 0 (pforEncoder [6] [3]).dimension_count
        setupInit
      = .ok { rollingMultiply := 2, rollingMultiplyChunkLength := 3,
              rollingMultiplyTargetCube := 6, readCoordinate := 3, linearReadCount := 3,
              linearRead := false, lengthLast := 3 } ∧
    gatherIter (pforEncoder [6] [3]) plainCallbacks (fun j => 1000 + j) [6] [3] [3]
        (fun _ => 0) (arrayTotalCountLoop (pforEncoder [6] [3]).dimension_count [6]) 3 3 1
        { readCoordinate := 3, writeCoordinate := 0, linearReadCount := 3,
          chunkBuffer := fun _ => 7, calls := [] }
      = some { readCoordinate := 6, writeCoordinate := 3, linearReadCount := 3
               chunkBuffer := writeBack (fun _ => 7) 0
                 (scalarCopy id 3 (fun j => 1000 + (3 + j)) (fun _ => 7))
               calls := [OmCall.copy 3 3 0] } ∧
    arrayTotalCountLoop (pforEncoder [6] [3]).dimension_count [6] < 6 + 3 ∧
    compressChunkOutcome (pforEncoder [6] [3]) plainCallbacks (fun j => 1000 + j) [6] [3] [3]
        1 0 (fun _ => 0) (fun _ => 7) 5
      = { result := .error OmFault.assertReadInBounds, out := fun _ => 0
          chunkBuffer := writeBack (fun _ => 7) 0
            (scalarCopy id 3 (fun j => 1000 + (3 + j)) (fun _ => 7))
          calls := [OmCall.copy 3 3 0] } ∧
    OmEncoder_compressChunk (pforEncoder [6] [3]) plainCallbacks (fun j => 1000 + j) [6] [3]
        [3] 1 0 (fun _ => 0) (fun _ => 7) 5
      = .error OmFault.assertReadInBounds :=
  ⟨rfl, rfl, by decide,
    ((OmEncoder_compressChunk_read_fault_before_output (pforEncoder [6] [3]) plainCallbacks
      (fun j => 1000 + j) [6] [3] [3] 1 0 (fun _ => 0) (fun _ => 7) 5).2.2.1
      { rollingMultiply := 2, rollingMultiplyChunkLength := 3,
        rollingMultiplyTargetCube := 6, readCoordinate := 3, linearReadCount := 3,
        linearRead := false, lengthLast := 3 }
      1
      { readCoordinate := 6, writeCoordinate := 3, linearReadCount := 3
        chunkBuffer := writeBack (fun _ => 7) 0
          (scalarCopy id 3 (fun j => 1000 + (3 + j)) (fun _ => 7))
        calls := [OmCall.copy 3 3 0] }
      rfl rfl (by decide) (by decide) (by decide)).1,
    ((OmEncoder_compressChunk_read_fault_before_output (pforEncoder [6] [3]) plainCallbacks
      (fun j => 1000 + j) [6] [3] [3] 1 0 (fun _ => 0) (fun _ => 7) 5).2.1
      { rollingMultiply := 2, rollingMultiplyChunkLength := 3,
        rollingMultiplyTargetCube := 6, readCoordinate := 3, linearReadCount := 3,
        linearRead := false, lengthLast := 3 }
      1
      { readCoordinate := 6, writeCoordinate := 3, linearReadCount := 3
        chunkBuffer := writeBack (fun _ => 7) 0
          (scalarCopy id 3 (fun j => 1000 + (3 + j)) (fun _ => 7))
        calls := [OmCall.copy 3 3 0] }
      rfl rfl (by decide) (by decide)).2.1⟩

/-- C15 as stated fails: `dimensions = [3]`, `chunks = [3]`, chunk `0`, source
array of shape `[3]` (`arrayTotalCount = 3`) with `arrayOffset = [2 ^ 64 - 1]`
and `arrayCount = [3]`. The `size_t` sums of the assertions wrap, so the one
iteration of the gather loop is entered with `readCoordinate = 2 ^ 64 - 1` and
`linearReadCount = 3`, whose sum exceeds `arrayTotalCount`; the scalar copy of
three elements from `array[2 ^ 64 - 1]` on is made, the filter and the entropy
coder run, and the call returns three bytes instead of reporting the read. -/
theorem OmEncoder_compressChunk_read_fault_before_output_counterexample :
    arrayTotalCountLoop (pforEncoder [3] [3]).dimension_count [3] = 3 ∧
    setupLoop (pforEncoder [3] [3]) [3] [18446744073709551615] [3] 0 0
        (pforEncoder [3] [3]).dimension_count setupInit
      = .ok { rollingMultiply := 1, rollingMultiplyChunkLength := 3,
              rollingMultiplyTargetCube := 3, readCoordinate := 18446744073709551615,
              linearReadCount := 3, linearRead := true, lengthLast := 3 } ∧
    3 < 18446744073709551615 + 3 ∧
    OmEncoder_compressChunk (pforEncoder [3] [3]) plainCallbacks (fun j => 1000 + j) [3]
        [18446744073709551615] [3] 0 0 (fun _ => 0) (fun _ => 7) 1
      ≠ .error OmFault.assertReadInBounds ∧
    (compressChunkOutcome (pforEncoder [3] [3]) plainCallbacks (fun j => 1000 + j) [3]
        [18446744073709551615] [3] 0 0 (fun _ => 0) (fun _ => 7) 1).result = .ok 3 ∧
    (compressChunkOutcome (pforEncoder [3] [3]) plainCallbacks (fun j => 1000 + j) [3]
        [18446744073709551615] [3] 0 0 (fun _ => 0) (fun _ => 7) 1).calls
      = [OmCall.copy 3 18446744073709551615 0, OmCall.filter 1 3, OmCall.compress 3] ∧
    (compressChunkOutcome (pforEncoder [3] [3]) plainCallbacks (fun j => 1000 + j) [3]
        [18446744073709551615] [3] 0 0 (fun _ => 0) (fun _ => 7) 1).out 0 ≠ 0 := by
  refine ⟨rfl, rfl, by decide, ?_, rfl, by decide, ?_⟩
  · intro h
    have hres : (compressChunkOutcome (pforEncoder [3] [3]) plainCallbacks (fun j => 1000 + j)
        [3] [18446744073709551615] [3] 0 0 (fun _ => 0) (fun _ => 7) 1).result = .ok 3 := rfl
    rw [compressChunkOutcome_result, h] at hres
    cases hres
  · decide

/-! ## The chunk grid is a partition of the array -/

theorem sum_range_mul_block (G : Nat → Nat) (P : Nat) :
    ∀ a, ∑ m in Finset.range (a * P), G m
      = ∑ x in Finset.range a, ∑ b in Finset.range P, G (x * P + b) := by
  intro a
  induction a with
  | zero => simp
  | succ a ih =>
    rw [Nat.succ_mul, Finset.sum_range_add, ih, Finset.sum_range_succ]

theorem digit_of_block (f : Nat → Nat) (d : Nat) (hf : ∀ i, i < d → 1 ≤ f i) {k0 i : Nat}
    (hki : k0 < i) (hid : i < d) (a b : Nat) :
    ((a * ∏ l in Finset.Ico (k0 + 1) d, f l + b) / ∏ l in Finset.Ico (i + 1) d, f l) % f i
      = (b / ∏ l in Finset.Ico (i + 1) d, f l) % f i := by
  have hQ : 0 < ∏ l in Finset.Ico (i + 1) d, f l := prodIco_pos f (i + 1) d hf
  have hsplit : ∏ l in Finset.Ico (k0 + 1) d, f l
      = (∏ l in Finset.Ico (k0 + 1) i, f l) * (f i * ∏ l in Finset.Ico (i + 1) d, f l) := by
    rw [← prodIco_succ f hid]
    exact (Finset.prod_Ico_consecutive f (by omega) (by omega)).symm
  have hform : a * ∏ l in Finset.Ico (k0 + 1) d, f l + b
      = b + (a * (∏ l in Finset.Ico (k0 + 1) i, f l) * f i)
        * ∏ l in Finset.Ico (i + 1) d, f l := by
    rw [hsplit]
    ring
  rw [hform, Nat.add_mul_div_right _ _ hQ, Nat.add_mul_mod_self_right]

theorem sum_prod_digits (f : Nat → Nat) (g : Nat → Nat → Nat) (d : Nat)
    (hf : ∀ i, i < d → 1 ≤ f i) :
    ∀ t k0, k0 + t = d →
      ∑ m in Finset.range (∏ j in Finset.Ico k0 d, f j),
          ∏ i in Finset.Ico k0 d, g i ((m / ∏ l in Finset.Ico (i + 1) d, f l) % f i)
        = ∏ i in Finset.Ico k0 d, ∑ c in Finset.range (f i), g i c := by
  intro t
  induction t with
  | zero =>
    intro k0 hk
    have : k0 = d := by omega
    subst this
    simp
  | succ t ih =>
    intro k0 hk
    have hlt : k0 < d := by omega
    have hP : 0 < ∏ l in Finset.Ico (k0 + 1) d, f l := prodIco_pos f (k0 + 1) d hf
    rw [prodIco_succ f hlt, sum_range_mul_block, Finset.prod_eq_prod_Ico_succ_bot hlt,
      ← ih (k0 + 1) (by omega), Finset.sum_mul]
    refine Finset.sum_congr rfl (fun a ha => ?_)
    rw [Finset.mul_sum]
    refine Finset.sum_congr rfl (fun b hb => ?_)
    have ha2 := Finset.mem_range.mp ha
    have hb2 := Finset.mem_range.mp hb
    rw [Finset.prod_eq_prod_Ico_succ_bot hlt, block_div hb2, Nat.mod_eq_of_lt ha2]
    congr 1
    refine Finset.prod_congr rfl (fun i hi => ?_)
    have hi2 := Finset.mem_Ico.mp hi
    rw [digit_of_block f d hf (by omega) hi2.2 a b]

theorem sum_axis_lengths (dim ch : Nat) (hc : 1 ≤ ch) :
    ∑ c in Finset.range ((dim + ch - 1) / ch), (min ((c + 1) * ch) dim - c * ch) = dim := by
  have key : ∀ m, m ≤ (dim + ch - 1) / ch →
      ∑ c in Finset.range m, (min ((c + 1) * ch) dim - c * ch) = min (m * ch) dim := by
    intro m
    induction m with
    | zero =>
      intro _
      simp
    | succ m ih =>
      intro hm
      rw [Finset.sum_range_succ, ih (by omega)]
      have h1 : (m + 1) * ch ≤ dim + ch - 1 := (Nat.le_div_iff_mul_le (by omega)).mp hm
      have h2 : (m + 1) * ch = m * ch + ch := Nat.succ_mul m ch
      rw [h2] at h1 ⊢
      omega
  rw [key _ (le_refl _)]
  have h3 := Nat.div_add_mod (dim + ch - 1) ch
  have h4 := Nat.mod_lt (dim + ch - 1) (show 0 < ch by omega)
  have h5 : (dim + ch - 1) / ch * ch = ch * ((dim + ch - 1) / ch) := Nat.mul_comm _ _
  rw [h5]
  omega

theorem sum_packedVolume {F : Type} (e : OmEncoder_t F)
    (hdims : ∀ i, i < e.dimension_count → 1 ≤ e.dimensions.getD i 0)
    (hchunks : ∀ i, i < e.dimension_count → 1 ≤ e.chunks.getD i 0) :
    ∑ k in Finset.range (chunkCount e), packedVolume e k
      = ∏ i in Finset.range e.dimension_count, e.dimensions.getD i 0 := by
  have hf : ∀ i, i < e.dimension_count → 1 ≤ nChunks e i :=
    fun i hi => nChunks_pos e i (hdims i hi) (hchunks i hi)
  have h := sum_prod_digits (nChunks e)
    (fun i c => min ((c + 1) * e.chunks.getD i 0) (e.dimensions.getD i 0) - c * e.chunks.getD i 0)
    e.dimension_count hf e.dimension_count 0 (Nat.zero_add _)
  rw [prodIco_zero] at h
  have hsum : ∑ k in Finset.range (chunkCount e), packedVolume e k
      = ∑ m in Finset.range (∏ j in Finset.range e.dimension_count, nChunks e j),
          ∏ i in Finset.Ico 0 e.dimension_count,
            (fun i c =>
              min ((c + 1) * e.chunks.getD i 0) (e.dimensions.getD i 0) - c * e.chunks.getD i 0)
              i ((m / ∏ l in Finset.Ico (i + 1) e.dimension_count, nChunks e l) % nChunks e i) := by
    refine Finset.sum_congr rfl (fun k _ => ?_)
    rw [prodIco_zero]
    rfl
  rw [hsum, h, prodIco_zero]
  refine Finset.prod_congr rfl (fun i hi => ?_)
  exact sum_axis_lengths _ _ (hchunks i (Finset.mem_range.mp hi))

/-- Every point of the chunk grid is the decoding of exactly one chunk index
below the chunk count. -/
theorem chunkIndex_of_coords {F : Type} (e : OmEncoder_t F)
    (hdims : ∀ i, i < e.dimension_count → 1 ≤ e.dimensions.getD i 0)
    (hchunks : ∀ i, i < e.dimension_count → 1 ≤ e.chunks.getD i 0)
    (c : Nat → Nat) (hc : ∀ i, i < e.dimension_count → c i < nChunks e i) :
    ∃ k, k < chunkCount e ∧ (∀ i, i < e.dimension_count → chunkCoord e k i = c i) ∧
      ∀ k2, k2 < chunkCount e → (∀ i, i < e.dimension_count → chunkCoord e k2 i = c i) →
        k2 = k := by
  have hf : ∀ i, i < e.dimension_count → 1 ≤ nChunks e i :=
    fun i hi => nChunks_pos e i (hdims i hi) (hchunks i hi)
  refine ⟨∑ j in Finset.range e.dimension_count,
    c j * ∏ l in Finset.Ico (j + 1) e.dimension_count, nChunks e l, ?_, ?_, ?_⟩
  · rw [← horner_eq_sum]
    exact hornerIndex_lt (nChunks e) c e.dimension_count hc
  · intro i hi
    exact digit_of_index (nChunks e) c e.dimension_count hc hi
  · intro k2 hk2 hco
    have h := index_of_digits_full (nChunks e) e.dimension_count k2 hf hk2
    rw [← h]
    refine Finset.sum_congr rfl (fun i hi => ?_)
    have := hco i (Finset.mem_range.mp hi)
    unfold chunkCoord at this
    rw [this]

theorem axis_coord_of_point (dim ch x : Nat) (hc : 1 ≤ ch) (hx : x < dim) :
    x / ch < (dim + ch - 1) / ch ∧ x / ch * ch ≤ x ∧ x < min ((x / ch + 1) * ch) dim := by
  have h1 := Nat.div_add_mod x ch
  have h2 := Nat.mod_lt x (show 0 < ch by omega)
  have h3 : x / ch * ch = ch * (x / ch) := Nat.mul_comm _ _
  have h4 : (x / ch + 1) * ch = x / ch * ch + ch := Nat.succ_mul _ _
  refine ⟨?_, by omega, ?_⟩
  · rw [Nat.div_lt_iff_lt_mul (by omega)]
    have h5 := Nat.div_add_mod (dim + ch - 1) ch
    have h6 := Nat.mod_lt (dim + ch - 1) (show 0 < ch by omega)
    have h7 : (dim + ch - 1) / ch * ch = ch * ((dim + ch - 1) / ch) := Nat.mul_comm _ _
    omega
  · rw [h4]
    omega

theorem axis_coord_unique (dim ch x c : Nat) (hc : 1 ≤ ch) (h1 : c * ch ≤ x)
    (h2 : x < min ((c + 1) * ch) dim) : c = x / ch := by
  have h3 : x < (c + 1) * ch := lt_of_lt_of_le h2 (min_le_left _ _)
  have h4 : x / ch < c + 1 := (Nat.div_lt_iff_lt_mul (by omega)).mpr h3
  have h5 : c ≤ x / ch := (Nat.le_div_iff_mul_le (by omega)).mpr h1
  omega

/-- Every coordinate of the array lies in the ranges of exactly one chunk. -/
theorem chunk_of_point {F : Type} (e : OmEncoder_t F)
    (hdims : ∀ i, i < e.dimension_count → 1 ≤ e.dimensions.getD i 0)
    (hchunks : ∀ i, i < e.dimension_count → 1 ≤ e.chunks.getD i 0)
    (x : Nat → Nat) (hx : ∀ i, i < e.dimension_count → x i < e.dimensions.getD i 0) :
    ∃ k, k < chunkCount e ∧
      (∀ i, i < e.dimension_count →
        chunkCoord e k i * e.chunks.getD i 0 ≤ x i ∧
        x i < min ((chunkCoord e k i + 1) * e.chunks.getD i 0) (e.dimensions.getD i 0)) ∧
      ∀ k2, k2 < chunkCount e →
        (∀ i, i < e.dimension_count →
          chunkCoord e k2 i * e.chunks.getD i 0 ≤ x i ∧
          x i < min ((chunkCoord e k2 i + 1) * e.chunks.getD i 0) (e.dimensions.getD i 0)) →
        k2 = k := by
  obtain ⟨k, hk, hco, huniq⟩ := chunkIndex_of_coords e hdims hchunks
    (fun i => x i / e.chunks.getD i 0)
    (fun i hi => (axis_coord_of_point _ _ _ (hchunks i hi) (hx i hi)).1)
  refine ⟨k, hk, ?_, ?_⟩
  · intro i hi
    rw [hco i hi]
    exact (axis_coord_of_point _ _ _ (hchunks i hi) (hx i hi)).2
  · intro k2 hk2 hin
    refine huniq k2 hk2 (fun i hi => ?_)
    exact axis_coord_unique _ _ _ _ (hchunks i hi) (hin i hi).1 (hin i hi).2

/-- C4 (amended): for positive `dimensions` and `chunks`, with
`n_chunks[i] = ceil(dimensions[i] / chunks[i])`, `C = prod_i n_chunks[i]` and
`c_i = (k / prod_{j>i} n_chunks[j]) mod n_chunks[i]`: the decoding maps the
indices below `C` one-to-one onto the grid `prod_i [0, n_chunks[i])`; every
array coordinate `x` with `x_i < dimensions[i]` lies in
`[c_i * chunks[i], min((c_i + 1) * chunks[i], dimensions[i]))` on every axis for
exactly one `k < C`; and the packed volumes `L'(k)` of the chunks `k < C` sum to
`prod_i dimensions[i]`. When moreover the array and a chunk have fewer than
`2 ^ 63` elements each (and `dimension_count` is a `size_t`), this is what the
code computes: `OmEncoder_countChunks` returns `C`, and for every `k < C` the
first `for` loop of `OmEncoder_compressChunk`, called on the whole array, ends
with `rollingMultiply = C`, with `readCoordinate` the row-major index of the
chunk origin `(c_i * chunks[i])_i` and with `lengthInChunk = L'(k)`. -/
theorem OmEncoder_compressChunk_chunks_partition {F : Type} (e : OmEncoder_t F)
    (hdims : ∀ i, i < e.dimension_count → 1 ≤ e.dimensions.getD i 0)
    (hchunks : ∀ i, i < e.dimension_count → 1 ≤ e.chunks.getD i 0) :
    (∀ i, i < e.dimension_count →
      nChunks e i = ⌈(e.dimensions.getD i 0 : ℚ) / (e.chunks.getD i 0 : ℚ)⌉₊) ∧
    (∀ k i, i < e.dimension_count → chunkCoord e k i < nChunks e i) ∧
    (∀ c : Nat → Nat, (∀ i, i < e.dimension_count → c i < nChunks e i) →
      ∃ k, k < chunkCount e ∧ (∀ i, i < e.dimension_count → chunkCoord e k i = c i) ∧
        ∀ k2, k2 < chunkCount e → (∀ i, i < e.dimension_count → chunkCoord e k2 i = c i) →
          k2 = k) ∧
    (∀ x : Nat → Nat, (∀ i, i < e.dimension_count → x i < e.dimensions.getD i 0) →
      ∃ k, k < chunkCount e ∧
        (∀ i, i < e.dimension_count →
          chunkCoord e k i * e.chunks.getD i 0 ≤ x i ∧
          x i < min ((chunkCoord e k i + 1) * e.chunks.getD i 0) (e.dimensions.getD i 0)) ∧
        ∀ k2, k2 < chunkCount e →
          (∀ i, i < e.dimension_count →
            chunkCoord e k2 i * e.chunks.getD i 0 ≤ x i ∧
            x i < min ((chunkCoord e k2 i + 1) * e.chunks.getD i 0) (e.dimensions.getD i 0)) →
          k2 = k) ∧
    ∑ k in Finset.range (chunkCount e), packedVolume e k
      = ∏ i in Finset.range e.dimension_count, e.dimensions.getD i 0 ∧
    (e.dimension_count < sizeMod →
      2 * (∏ i in Finset.range e.dimension_count, e.dimensions.getD i 0) ≤ sizeMod →
      2 * (∏ i in Finset.range e.dimension_count, e.chunks.getD i 0) ≤ sizeMod →
      OmEncoder_countChunks e = .ok (chunkCount e) ∧
      ∀ k, k < chunkCount e →
        ∃ s : SetupState,
          setupLoop e e.dimensions (List.replicate e.dimension_count 0) e.dimensions k k
              e.dimension_count setupInit = .ok s ∧
          s.rollingMultiply = chunkCount e ∧
          s.readCoordinate
            = ∑ i in Finset.range e.dimension_count,
                chunkCoord e k i * e.chunks.getD i 0
                  * ∏ j in Finset.Ico (i + 1) e.dimension_count, e.dimensions.getD j 0 ∧
          s.rollingMultiplyChunkLength = packedVolume e k) := by
  refine ⟨?_, ?_, chunkIndex_of_coords e hdims hchunks, chunk_of_point e hdims hchunks,
    sum_packedVolume e hdims hchunks, ?_⟩
  · intro i hi
    exact (ceil_div_eq _ _ (hchunks i hi)).symm
  · intro k i hi
    exact chunkCoord_lt e k i (hdims i hi) (hchunks i hi)
  · intro hDlt hmem hbuf
    refine ⟨countChunks_eq_chunkCount e hdims hchunks hmem hbuf, ?_⟩
    intro k hk
    by_cases hD : 1 ≤ e.dimension_count
    · have h : FullInput e k :=
        { hD := hD, hDlt := hDlt, hdims := hdims, hchunks := hchunks, hmem := hmem,
          hbuf := hbuf, hci := hk }
      refine ⟨setupAt e k 0, setupLoop_full_init h, ?_, ?_, lenSuffix_zero e k⟩
      · exact prodIco_zero (nChunks e) e.dimension_count
      · show originSuffix e k 0 = _
        unfold originSuffix dimSuffix
        rw [Finset.range_eq_Ico]
    · have h0 : e.dimension_count = 0 := by omega
      refine ⟨setupInit, ?_, ?_, ?_, ?_⟩
      · rw [h0]
        rfl
      · unfold chunkCount
        rw [h0]
        rfl
      · rw [h0]
        rfl
      · unfold packedVolume
        rw [h0]
        rfl

theorem OmEncoder_compressChunk_chunks_partition_witness :
    (∀ i, i < (pforEncoder [5, 3] [2, 3]).dimension_count →
      1 ≤ (pforEncoder [5, 3] [2, 3]).dimensions.getD i 0) ∧
    (∀ i, i < (pforEncoder [5, 3] [2, 3]).dimension_count →
      1 ≤ (pforEncoder [5, 3] [2, 3]).chunks.getD i 0) ∧
    OmEncoder_countChunks (pforEncoder [5, 3] [2, 3])
      = .ok (chunkCount (pforEncoder [5, 3] [2, 3])) ∧
    ∑ k in Finset.range (chunkCount (pforEncoder [5, 3] [2, 3])),
        packedVolume (pforEncoder [5, 3] [2, 3]) k
      = ∏ i in Finset.range (pforEncoder [5, 3] [2, 3]).dimension_count,
          (pforEncoder [5, 3] [2, 3]).dimensions.getD i 0 :=
  ⟨by decide, by decide,
    ((OmEncoder_compressChunk_chunks_partition (pforEncoder [5, 3] [2, 3]) (by decide)
      (by decide)).2.2.2.2.2 (by decide) (by decide) (by decide)).1,
    (OmEncoder_compressChunk_chunks_partition (pforEncoder [5, 3] [2, 3]) (by decide)
      (by decide)).2.2.2.2.1⟩

/-- C4 as stated fails when the `size_t` arithmetic wraps. For `dimensions = [2]`,
`chunks = [2 ^ 64 - 1]` the grid has `ceil(2 / (2 ^ 64 - 1)) = 1` point, but
`divide_rounded_up` wraps: `OmEncoder_countChunks` returns `0`, so no chunk index
covers the array coordinate `0`, and the decoding loop of
`OmEncoder_compressChunk` divides by zero. For `dimensions = [2 ^ 32, 2 ^ 32]`,
`chunks = [1, 1]` the product of the `2 ^ 32 * 2 ^ 32` chunk counts wraps and
`OmEncoder_countChunks` returns `0` again. -/
theorem OmEncoder_compressChunk_chunks_partition_counterexample :
    (∀ i, i < (pforEncoder [2] [18446744073709551615]).dimension_count →
      1 ≤ (pforEncoder [2] [18446744073709551615]).dimensions.getD i 0 ∧
      1 ≤ (pforEncoder [2] [18446744073709551615]).chunks.getD i 0) ∧
    ⌈(((pforEncoder [2] [18446744073709551615]).dimensions.getD 0 0 : ℕ) : ℚ)
      / (((pforEncoder [2] [18446744073709551615]).chunks.getD 0 0 : ℕ) : ℚ)⌉₊ = 1 ∧
    OmEncoder_countChunks (pforEncoder [2] [18446744073709551615]) = .ok 0 ∧
    setupLoop (pforEncoder [2] [18446744073709551615]) [2] [0] [2] 0 0
        (pforEncoder [2] [18446744073709551615]).dimension_count setupInit
      = .error OmFault.divisionByZero ∧
    (∀ i, i < (pforEncoder [4294967296, 4294967296] [1, 1]).dimension_count →
      1 ≤ (pforEncoder [4294967296, 4294967296] [1, 1]).dimensions.getD i 0 ∧
      1 ≤ (pforEncoder [4294967296, 4294967296] [1, 1]).chunks.getD i 0) ∧
    chunkCount (pforEncoder [4294967296, 4294967296] [1, 1]) = 18446744073709551616 ∧
    OmEncoder_countChunks (pforEncoder [4294967296, 4294967296] [1, 1]) = .ok 0 := by
  refine ⟨by decide, ?_, rfl, rfl, by decide, by decide, rfl⟩
  rw [ceil_div_eq _ _ (by decide)]
  decide

end OmFile
